import Mathlib

/-!
# Table construction of the parser generator

A shallow embedding of `src/compiler/build_tables/build_tables.cc`,
`src/compiler/parse_table.cc` and `src/compiler/lex_table.cc`, together with the
rule algebra and the rule transitions that those files use.

Conventions of the embedding.

* `std::map` and `std::unordered_map` are association lists with one entry per
  key; `m[k] = v` overwrites the entry of `k` or appends a new one.
* `std::set<int>` and `std::set<ISymbol>` fields that are only ever read as sets
  are `Finset`s. Containers that the code iterates over (item sets, the result of
  `expected_inputs`) are duplicate-free lists in iteration order; two item sets
  are the same key of a state map when they hold the same items.
* `size_t` values are `Nat`, the value `-1` being `2 ^ 64 - 1`; `LexStateId` is
  signed and is an `Int`.
* The recursion of `add_parse_state` and `add_lex_state` is not bounded by the
  code, so both take a recursion-depth budget and return `none` when it is
  exhausted.
-/

/-! ## Rule algebra -/

/-- Modelled from the spec: a character set is a set of byte values (0 to 255);
equality is equality of the sets of bytes. -/
abbrev CharacterSet := Finset (Fin 256)

/-- Modelled from the spec: the recognized metadata keys. -/
inductive MetadataKey where
  | START_TOKEN
  | PRECEDENCE
  deriving DecidableEq, Repr

/-- Modelled from the spec: the option bit-flags of an interned symbol, `Token`
and `Auxiliary`, one boolean per bit. -/
structure SymbolOption where
  token : Bool
  auxiliary : Bool
  deriving DecidableEq, Repr

/-- The flag value `SymbolOptionToken`. -/
def SymbolOptionToken : SymbolOption := ⟨true, false⟩

/-- The flag value `SymbolOptionAuxiliary`. -/
def SymbolOptionAuxiliary : SymbolOption := ⟨false, true⟩

/-- Bitwise or of two flag values. -/
def SymbolOption.or (a b : SymbolOption) : SymbolOption :=
  ⟨a.token || b.token, a.auxiliary || b.auxiliary⟩

/-- Modelled from the spec: `ISymbol(index, options)`, an interned symbol. The
one-argument constructor `ISymbol(index)` sets no option. -/
structure ISymbol where
  index : Int
  options : SymbolOption := ⟨false, false⟩
  deriving DecidableEq, Repr

/-- The symbol is a token when its `Token` flag is set. -/
def ISymbol.is_token (s : ISymbol) : Bool := s.options.token

/-- The symbol is auxiliary when its `Auxiliary` flag is set. -/
def ISymbol.is_auxiliary (s : ISymbol) : Bool := s.options.auxiliary

/-- Modelled from the spec: the rule expressions. `String` and `Pattern` are
shorthand that grammar preparation expands into these variants, so they have no
constructor here. -/
inductive Rule where
  | Blank : Rule
  | Symbol (name : String) : Rule
  | ISym (sym : ISymbol) : Rule
  | Character (set : CharacterSet) : Rule
  | Choice (children : List Rule) : Rule
  | Seq (left right : Rule) : Rule
  | Repeat (child : Rule) : Rule
  | Metadata (child : Rule) (value : List (MetadataKey × Int)) : Rule

mutual
/-- Structural equality of rules is decidable. -/
def Rule.decEq : (a b : Rule) → Decidable (a = b)
  | .Blank, .Blank => isTrue rfl
  | .Symbol a, .Symbol b =>
    if h : a = b then isTrue (by rw [h]) else isFalse (by intro e; cases e; exact h rfl)
  | .ISym a, .ISym b =>
    if h : a = b then isTrue (by rw [h]) else isFalse (by intro e; cases e; exact h rfl)
  | .Character a, .Character b =>
    if h : a = b then isTrue (by rw [h]) else isFalse (by intro e; cases e; exact h rfl)
  | .Choice a, .Choice b =>
    match Rule.decEqList a b with
    | isTrue h => isTrue (by rw [h])
    | isFalse h => isFalse (by intro e; cases e; exact h rfl)
  | .Seq a1 a2, .Seq b1 b2 =>
    match Rule.decEq a1 b1, Rule.decEq a2 b2 with
    | isTrue h1, isTrue h2 => isTrue (by rw [h1, h2])
    | isFalse h, _ => isFalse (by intro e; cases e; exact h rfl)
    | _, isFalse h => isFalse (by intro e; cases e; exact h rfl)
  | .Repeat a, .Repeat b =>
    match Rule.decEq a b with
    | isTrue h => isTrue (by rw [h])
    | isFalse h => isFalse (by intro e; cases e; exact h rfl)
  | .Metadata a m, .Metadata b n =>
    match Rule.decEq a b with
    | isTrue h =>
      if h2 : m = n then isTrue (by rw [h, h2])
      else isFalse (by intro e; cases e; exact h2 rfl)
    | isFalse h => isFalse (by intro e; cases e; exact h rfl)
  | .Blank, .Symbol _ => isFalse (by intro e; cases e)
  | .Blank, .ISym _ => isFalse (by intro e; cases e)
  | .Blank, .Character _ => isFalse (by intro e; cases e)
  | .Blank, .Choice _ => isFalse (by intro e; cases e)
  | .Blank, .Seq _ _ => isFalse (by intro e; cases e)
  | .Blank, .Repeat _ => isFalse (by intro e; cases e)
  | .Blank, .Metadata _ _ => isFalse (by intro e; cases e)
  | .Symbol _, .Blank => isFalse (by intro e; cases e)
  | .Symbol _, .ISym _ => isFalse (by intro e; cases e)
  | .Symbol _, .Character _ => isFalse (by intro e; cases e)
  | .Symbol _, .Choice _ => isFalse (by intro e; cases e)
  | .Symbol _, .Seq _ _ => isFalse (by intro e; cases e)
  | .Symbol _, .Repeat _ => isFalse (by intro e; cases e)
  | .Symbol _, .Metadata _ _ => isFalse (by intro e; cases e)
  | .ISym _, .Blank => isFalse (by intro e; cases e)
  | .ISym _, .Symbol _ => isFalse (by intro e; cases e)
  | .ISym _, .Character _ => isFalse (by intro e; cases e)
  | .ISym _, .Choice _ => isFalse (by intro e; cases e)
  | .ISym _, .Seq _ _ => isFalse (by intro e; cases e)
  | .ISym _, .Repeat _ => isFalse (by intro e; cases e)
  | .ISym _, .Metadata _ _ => isFalse (by intro e; cases e)
  | .Character _, .Blank => isFalse (by intro e; cases e)
  | .Character _, .Symbol _ => isFalse (by intro e; cases e)
  | .Character _, .ISym _ => isFalse (by intro e; cases e)
  | .Character _, .Choice _ => isFalse (by intro e; cases e)
  | .Character _, .Seq _ _ => isFalse (by intro e; cases e)
  | .Character _, .Repeat _ => isFalse (by intro e; cases e)
  | .Character _, .Metadata _ _ => isFalse (by intro e; cases e)
  | .Choice _, .Blank => isFalse (by intro e; cases e)
  | .Choice _, .Symbol _ => isFalse (by intro e; cases e)
  | .Choice _, .ISym _ => isFalse (by intro e; cases e)
  | .Choice _, .Character _ => isFalse (by intro e; cases e)
  | .Choice _, .Seq _ _ => isFalse (by intro e; cases e)
  | .Choice _, .Repeat _ => isFalse (by intro e; cases e)
  | .Choice _, .Metadata _ _ => isFalse (by intro e; cases e)
  | .Seq _ _, .Blank => isFalse (by intro e; cases e)
  | .Seq _ _, .Symbol _ => isFalse (by intro e; cases e)
  | .Seq _ _, .ISym _ => isFalse (by intro e; cases e)
  | .Seq _ _, .Character _ => isFalse (by intro e; cases e)
  | .Seq _ _, .Choice _ => isFalse (by intro e; cases e)
  | .Seq _ _, .Repeat _ => isFalse (by intro e; cases e)
  | .Seq _ _, .Metadata _ _ => isFalse (by intro e; cases e)
  | .Repeat _, .Blank => isFalse (by intro e; cases e)
  | .Repeat _, .Symbol _ => isFalse (by intro e; cases e)
  | .Repeat _, .ISym _ => isFalse (by intro e; cases e)
  | .Repeat _, .Character _ => isFalse (by intro e; cases e)
  | .Repeat _, .Choice _ => isFalse (by intro e; cases e)
  | .Repeat _, .Seq _ _ => isFalse (by intro e; cases e)
  | .Repeat _, .Metadata _ _ => isFalse (by intro e; cases e)
  | .Metadata _ _, .Blank => isFalse (by intro e; cases e)
  | .Metadata _ _, .Symbol _ => isFalse (by intro e; cases e)
  | .Metadata _ _, .ISym _ => isFalse (by intro e; cases e)
  | .Metadata _ _, .Character _ => isFalse (by intro e; cases e)
  | .Metadata _ _, .Choice _ => isFalse (by intro e; cases e)
  | .Metadata _ _, .Seq _ _ => isFalse (by intro e; cases e)
  | .Metadata _ _, .Repeat _ => isFalse (by intro e; cases e)
/-- Structural equality of lists of rules is decidable. -/
def Rule.decEqList : (a b : List Rule) → Decidable (a = b)
  | [], [] => isTrue rfl
  | [], _ :: _ => isFalse (by intro e; cases e)
  | _ :: _, [] => isFalse (by intro e; cases e)
  | a :: as, b :: bs =>
    match Rule.decEq a b, Rule.decEqList as bs with
    | isTrue h1, isTrue h2 => isTrue (by rw [h1, h2])
    | isFalse h, _ => isFalse (by intro e; cases e; exact h rfl)
    | _, isFalse h => isFalse (by intro e; cases e; exact h rfl)
end

instance : DecidableEq Rule := Rule.decEq

/-- Modelled from the spec: `Seq::Build(children)`, the smart constructor of
sequences. It nests the children to the left and collapses `Blank`: a `Blank`
child adds nothing, and the sequence of no child is `Blank`. -/
def Seq.Build (children : List Rule) : Rule :=
  children.foldl
    (fun acc r => if acc = Rule.Blank then r else if r = Rule.Blank then acc else Rule.Seq acc r)
    Rule.Blank

/-- One step of `Choice::Build`: add a child to the alternatives collected so
far, flattening a nested choice and skipping an alternative already present. -/
def Choice.add_element (elements : List Rule) (r : Rule) : List Rule :=
  match r with
  | Rule.Choice cs => cs.foldl (fun acc c => if c ∈ acc then acc else acc ++ [c]) elements
  | _ => if r ∈ elements then elements else elements ++ [r]

/-- Modelled from the spec: `Choice::Build(children)`, the smart constructor of
choices. The alternation is flattened, an alternative occurs once, and a choice
of one alternative is that alternative. -/
def Choice.Build (children : List Rule) : Rule :=
  match children.foldl Choice.add_element [] with
  | [r] => r
  | cs => Rule.Choice cs

mutual
/-- Modelled from the spec: `is_nullable(rule)`, structural: `Blank` true;
`Symbol`/`Character` false; `Choice` when any child is nullable; `Seq` when both
sides are; `Repeat` false; `Metadata` when its child is. -/
def is_nullable : Rule → Bool
  | .Blank => true
  | .Symbol _ => false
  | .ISym _ => false
  | .Character _ => false
  | .Choice cs => is_nullable_any cs
  | .Seq l r => is_nullable l && is_nullable r
  | .Repeat _ => false
  | .Metadata c _ => is_nullable c
/-- Some rule of the list is nullable. -/
def is_nullable_any : List Rule → Bool
  | [] => false
  | c :: cs => is_nullable c || is_nullable_any cs
end

/-! ## Rule transitions -/

/-- Modelled from the spec: union one symbol transition into a transition map;
when the key collides, the two residuals are merged by `Choice::Build`. -/
def merge_sym_transition (left : List (ISymbol × Rule)) (k : ISymbol) (r : Rule) :
    List (ISymbol × Rule) :=
  match left with
  | [] => [(k, r)]
  | (k', r') :: rest =>
    if k' = k then (k', Choice.Build [r', r]) :: rest
    else (k', r') :: merge_sym_transition rest k r

/-- Modelled from the spec: the union of two symbol transition maps. -/
def merge_sym_transitions (left right : List (ISymbol × Rule)) : List (ISymbol × Rule) :=
  right.foldl (fun acc p => merge_sym_transition acc p.1 p.2) left

/-- Modelled from the spec: union one character transition `B ↦ rB` into a
transition map. Each entry `A ↦ rA` that overlaps `B` is split into `A \ B ↦ rA`
and `A ∩ B ↦ Choice::Build(rA, rB)`, what is left of `B` goes on to the other
entries and is added last; empty pieces are omitted. -/
def merge_char_transition (left : List (CharacterSet × Rule)) (B : CharacterSet) (rB : Rule) :
    List (CharacterSet × Rule) :=
  match left with
  | [] => if B = ∅ then [] else [(B, rB)]
  | (A, rA) :: rest =>
    if A ∩ B = ∅ then (A, rA) :: merge_char_transition rest B rB
    else
      (if A \ B = ∅ then [] else [(A \ B, rA)]) ++
        (A ∩ B, Choice.Build [rA, rB]) :: merge_char_transition rest (B \ A) rB

/-- Modelled from the spec: the union of two character transition maps, folded
entry by entry. -/
def merge_char_transitions (left right : List (CharacterSet × Rule)) :
    List (CharacterSet × Rule) :=
  right.foldl (fun acc p => merge_char_transition acc p.1 p.2) left

mutual
/-- Modelled from the spec: `sym_transitions(rule)`, the symbol derivative, by
structural recursion on the rule. -/
def sym_transitions : Rule → List (ISymbol × Rule)
  | .Blank => []
  | .Symbol _ => []
  | .ISym s => [(s, .Blank)]
  | .Character _ => []
  | .Choice cs => sym_transitions_choice [] cs
  | .Seq head tail =>
    let m := (sym_transitions head).map (fun p => (p.1, Seq.Build [p.2, tail]))
    if is_nullable head then merge_sym_transitions m (sym_transitions tail) else m
  | .Repeat child =>
    (sym_transitions child).map
      (fun p => (p.1, if p.2 = .Blank then .Repeat child else Seq.Build [p.2, .Repeat child]))
  | .Metadata child value => (sym_transitions child).map (fun p => (p.1, .Metadata p.2 value))
/-- The union of the symbol transitions of the children of a choice. -/
def sym_transitions_choice : List (ISymbol × Rule) → List Rule → List (ISymbol × Rule)
  | acc, [] => acc
  | acc, c :: cs => sym_transitions_choice (merge_sym_transitions acc (sym_transitions c)) cs
end

mutual
/-- Modelled from the spec: `char_transitions(rule)`, the character derivative,
of the same shape as `sym_transitions` with character sets at the leaves and
overlapping keys split when maps are merged. -/
def char_transitions : Rule → List (CharacterSet × Rule)
  | .Blank => []
  | .Symbol _ => []
  | .ISym _ => []
  | .Character c => [(c, .Blank)]
  | .Choice cs => char_transitions_choice [] cs
  | .Seq head tail =>
    let m := (char_transitions head).map (fun p => (p.1, Seq.Build [p.2, tail]))
    if is_nullable head then merge_char_transitions m (char_transitions tail) else m
  | .Repeat child =>
    (char_transitions child).map
      (fun p => (p.1, if p.2 = .Blank then .Repeat child else Seq.Build [p.2, .Repeat child]))
  | .Metadata child value => (char_transitions child).map (fun p => (p.1, .Metadata p.2 value))
/-- The union of the character transitions of the children of a choice. -/
def char_transitions_choice :
    List (CharacterSet × Rule) → List Rule → List (CharacterSet × Rule)
  | acc, [] => acc
  | acc, c :: cs => char_transitions_choice (merge_char_transitions acc (char_transitions c)) cs
end

/-- The whitespace separators `' '`, `'\t'`, `'\n'`, `'\r'`. -/
def separator_characters : CharacterSet := {32, 9, 10, 13}

/-- The `after_separators` method of the table builder:
`Seq::Build({ Repeat(CharacterSet({' ', '\t', '\n', '\r'})),
Metadata(Blank, {START_TOKEN: 1}), rule })`. -/
def after_separators (rule : Rule) : Rule :=
  Seq.Build [
    Rule.Repeat (Rule.Character separator_characters),
    Rule.Metadata Rule.Blank [(MetadataKey.START_TOKEN, 1)],
    rule]

/-! ## Rule builders of `rule_transitions_spec.cc` -/

/-- The helper `i_sym(index)`: the rule of an interned symbol without options. -/
def i_sym (index : Int) : Rule := Rule.ISym ⟨index, ⟨false, false⟩⟩

/-- The helper `character({ {lo, hi} })`: the bytes from `lo` to `hi`. -/
def character_range (lo hi : Fin 256) : CharacterSet :=
  Finset.univ.filter (fun c => lo ≤ c ∧ c ≤ hi)

/-- Modelled from the spec: `String(s)` is shorthand for the `Seq` of its
single-character sets. -/
def str (s : List (Fin 256)) : Rule := Seq.Build (s.map (fun c => Rule.Character {c}))

/-! ## Containers -/

/-- The entry of key `k` in an association list, keys being compared by `eqv`
(`std::map::find`, `std::unordered_map::find`). -/
def assoc_find {κ υ : Type} (eqv : κ → κ → Bool) : List (κ × υ) → κ → Option υ
  | [], _ => none
  | (k', v) :: rest, k => if eqv k' k then some v else assoc_find eqv rest k

/-- The assignment `m[k] = v`: overwrite the entry of `k`, or add one. -/
def assoc_assign {κ υ : Type} (eqv : κ → κ → Bool) : List (κ × υ) → κ → υ → List (κ × υ)
  | [], k, v => [(k, v)]
  | (k', v') :: rest, k, v =>
    if eqv k' k then (k', v) :: rest else (k', v') :: assoc_assign eqv rest k v

/-- Equality of keys of the action maps. -/
def key_eq {κ : Type} [DecidableEq κ] (a b : κ) : Bool := decide (a = b)

/-- The member function `insert` of `std::set`, on a duplicate-free list. -/
def set_insert {α : Type} [DecidableEq α] (x : α) (s : List α) : List α :=
  if x ∈ s then s else s ++ [x]

/-- Two item sets are equal when they hold the same items. -/
def same_items {α : Type} [DecidableEq α] (a b : List α) : Bool :=
  a.all (fun x => decide (x ∈ b)) && b.all (fun x => decide (x ∈ a))

/-- The element `v[i]` of a vector after `f` has been applied to it; an index
outside the vector leaves it as it is. -/
def modify_at {α : Type} (f : α → α) : List α → Nat → List α
  | [], _ => []
  | x :: xs, 0 => f x :: xs
  | x :: xs, i + 1 => x :: modify_at f xs i

/-- The value of `(size_t)(-1)`. -/
def SIZE_MAX : Nat := 2 ^ 64 - 1

/-- Conversion of a signed state id to `size_t`. -/
def size_t_of_int (i : Int) : Nat := (i % 2 ^ 64).toNat

/-! ## Parse table (`parse_table.cc`) -/

abbrev ParseStateId := Nat

abbrev LexStateId := Int

inductive ParseActionType where
  | ParseActionTypeError
  | ParseActionTypeAccept
  | ParseActionTypeShift
  | ParseActionTypeReduce
  deriving DecidableEq, Repr

/-- The fields of `ParseAction`. -/
structure ParseAction where
  type : ParseActionType
  symbol : ISymbol
  state_index : Nat
  consumed_symbol_count : Nat
  precedence_values : Finset Int
  deriving DecidableEq

/-- The default constructor `ParseAction::ParseAction()`. -/
def ParseAction.default : ParseAction :=
  ⟨.ParseActionTypeError, ⟨-1, ⟨false, false⟩⟩, SIZE_MAX, 0, ∅⟩

/-- The action `ParseAction::Error()`. -/
def ParseAction.Error : ParseAction :=
  ⟨.ParseActionTypeError, ⟨-1, ⟨false, false⟩⟩, SIZE_MAX, 0, {0}⟩

/-- The action `ParseAction::Accept()`. -/
def ParseAction.Accept : ParseAction :=
  ⟨.ParseActionTypeAccept, ⟨-1, ⟨false, false⟩⟩, SIZE_MAX, 0, {0}⟩

/-- The action `ParseAction::Shift(state_index, precedence_values)`. -/
def ParseAction.Shift (state_index : Nat) (precedence_values : Finset Int) : ParseAction :=
  ⟨.ParseActionTypeShift, ⟨-1, ⟨false, false⟩⟩, state_index, 0, precedence_values⟩

/-- The action `ParseAction::Reduce(symbol, consumed_symbol_count, precedence)`. -/
def ParseAction.Reduce (symbol : ISymbol) (consumed_symbol_count : Nat) (precedence : Int) :
    ParseAction :=
  ⟨.ParseActionTypeReduce, symbol, SIZE_MAX, consumed_symbol_count, {precedence}⟩

/-- The comparison `ParseAction::operator==`. -/
def ParseAction.eq (a other : ParseAction) : Bool :=
  let types_eq := decide (a.type = other.type)
  let state_indices_eq := decide (a.state_index = other.state_index)
  let consumed_symbol_counts_eq :=
    decide (a.consumed_symbol_count = other.consumed_symbol_count)
  types_eq && state_indices_eq && consumed_symbol_counts_eq

/-- A state of the parse table; `ParseState::ParseState()` sets `lex_state_id`
to `-1`. -/
structure ParseState where
  actions : List (ISymbol × ParseAction) := []
  lex_state_id : LexStateId := -1
  deriving DecidableEq

/-- The method `ParseState::expected_inputs`. -/
def ParseState.expected_inputs (state : ParseState) : List ISymbol :=
  state.actions.foldl (fun result pair => set_insert pair.1 result) []

structure ParseTable where
  states : List ParseState := []
  symbols : Finset ISymbol := ∅
  deriving DecidableEq

/-- The method `ParseTable::add_state`: the id returned and the table. -/
def ParseTable.add_state (t : ParseTable) : ParseStateId × ParseTable :=
  let states := t.states ++ [({} : ParseState)]
  (states.length - 1, { t with states := states })

/-- The method `ParseTable::add_action`. -/
def ParseTable.add_action (t : ParseTable) (id : ParseStateId) (symbol : ISymbol)
    (action : ParseAction) : ParseTable :=
  { symbols := insert symbol t.symbols,
    states := modify_at
      (fun s => { s with actions := assoc_assign key_eq s.actions symbol action }) t.states id }

/-- The element `states[id]`; outside the vector, a default state. -/
def ParseTable.state (t : ParseTable) (id : ParseStateId) : ParseState :=
  t.states.getD id {}

/-! ## Lex table (`lex_table.cc`) -/

inductive LexActionType where
  | LexActionTypeError
  | LexActionTypeAccept
  | LexActionTypeAdvance
  deriving DecidableEq, Repr

/-- The fields of `LexAction`. -/
structure LexAction where
  type : LexActionType
  symbol : ISymbol
  state_index : Nat
  deriving DecidableEq

/-- The default constructor `LexAction::LexAction()`. -/
def LexAction.default : LexAction := ⟨.LexActionTypeError, ⟨-1, ⟨false, false⟩⟩, SIZE_MAX⟩

/-- The action `LexAction::Error()`. -/
def LexAction.Error : LexAction := ⟨.LexActionTypeError, ⟨-1, ⟨false, false⟩⟩, SIZE_MAX⟩

/-- The action `LexAction::Advance(state_index)`. -/
def LexAction.Advance (state_index : Nat) : LexAction :=
  ⟨.LexActionTypeAdvance, ⟨-1, ⟨false, false⟩⟩, state_index⟩

/-- The action `LexAction::Accept(symbol)`. -/
def LexAction.Accept (symbol : ISymbol) : LexAction :=
  ⟨.LexActionTypeAccept, symbol, SIZE_MAX⟩

/-- The comparison `LexAction::operator==`. -/
def LexAction.eq (a other : LexAction) : Bool :=
  decide (a.type = other.type) && decide (a.state_index = other.state_index) &&
    decide (a.symbol = other.symbol)

/-- A state of the lex table. Its default action is `LexAction()`; the token
start flag of a new state is off. -/
structure LexState where
  actions : List (CharacterSet × LexAction) := []
  default_action : LexAction := LexAction.default
  is_token_start : Bool := false
  deriving DecidableEq

/-- The method `LexState::expected_inputs`. -/
def LexState.expected_inputs (state : LexState) : List CharacterSet :=
  state.actions.foldl (fun result pair => set_insert pair.1 result) []

structure LexTable where
  states : List LexState := []
  error_state : LexState := {}
  deriving DecidableEq

/-- The constant `LexTable::ERROR_STATE_ID`. -/
def LexTable.ERROR_STATE_ID : LexStateId := -1

/-- The method `LexTable::add_state`: the id returned and the table. -/
def LexTable.add_state (t : LexTable) : LexStateId × LexTable :=
  let states := t.states ++ [({} : LexState)]
  (((states.length : Int) - 1), { t with states := states })

/-- The method `LexTable::state`, read: a negative id is the error state. -/
def LexTable.state (t : LexTable) (id : LexStateId) : LexState :=
  if id < 0 then t.error_state else t.states.getD id.toNat {}

/-- The method `LexTable::state`, written through: the state that `id` refers
to is replaced by its image under `f`. -/
def LexTable.modify_state (t : LexTable) (id : LexStateId) (f : LexState → LexState) :
    LexTable :=
  if id < 0 then { t with error_state := f t.error_state }
  else { t with states := modify_at f t.states id.toNat }

/-- The method `LexTable::add_action`. -/
def LexTable.add_action (t : LexTable) (id : LexStateId) (mtch : CharacterSet)
    (action : LexAction) : LexTable :=
  t.modify_state id (fun s => { s with actions := assoc_assign key_eq s.actions mtch action })

/-- The method `LexTable::add_default_action`. -/
def LexTable.add_default_action (t : LexTable) (id : LexStateId) (action : LexAction) :
    LexTable :=
  t.modify_state id (fun s => { s with default_action := action })

/-! ## Items -/

/-- Modelled from the spec: `ParseItem = (lhs, rhs, consumed_symbol_count,
lookahead_sym)`. -/
structure ParseItem where
  lhs : ISymbol
  rhs : Rule
  consumed_symbol_count : Nat
  lookahead_sym : ISymbol
  deriving DecidableEq

/-- Modelled from the spec: `is_done()` holds when `rhs` is `Blank`. -/
def ParseItem.is_done (item : ParseItem) : Bool := decide (item.rhs = Rule.Blank)

/-- Modelled from the spec: `LexItem = (lhs, rhs)`. -/
structure LexItem where
  lhs : ISymbol
  rhs : Rule
  deriving DecidableEq

/-- Modelled from the spec: `is_done()` holds when `rhs` is `Blank`. -/
def LexItem.is_done (item : LexItem) : Bool := decide (item.rhs = Rule.Blank)

abbrev ParseItemSet := List ParseItem

abbrev LexItemSet := List LexItem

/-- Modelled from the spec: the part of `PreparedGrammar` that the table builder
reads: the ordered main and auxiliary rules, and `rule(symbol)`. -/
structure PreparedGrammar where
  rules : List (String × Rule)
  aux_rules : List (String × Rule)
  rule : ISymbol → Rule

/-- The collaborators of the table builder that are declared outside
`build_tables.cc`: the built-in symbols, the item methods `precedence` and
`is_token_start`, the item set closure and transitions (already applied to the
grammar), the two decisions of the conflict manager, whose state has type `κ`,
and the lexical grammar. -/
structure Collaborators (κ : Type) where
  START : ISymbol
  END_OF_INPUT : ISymbol
  is_built_in : ISymbol → Bool
  precedence : ParseItem → Int
  is_token_start : LexItem → Bool
  item_set_closure : ParseItemSet → ParseItemSet
  sym_transitions : ParseItemSet → List (ISymbol × ParseItemSet)
  char_transitions : LexItemSet → List (CharacterSet × LexItemSet)
  resolve_parse_action : κ → ISymbol → ParseAction → ParseAction → Bool × κ
  resolve_lex_action : κ → LexAction → LexAction → Bool × κ
  lex_grammar : PreparedGrammar

/-! ## Table builder (`build_tables.cc`) -/

/-- The member variables of `TableBuilder` that change during the build. -/
structure TableBuilder (κ : Type) where
  conflict_manager : κ
  parse_state_ids : List (ParseItemSet × ParseStateId) := []
  lex_state_ids : List (LexItemSet × LexStateId) := []
  parse_table : ParseTable := {}
  lex_table : LexTable := {}

variable {κ : Type}

/-- The method `TableBuilder::precedence_values_for_item_set`. -/
def precedence_values_for_item_set (E : Collaborators κ) (item_set : ParseItemSet) :
    Finset Int :=
  item_set.foldl
    (fun result item =>
      if item.consumed_symbol_count > 0 then insert (E.precedence item) result else result)
    ∅

/-- The body of the loop of `add_shift_actions` for one transition;
`add_parse_state` is the recursive call. -/
def add_shift_action (E : Collaborators κ)
    (add_parse_state : ParseItemSet → TableBuilder κ → Option (ParseStateId × TableBuilder κ))
    (state_id : ParseStateId) (transition : ISymbol × ParseItemSet) (b : TableBuilder κ) :
    Option (TableBuilder κ) :=
  let symbol := transition.1
  let item_set := transition.2
  let precedence_values := precedence_values_for_item_set E item_set
  let current_actions := (b.parse_table.state state_id).actions
  let install := fun (b : TableBuilder κ) =>
    match add_parse_state item_set b with
    | none => none
    | some (new_state_id, b1) =>
      some { b1 with
        parse_table := b1.parse_table.add_action state_id symbol
          (ParseAction.Shift new_state_id precedence_values) }
  match assoc_find key_eq current_actions symbol with
  | none => install b
  | some current_action =>
    let d := E.resolve_parse_action b.conflict_manager symbol current_action
      (ParseAction.Shift 0 precedence_values)
    if d.1 then install { b with conflict_manager := d.2 }
    else some { b with conflict_manager := d.2 }

/-- The loop of `add_shift_actions` over the transitions that remain. -/
def add_shift_actions_loop (E : Collaborators κ)
    (add_parse_state : ParseItemSet → TableBuilder κ → Option (ParseStateId × TableBuilder κ))
    (state_id : ParseStateId) :
    List (ISymbol × ParseItemSet) → TableBuilder κ → Option (TableBuilder κ)
  | [], b => some b
  | transition :: rest, b =>
    match add_shift_action E add_parse_state state_id transition b with
    | none => none
    | some b1 => add_shift_actions_loop E add_parse_state state_id rest b1

/-- The method `TableBuilder::add_shift_actions`. -/
def add_shift_actions (E : Collaborators κ)
    (add_parse_state : ParseItemSet → TableBuilder κ → Option (ParseStateId × TableBuilder κ))
    (item_set : ParseItemSet) (state_id : ParseStateId) (b : TableBuilder κ) :
    Option (TableBuilder κ) :=
  add_shift_actions_loop E add_parse_state state_id (E.sym_transitions item_set) b

/-- The body of the loop of `add_advance_actions` for one transition. -/
def add_advance_action
    (add_lex_state : LexItemSet → TableBuilder κ → Option (LexStateId × TableBuilder κ))
    (state_id : LexStateId) (transition : CharacterSet × LexItemSet) (b : TableBuilder κ) :
    Option (TableBuilder κ) :=
  let rule := transition.1
  let new_item_set := transition.2
  match add_lex_state new_item_set b with
  | none => none
  | some (new_state_id, b1) =>
    some { b1 with
      lex_table := b1.lex_table.add_action state_id rule
        (LexAction.Advance (size_t_of_int new_state_id)) }

/-- The loop of `add_advance_actions` over the transitions that remain. -/
def add_advance_actions_loop
    (add_lex_state : LexItemSet → TableBuilder κ → Option (LexStateId × TableBuilder κ))
    (state_id : LexStateId) :
    List (CharacterSet × LexItemSet) → TableBuilder κ → Option (TableBuilder κ)
  | [], b => some b
  | transition :: rest, b =>
    match add_advance_action add_lex_state state_id transition b with
    | none => none
    | some b1 => add_advance_actions_loop add_lex_state state_id rest b1

/-- The method `TableBuilder::add_advance_actions`. -/
def add_advance_actions (E : Collaborators κ)
    (add_lex_state : LexItemSet → TableBuilder κ → Option (LexStateId × TableBuilder κ))
    (item_set : LexItemSet) (state_id : LexStateId) (b : TableBuilder κ) :
    Option (TableBuilder κ) :=
  add_advance_actions_loop add_lex_state state_id (E.char_transitions item_set) b

/-- The method `TableBuilder::add_token_start`. -/
def add_token_start (E : Collaborators κ) (item_set : LexItemSet) (state_id : LexStateId)
    (b : TableBuilder κ) : TableBuilder κ :=
  item_set.foldl
    (fun b item =>
      if E.is_token_start item then
        { b with lex_table :=
            b.lex_table.modify_state state_id (fun s => { s with is_token_start := true }) }
      else b)
    b

/-- The body of the loop of `add_accept_token_actions` for one item. -/
def add_accept_token_action (E : Collaborators κ) (state_id : LexStateId)
    (b : TableBuilder κ) (item : LexItem) : TableBuilder κ :=
  if item.is_done then
    let current_action := (b.lex_table.state state_id).default_action
    let new_action := LexAction.Accept item.lhs
    let d := E.resolve_lex_action b.conflict_manager current_action new_action
    if d.1 then
      { b with
        conflict_manager := d.2,
        lex_table := b.lex_table.add_default_action state_id new_action }
    else { b with conflict_manager := d.2 }
  else b

/-- The method `TableBuilder::add_accept_token_actions`. -/
def add_accept_token_actions (E : Collaborators κ) (item_set : LexItemSet)
    (state_id : LexStateId) (b : TableBuilder κ) : TableBuilder κ :=
  item_set.foldl (add_accept_token_action E state_id) b

/-- The body of the loop of `add_reduce_actions` for one item. -/
def add_reduce_action (E : Collaborators κ) (state_id : ParseStateId)
    (b : TableBuilder κ) (item : ParseItem) : TableBuilder κ :=
  if item.is_done then
    let action :=
      if item.lhs = E.START then ParseAction.Accept
      else ParseAction.Reduce item.lhs item.consumed_symbol_count (E.precedence item)
    let current_actions := (b.parse_table.state state_id).actions
    match assoc_find key_eq current_actions item.lookahead_sym with
    | none =>
      { b with parse_table := b.parse_table.add_action state_id item.lookahead_sym action }
    | some current_action =>
      let d := E.resolve_parse_action b.conflict_manager item.lookahead_sym current_action action
      if d.1 then
        { b with
          conflict_manager := d.2,
          parse_table := b.parse_table.add_action state_id item.lookahead_sym action }
      else { b with conflict_manager := d.2 }
  else b

/-- The method `TableBuilder::add_reduce_actions`. -/
def add_reduce_actions (E : Collaborators κ) (item_set : ParseItemSet)
    (state_id : ParseStateId) (b : TableBuilder κ) : TableBuilder κ :=
  item_set.foldl (add_reduce_action E state_id) b

/-- The body of the loop of `lex_item_set_for_parse_state` for one symbol. -/
def lex_item_set_add_symbol (E : Collaborators κ) (result : LexItemSet) (symbol : ISymbol) :
    LexItemSet :=
  let result1 :=
    if symbol.is_token && !E.is_built_in symbol then
      set_insert ⟨symbol, after_separators (E.lex_grammar.rule symbol)⟩ result
    else result
  if symbol = E.END_OF_INPUT then
    set_insert ⟨symbol, after_separators (Rule.Character {0})⟩ result1
  else result1

/-- The method `TableBuilder::lex_item_set_for_parse_state`. -/
def lex_item_set_for_parse_state (E : Collaborators κ) (state : ParseState) : LexItemSet :=
  state.expected_inputs.foldl (lex_item_set_add_symbol E) []

/-- The method `TableBuilder::add_lex_state`, with a bound on the depth of the
recursion: the bound is the number of nested calls that may still create a
state. -/
def add_lex_state (E : Collaborators κ) :
    Nat → LexItemSet → TableBuilder κ → Option (LexStateId × TableBuilder κ)
  | 0, item_set, b =>
    match assoc_find same_items b.lex_state_ids item_set with
    | some id => some (id, b)
    | none => none
  | fuel + 1, item_set, b =>
    match assoc_find same_items b.lex_state_ids item_set with
    | some id => some (id, b)
    | none =>
      let added := b.lex_table.add_state
      let state_id := added.1
      let b1 := { b with
        lex_table := added.2,
        lex_state_ids := assoc_assign same_items b.lex_state_ids item_set state_id }
      let b2 := add_token_start E item_set state_id b1
      match add_advance_actions E (add_lex_state E fuel) item_set state_id b2 with
      | none => none
      | some b3 => some (state_id, add_accept_token_actions E item_set state_id b3)

/-- The method `TableBuilder::assign_lex_state`; `add_lex_state` is the call
with its depth bound. -/
def assign_lex_state (E : Collaborators κ)
    (add_lex_state : LexItemSet → TableBuilder κ → Option (LexStateId × TableBuilder κ))
    (state_id : ParseStateId) (b : TableBuilder κ) : Option (TableBuilder κ) :=
  let state := b.parse_table.state state_id
  match add_lex_state (lex_item_set_for_parse_state E state) b with
  | none => none
  | some (id, b1) =>
    some { b1 with
      parse_table := { b1.parse_table with
        states := modify_at (fun s => { s with lex_state_id := id }) b1.parse_table.states
          state_id } }

/-- The method `TableBuilder::add_parse_state`, with a bound on the depth of the
recursion: the bound is the number of nested calls that may still create a
state. -/
def add_parse_state (E : Collaborators κ) :
    Nat → ParseItemSet → TableBuilder κ → Option (ParseStateId × TableBuilder κ)
  | 0, item_set, b =>
    match assoc_find same_items b.parse_state_ids item_set with
    | some id => some (id, b)
    | none => none
  | fuel + 1, item_set, b =>
    match assoc_find same_items b.parse_state_ids item_set with
    | some id => some (id, b)
    | none =>
      let added := b.parse_table.add_state
      let state_id := added.1
      let b1 := { b with
        parse_table := added.2,
        parse_state_ids := assoc_assign same_items b.parse_state_ids item_set state_id }
      match add_shift_actions E (add_parse_state E fuel) item_set state_id b1 with
      | none => none
      | some b2 =>
        let b3 := add_reduce_actions E item_set state_id b2
        match assign_lex_state E (add_lex_state E fuel) state_id b3 with
        | none => none
        | some b4 => some (state_id, b4)

/-- The first loop of `add_error_lex_state` from index `i` on, also the second
with the options of auxiliary tokens. -/
def add_error_items (options : SymbolOption) :
    Nat → List (String × Rule) → LexItemSet → LexItemSet
  | _, [], error_item_set => error_item_set
  | i, rule :: rest, error_item_set =>
    add_error_items options (i + 1) rest
      (set_insert ⟨⟨(i : Int), options⟩, after_separators rule.2⟩ error_item_set)

/-- The item set that `add_error_lex_state` builds. -/
def error_item_set (E : Collaborators κ) : LexItemSet :=
  let s1 := add_error_items SymbolOptionToken 0 E.lex_grammar.rules []
  let s2 := add_error_items (SymbolOptionToken.or SymbolOptionAuxiliary) 0
    E.lex_grammar.aux_rules s1
  set_insert ⟨E.END_OF_INPUT, after_separators (Rule.Character {0})⟩ s2

/-- The method `TableBuilder::add_error_lex_state`. -/
def add_error_lex_state (E : Collaborators κ) (fuel : Nat) (b : TableBuilder κ) :
    Option (TableBuilder κ) :=
  match add_advance_actions E (add_lex_state E fuel) (error_item_set E)
      LexTable.ERROR_STATE_ID b with
  | none => none
  | some b1 =>
    some (add_accept_token_actions E (error_item_set E) LexTable.ERROR_STATE_ID b1)

/-- The item set that `build` starts from: the closure of the start item. -/
def start_item_set (E : Collaborators κ) : ParseItemSet :=
  E.item_set_closure [⟨E.START, Rule.ISym ⟨0, ⟨false, false⟩⟩, 0, E.END_OF_INPUT⟩]

/-- The method `TableBuilder::build`, on a builder as its constructor leaves it,
`manager` being the state of the new conflict manager. -/
def build (E : Collaborators κ) (fuel : Nat) (manager : κ) : Option (TableBuilder κ) :=
  match add_parse_state E fuel (start_item_set E) { conflict_manager := manager } with
  | none => none
  | some (_, b1) => add_error_lex_state E fuel b1

/-! ## A small grammar

The grammar `S → A`, `A → 'a'`: the token `A` is symbol 0 of the lexical grammar,
whose rule is the character `a`. -/

namespace Example

/-- The token `A`. -/
def tokenA : ISymbol := ⟨0, SymbolOptionToken⟩

/-- The nonterminal `S`. -/
def symS : ISymbol := ⟨0, ⟨false, false⟩⟩

/-- The built-in symbols. -/
def START : ISymbol := ⟨-1, ⟨false, false⟩⟩

def END_OF_INPUT : ISymbol := ⟨-2, SymbolOptionToken⟩

/-- The start item, and the item for the rule of `S`. -/
def item0 : ParseItem := ⟨START, Rule.ISym symS, 0, END_OF_INPUT⟩

def itemS0 : ParseItem := ⟨symS, Rule.ISym tokenA, 0, END_OF_INPUT⟩

/-- The items reached by shifting `S` and by shifting `A`. -/
def item1 : ParseItem := ⟨START, Rule.Blank, 1, END_OF_INPUT⟩

def itemS1 : ParseItem := ⟨symS, Rule.Blank, 1, END_OF_INPUT⟩

/-- Add an item to the bucket of a character set. -/
def add_to_bucket (acc : List (CharacterSet × LexItemSet)) (c : CharacterSet) (item : LexItem) :
    List (CharacterSet × LexItemSet) :=
  match assoc_find key_eq acc c with
  | none => acc ++ [(c, [item])]
  | some bucket => assoc_assign key_eq acc c (set_insert item bucket)

/-- Item set transitions of the lexical side: the residuals of the items,
collected by character set (the keys that arise in this grammar are equal or
disjoint). -/
def char_transitions_of_items (items : LexItemSet) : List (CharacterSet × LexItemSet) :=
  items.foldl
    (fun acc item =>
      (char_transitions item.rhs).foldl (fun acc p => add_to_bucket acc p.1 ⟨item.lhs, p.2⟩) acc)
    []

/-- The collaborators for this grammar; the conflict manager counts the
decisions it is asked for and always lets the new action win. -/
def collaborators : Collaborators Nat where
  START := START
  END_OF_INPUT := END_OF_INPUT
  is_built_in := fun s => decide (s.index < 0)
  precedence := fun _ => 0
  is_token_start := fun _ => false
  item_set_closure := fun s => if s = [item0] then [item0, itemS0] else s
  sym_transitions := fun s =>
    if s = [item0, itemS0] then [(symS, [item1]), (tokenA, [itemS1])] else []
  char_transitions := char_transitions_of_items
  resolve_parse_action := fun n _ _ _ => (true, n + 1)
  resolve_lex_action := fun n _ _ => (true, n + 1)
  lex_grammar := ⟨[("a", Rule.Character {97})], [], fun _ => Rule.Character {97}⟩

/-- The builder when `add_parse_state` has added the start state and recorded
its id. -/
def fresh_start : TableBuilder Nat :=
  { conflict_manager := 0,
    parse_table := { states := [{}] },
    parse_state_ids := [(start_item_set collaborators, 0)] }

/-- The call of `add_shift_actions` on the fresh start state. -/
def shifted : Option (TableBuilder Nat) :=
  add_shift_actions collaborators (add_parse_state collaborators 2)
    (start_item_set collaborators) 0 fresh_start

/-- The lex items of the token `A` and of the end of input. -/
def lex_itemA : LexItem := ⟨tokenA, after_separators (Rule.Character {97})⟩

def lex_item_end : LexItem := ⟨END_OF_INPUT, after_separators (Rule.Character {0})⟩

/-- The parse item sets and the lex item sets of the automaton of this
grammar. -/
def parse_sets : List ParseItemSet := [[item0, itemS0], [item1], [itemS1]]

def lex_sets : List LexItemSet :=
  [[], [lex_itemA], [lex_item_end], [lex_itemA, lex_item_end], [lex_item_end, lex_itemA]]

end Example

/-! ## Measures and frames of the state enumeration -/

/-- The number of item sets of `sets` that have no entry in the map `ids`. -/
def unrecorded {α υ : Type} [DecidableEq α] (sets : List (List α))
    (ids : List (List α × υ)) : Nat :=
  (sets.filter (fun s => (assoc_find same_items ids s).isNone)).length

/-- The symbols under which `add_shift_actions` and `add_reduce_actions` look
for an action in the state of an item set: the keys of its transitions and the
lookahead symbols of its done items. -/
def expected_symbols (E : Collaborators κ) (item_set : ParseItemSet) : List ISymbol :=
  (E.sym_transitions item_set).map Prod.fst ++
    (item_set.filter (fun item => item.is_done)).map (fun item => item.lookahead_sym)

/-- What a call of `add_lex_state` may change: the parse side is untouched, the
entries of `lex_state_ids` stay, and the lex table does not shrink. -/
structure LexGrows (b b' : TableBuilder κ) : Prop where
  parse_table : b'.parse_table = b.parse_table
  parse_state_ids : b'.parse_state_ids = b.parse_state_ids
  lex_state_ids : ∀ s id, assoc_find same_items b.lex_state_ids s = some id →
    assoc_find same_items b'.lex_state_ids s = some id
  lex_states : b.lex_table.states.length ≤ b'.lex_table.states.length

/-- What a call of `add_parse_state` may change when the parse states below `n`
are out of its reach: these states are untouched, `parse_state_ids` gets new
entries at its end, whose ids are the ids of the new states in increasing order,
and the lex side grows. -/
structure Grows (n : Nat) (b b' : TableBuilder κ) : Prop where
  parse_states : b.parse_table.states.length ≤ b'.parse_table.states.length
  untouched : ∀ i, i < n → b'.parse_table.states[i]? = b.parse_table.states[i]?
  parse_state_ids : ∃ added, b'.parse_state_ids = b.parse_state_ids ++ added ∧
    added.map Prod.snd = List.range' b.parse_table.states.length
      (b'.parse_table.states.length - b.parse_table.states.length)
  lex_state_ids : ∀ s id, assoc_find same_items b.lex_state_ids s = some id →
    assoc_find same_items b'.lex_state_ids s = some id
  lex_states : b.lex_table.states.length ≤ b'.lex_table.states.length

/-- What the writes to one lex state change: only the contents of the lex table
and the state of the conflict manager. -/
structure LexWrites (b b' : TableBuilder κ) : Prop where
  parse_table : b'.parse_table = b.parse_table
  parse_state_ids : b'.parse_state_ids = b.parse_state_ids
  lex_state_ids : b'.lex_state_ids = b.lex_state_ids
  lex_states : b'.lex_table.states.length = b.lex_table.states.length

/-! ## Notions used to state the properties of the rule transitions -/

/-- Modelled from the spec: the residual of a key in the union of two transition
maps: the residual of the side that has the key, and `Choice::Build` of the two
residuals when both sides have it. -/
def merged_residual (a b : Option Rule) : Option Rule :=
  match a, b with
  | some x, some y => some (Choice.Build [x, y])
  | some x, none => some x
  | none, some y => some y
  | none, none => none

/-! ## Tables reached by their methods -/

/-- The parse tables obtained from the empty table by calls of `add_state` and of
`add_action` on a state of the table. -/
inductive ParseTable.Built : ParseTable → Prop where
  | empty : ParseTable.Built {}
  | add_state (t : ParseTable) : ParseTable.Built t → ParseTable.Built t.add_state.2
  | add_action (t : ParseTable) (id : ParseStateId) (symbol : ISymbol) (action : ParseAction) :
      ParseTable.Built t → id < t.states.length →
      ParseTable.Built (t.add_action id symbol action)

/-- Modelled from the spec: the strings of symbols that a rule matches. `Blank`
matches the empty string, a symbol matches itself, a choice what some child
matches, a sequence the concatenations, `Repeat` one or more repetitions of what
its child matches, and `Metadata` what its child matches. -/
inductive Matches : Rule → List ISymbol → Prop where
  | blank : Matches Rule.Blank []
  | sym (s : ISymbol) : Matches (Rule.ISym s) [s]
  | choice (cs : List Rule) (c : Rule) (w : List ISymbol) :
      c ∈ cs → Matches c w → Matches (Rule.Choice cs) w
  | seq (l r : Rule) (w₁ w₂ : List ISymbol) :
      Matches l w₁ → Matches r w₂ → Matches (Rule.Seq l r) (w₁ ++ w₂)
  | repeat_once (x : Rule) (w : List ISymbol) : Matches x w → Matches (Rule.Repeat x) w
  | repeat_more (x : Rule) (w₁ w₂ : List ISymbol) :
      Matches x w₁ → Matches (Rule.Repeat x) w₂ → Matches (Rule.Repeat x) (w₁ ++ w₂)
  | metadata (c : Rule) (value : List (MetadataKey × Int)) (w : List ISymbol) :
      Matches c w → Matches (Rule.Metadata c value) w

mutual
/-- The rule is built from `Blank`, `ISymbol`, `Choice` with at least one child,
`Seq` and `Metadata`. -/
def is_plain : Rule → Bool
  | .Blank => true
  | .Symbol _ => false
  | .ISym _ => true
  | .Character _ => false
  | .Choice [] => false
  | .Choice (c :: cs) => is_plain c && is_plain_all cs
  | .Seq l r => is_plain l && is_plain r
  | .Repeat _ => false
  | .Metadata c _ => is_plain c
/-- Every rule of the list is plain. -/
def is_plain_all : List Rule → Bool
  | [] => true
  | c :: cs => is_plain c && is_plain_all cs
end

mutual
/-- No character set of the rule is empty. -/
def character_sets_nonempty : Rule → Bool
  | .Blank => true
  | .Symbol _ => true
  | .ISym _ => true
  | .Character c => decide (c ≠ ∅)
  | .Choice cs => character_sets_nonempty_all cs
  | .Seq l r => character_sets_nonempty l && character_sets_nonempty r
  | .Repeat x => character_sets_nonempty x
  | .Metadata c _ => character_sets_nonempty c
/-- No character set of the rules of the list is empty. -/
def character_sets_nonempty_all : List Rule → Bool
  | [] => true
  | c :: cs => character_sets_nonempty c && character_sets_nonempty_all cs
end

/-- The keys of a character transition map are pairwise disjoint. -/
def disjoint_keys (m : List (CharacterSet × Rule)) : Prop :=
  (m.map Prod.fst).Pairwise Disjoint

/-- No key of a character transition map is the empty set. -/
def nonempty_keys (m : List (CharacterSet × Rule)) : Prop :=
  ∀ k ∈ m.map Prod.fst, k ≠ ∅

/-- What a call of `add_lex_state` leaves as it is: the lex states below `n`
and the error state. -/
structure LexFrame (n : Nat) (b b' : TableBuilder κ) : Prop where
  untouched : ∀ i, i < n → b'.lex_table.states[i]? = b.lex_table.states[i]?
  error_state : b'.lex_table.error_state = b.lex_table.error_state

/-- What the writes to the lex state `n` leave as they are: the parse side, the
map `lex_state_ids`, the number of lex states, the other lex states and the
error state. -/
structure LexWritesAt (n : Nat) (b b' : TableBuilder κ) : Prop where
  writes : LexWrites b b'
  others : ∀ i, i ≠ n → b'.lex_table.states[i]? = b.lex_table.states[i]?
  error_state : b'.lex_table.error_state = b.lex_table.error_state

/-- The builder after the first two statements of the new-state branch of
`add_lex_state`: the state is added and its id recorded. -/
def record_lex_state (item_set : LexItemSet) (b : TableBuilder κ) : TableBuilder κ :=
  { b with
    lex_table := b.lex_table.add_state.2,
    lex_state_ids := assoc_assign same_items b.lex_state_ids item_set b.lex_table.add_state.1 }

/-- What the loop of `add_advance_actions` for the lex state `n` leaves as it
is: the other lex states that exist, the error state, and in the state `n` the
token start flag and the default action. -/
structure LexAdvances (n : Nat) (b b' : TableBuilder κ) : Prop where
  grows : LexGrows b b'
  others : ∀ i, i < b.lex_table.states.length → i ≠ n →
    b'.lex_table.states[i]? = b.lex_table.states[i]?
  error_state : b'.lex_table.error_state = b.lex_table.error_state
  is_token_start : (b'.lex_table.states[n]?).map LexState.is_token_start =
    (b.lex_table.states[n]?).map LexState.is_token_start
  default_action : (b'.lex_table.states[n]?).map LexState.default_action =
    (b.lex_table.states[n]?).map LexState.default_action

/-- The collaborators of the small grammar when the item of the token `A`
before its first character counts as a token start. -/
def Example.marking : Collaborators Nat :=
  { Example.collaborators with is_token_start := fun item => decide (item = Example.lex_itemA) }

/-- Every action of the map is an `Advance` to a lex state with a non-negative
id below `n`. -/
def valid_lex_actions (n : Nat) (actions : List (CharacterSet × LexAction)) : Prop :=
  ∀ p ∈ actions, ∃ id : LexStateId,
    0 ≤ id ∧ id.toNat < n ∧ p.2 = LexAction.Advance (size_t_of_int id)

/-- The invariant of the lex side of the builder: the recorded ids index
`lex_table.states`, every action of a lex state or of the error state advances
to a state of `lex_table.states`, and a default action is `Error` or accepts
the left-hand side of a done item of the item set of its state (for the error
state, of the item set of `add_error_lex_state`). -/
structure LexInv (E : Collaborators κ) (b : TableBuilder κ) : Prop where
  ids : ∀ s id, assoc_find same_items b.lex_state_ids s = some id →
    0 ≤ id ∧ id.toNat < b.lex_table.states.length
  actions : ∀ (i : Nat) (st : LexState), b.lex_table.states[i]? = some st →
    valid_lex_actions b.lex_table.states.length st.actions
  error_actions : valid_lex_actions b.lex_table.states.length b.lex_table.error_state.actions
  default_action : ∀ (i : Nat) (st : LexState), b.lex_table.states[i]? = some st →
    st.default_action = LexAction.Error ∨
      ∃ s, assoc_find same_items b.lex_state_ids s = some (i : Int) ∧
        ∃ item ∈ s, item.is_done = true ∧ st.default_action = LexAction.Accept item.lhs
  error_default : b.lex_table.error_state.default_action = LexAction.Error ∨
    ∃ item ∈ error_item_set E, item.is_done = true ∧
      b.lex_table.error_state.default_action = LexAction.Accept item.lhs

/-- The builders that the methods of `TableBuilder` reach from a new one. -/
inductive Reachable (E : Collaborators κ) : TableBuilder κ → Prop where
  | new (manager : κ) : Reachable E { conflict_manager := manager }
  | parse (fuel : Nat) (item_set : ParseItemSet) (b : TableBuilder κ) (id : ParseStateId)
      (b' : TableBuilder κ) :
      Reachable E b → add_parse_state E fuel item_set b = some (id, b') → Reachable E b'
  | lex (fuel : Nat) (item_set : LexItemSet) (b : TableBuilder κ) (id : LexStateId)
      (b' : TableBuilder κ) :
      Reachable E b → add_lex_state E fuel item_set b = some (id, b') → Reachable E b'
  | error_lex (fuel : Nat) (b b' : TableBuilder κ) :
      Reachable E b → add_error_lex_state E fuel b = some b' → Reachable E b'

/-- The entry of the action map of a lex state that `add_advance_actions`
writes for a transition, given the map `lex_state_ids` at the end. -/
def advance_entry (ids : List (LexItemSet × LexStateId)) (transition : CharacterSet × LexItemSet)
    (entry : CharacterSet × LexAction) : Prop :=
  entry.1 = transition.1 ∧
    ∃ id, assoc_find same_items ids transition.2 = some id ∧
      entry.2 = LexAction.Advance (size_t_of_int id)

/-- The branch of the loop of `add_shift_actions` that adds the state of the
successor item set and installs the shift action. -/
def install_shift_action (E : Collaborators κ)
    (add_parse_state : ParseItemSet → TableBuilder κ → Option (ParseStateId × TableBuilder κ))
    (state_id : ParseStateId) (transition : ISymbol × ParseItemSet) (b : TableBuilder κ) :
    Option (TableBuilder κ) :=
  match add_parse_state transition.2 b with
  | none => none
  | some (new_state_id, b1) =>
    some { b1 with
      parse_table := b1.parse_table.add_action state_id transition.1
        (ParseAction.Shift new_state_id (precedence_values_for_item_set E transition.2)) }

/-- The loop of `add_shift_actions` when every iteration takes the branch that
installs the shift action: the conflict manager is not consulted. -/
def install_shift_actions_loop (E : Collaborators κ)
    (add_parse_state : ParseItemSet → TableBuilder κ → Option (ParseStateId × TableBuilder κ))
    (state_id : ParseStateId) :
    List (ISymbol × ParseItemSet) → TableBuilder κ → Option (TableBuilder κ)
  | [], b => some b
  | transition :: rest, b =>
    match install_shift_action E add_parse_state state_id transition b with
    | none => none
    | some b1 => install_shift_actions_loop E add_parse_state state_id rest b1

/-- The builder after the first two statements of the new-state branch of
`add_parse_state`: the state is added and its id recorded. -/
def record_parse_state (item_set : ParseItemSet) (b : TableBuilder κ) : TableBuilder κ :=
  { b with
    parse_table := b.parse_table.add_state.2,
    parse_state_ids :=
      assoc_assign same_items b.parse_state_ids item_set b.parse_table.add_state.1 }

/-- Every successor of the item set of an entry of `parse_state_ids` has an id
in the map `ids`. -/
def explored (E : Collaborators κ) (ids : List (ParseItemSet × ParseStateId))
    (entry : ParseItemSet × ParseStateId) : Prop :=
  ∀ t ∈ E.sym_transitions entry.1, ∃ id, assoc_find same_items ids t.2 = some id

/-- The ids of `parse_state_ids` are the indices of `parse_table.states`, in the
order in which the entries were added. -/
def ParseIds (b : TableBuilder κ) : Prop :=
  b.parse_state_ids.map Prod.snd = List.range b.parse_table.states.length

/-- The ids of `lex_state_ids` are the indices of `lex_table.states`, in the
order in which the entries were added. -/
def LexIds (b : TableBuilder κ) : Prop :=
  b.lex_state_ids.map Prod.snd =
    (List.range b.lex_table.states.length).map (fun i : Nat => (i : Int))

/-- The lex state id of a parse state is the id recorded in `ids` for the lex
item set computed from the actions of the state. -/
def assigned (E : Collaborators κ) (ids : List (LexItemSet × LexStateId)) (st : ParseState) :
    Prop :=
  assoc_find same_items ids (lex_item_set_for_parse_state E st) = some st.lex_state_id

/-- The state index of every `Shift` action of a parse state is an id recorded
in `ids`. -/
def shifts_recorded (ids : List (ParseItemSet × ParseStateId)) (st : ParseState) : Prop :=
  ∀ p ∈ st.actions, p.2.type = ParseActionType.ParseActionTypeShift →
    p.2.state_index ∈ ids.map Prod.snd

/-- A parse state is settled in a builder: its lex state id is assigned and its
shifts lead to recorded states. -/
def settled (E : Collaborators κ) (b : TableBuilder κ) (st : ParseState) : Prop :=
  assigned E b.lex_state_ids st ∧ shifts_recorded b.parse_state_ids st

/-- What the loop of `add_shift_actions` for the state `n` keeps: the states
after `n` are settled and the shifts of the state `n` lead to recorded
states. -/
def ShiftLoopInv (E : Collaborators κ) (n : Nat) (b : TableBuilder κ) : Prop :=
  (∀ (i : Nat) (st : ParseState), n < i → b.parse_table.states[i]? = some st →
    settled E b st) ∧
  (∀ st : ParseState, b.parse_table.states[n]? = some st →
    shifts_recorded b.parse_state_ids st)

/-! ## Depth-first pre-order of the item sets -/

/-- Whether an item set is among the item sets seen so far. -/
def visited (seen : List ParseItemSet) (item_set : ParseItemSet) : Bool :=
  seen.any (fun s => same_items s item_set)

/-- The successors of an item set, visited one after the other in the iteration
order of the transition map; `visit` is the visit of one item set. -/
def preorder_successors
    (visit : ParseItemSet → List ParseItemSet → Option (List ParseItemSet)) :
    List (ISymbol × ParseItemSet) → List ParseItemSet → Option (List ParseItemSet)
  | [], seen => some seen
  | transition :: rest, seen =>
    match visit transition.2 seen with
    | none => none
    | some seen1 => preorder_successors visit rest seen1

/-- The depth-first traversal from an item set, in pre-order: an item set not
seen yet is put at the end of the list of the item sets seen, and then its
successors under `sym_transitions` are visited, in the iteration order of the
transition map. The result is the list of the item sets seen, in the order of
their first visit; the bound is on the depth of the traversal. -/
def preorder (E : Collaborators κ) :
    Nat → ParseItemSet → List ParseItemSet → Option (List ParseItemSet)
  | 0, item_set, seen => if visited seen item_set then some seen else none
  | fuel + 1, item_set, seen =>
    if visited seen item_set then some seen
    else preorder_successors (preorder E fuel) (E.sym_transitions item_set) (seen ++ [item_set])

/-! ## The default action of a lex state -/

/-- One iteration of the loop of `add_accept_token_actions`, on the state of
the conflict manager and the default action of the lex state: for a done item
the conflict manager is asked whether `Accept(lhs)` replaces the default
action. -/
def accept_token_step (E : Collaborators κ) (acc : κ × LexAction) (item : LexItem) :
    κ × LexAction :=
  if item.is_done then
    let d := E.resolve_lex_action acc.1 acc.2 (LexAction.Accept item.lhs)
    (d.2, if d.1 then LexAction.Accept item.lhs else acc.2)
  else acc

/-! ## The points of a build -/

/-- The builder at which one iteration of the loop of `add_shift_actions` calls
`add_parse_state`: the builder as it is when there is no action under the
symbol, the builder after the conflict manager has accepted the shift when
there is one, and none when the conflict manager has refused it. -/
def shift_call_site (E : Collaborators κ) (state_id : ParseStateId)
    (transition : ISymbol × ParseItemSet) (b : TableBuilder κ) : Option (TableBuilder κ) :=
  match assoc_find key_eq (b.parse_table.state state_id).actions transition.1 with
  | none => some b
  | some current_action =>
    let d := E.resolve_parse_action b.conflict_manager transition.1 current_action
      (ParseAction.Shift 0 (precedence_values_for_item_set E transition.2))
    if d.1 then some { b with conflict_manager := d.2 } else none

/-- The builders at the entry and at the return of the calls of `add_lex_state`
that the call `add_lex_state(item_set)` on the builder `b` makes, at any depth,
the call itself included. A nested call is made by the loop of
`add_advance_actions` for a transition, on the builder that the loop has
reached on the transitions before it. -/
inductive LexPoint (E : Collaborators κ) :
    Nat → LexItemSet → TableBuilder κ → TableBuilder κ → Prop where
  | entry (fuel : Nat) (item_set : LexItemSet) (b : TableBuilder κ) :
      LexPoint E fuel item_set b b
  | exit (fuel : Nat) (item_set : LexItemSet) (b : TableBuilder κ) (id : LexStateId)
      (b' : TableBuilder κ) :
      add_lex_state E fuel item_set b = some (id, b') → LexPoint E fuel item_set b b'
  | nested (fuel : Nat) (item_set : LexItemSet) (b : TableBuilder κ)
      (earlier : List (CharacterSet × LexItemSet)) (transition : CharacterSet × LexItemSet)
      (later : List (CharacterSet × LexItemSet)) (c d : TableBuilder κ) :
      assoc_find same_items b.lex_state_ids item_set = none →
      E.char_transitions item_set = earlier ++ transition :: later →
      add_advance_actions_loop (add_lex_state E fuel) b.lex_table.add_state.1 earlier
        (add_token_start E item_set b.lex_table.add_state.1 (record_lex_state item_set b)) =
        some c →
      LexPoint E fuel transition.2 c d →
      LexPoint E (fuel + 1) item_set b d

/-- The builders at the entry and at the return of the calls of
`add_parse_state` and of `add_lex_state` that the call
`add_parse_state(item_set)` on the builder `b` makes, at any depth, the call
itself included. A nested call of `add_parse_state` is made by the loop of
`add_shift_actions` for a transition, on the builder that the loop has reached
on the transitions before it; the call of `add_lex_state` is made by
`assign_lex_state`, after `add_reduce_actions`. -/
inductive ParsePoint (E : Collaborators κ) :
    Nat → ParseItemSet → TableBuilder κ → TableBuilder κ → Prop where
  | entry (fuel : Nat) (item_set : ParseItemSet) (b : TableBuilder κ) :
      ParsePoint E fuel item_set b b
  | exit (fuel : Nat) (item_set : ParseItemSet) (b : TableBuilder κ) (id : ParseStateId)
      (b' : TableBuilder κ) :
      add_parse_state E fuel item_set b = some (id, b') → ParsePoint E fuel item_set b b'
  | shift (fuel : Nat) (item_set : ParseItemSet) (b : TableBuilder κ)
      (earlier : List (ISymbol × ParseItemSet)) (transition : ISymbol × ParseItemSet)
      (later : List (ISymbol × ParseItemSet)) (c c1 d : TableBuilder κ) :
      assoc_find same_items b.parse_state_ids item_set = none →
      E.sym_transitions item_set = earlier ++ transition :: later →
      add_shift_actions_loop E (add_parse_state E fuel) b.parse_table.add_state.1 earlier
        (record_parse_state item_set b) = some c →
      shift_call_site E b.parse_table.add_state.1 transition c = some c1 →
      ParsePoint E fuel transition.2 c1 d →
      ParsePoint E (fuel + 1) item_set b d
  | lex (fuel : Nat) (item_set : ParseItemSet) (b b2 d : TableBuilder κ) :
      assoc_find same_items b.parse_state_ids item_set = none →
      add_shift_actions E (add_parse_state E fuel) item_set b.parse_table.add_state.1
        (record_parse_state item_set b) = some b2 →
      LexPoint E fuel
        (lex_item_set_for_parse_state E
          ((add_reduce_actions E item_set b.parse_table.add_state.1 b2).parse_table.state
            b.parse_table.add_state.1))
        (add_reduce_actions E item_set b.parse_table.add_state.1 b2) d →
      ParsePoint E (fuel + 1) item_set b d

/-- The builders at the entry and at the return of the calls of
`add_parse_state` and of `add_lex_state` during `build` on a new builder, and
the builder when `build` returns. -/
inductive BuildPoint (E : Collaborators κ) (fuel : Nat) (manager : κ) :
    TableBuilder κ → Prop where
  | parse (d : TableBuilder κ) :
      ParsePoint E fuel (start_item_set E) { conflict_manager := manager } d →
      BuildPoint E fuel manager d
  | error_lex (id : ParseStateId) (b1 : TableBuilder κ)
      (earlier : List (CharacterSet × LexItemSet)) (transition : CharacterSet × LexItemSet)
      (later : List (CharacterSet × LexItemSet)) (c d : TableBuilder κ) :
      add_parse_state E fuel (start_item_set E) { conflict_manager := manager } =
        some (id, b1) →
      E.char_transitions (error_item_set E) = earlier ++ transition :: later →
      add_advance_actions_loop (add_lex_state E fuel) LexTable.ERROR_STATE_ID earlier b1 =
        some c →
      LexPoint E fuel transition.2 c d →
      BuildPoint E fuel manager d
  | result (b : TableBuilder κ) : build E fuel manager = some b → BuildPoint E fuel manager b

/-- A property of the builder that every step of the methods of `TableBuilder`
keeps. -/
structure Kept (E : Collaborators κ) (P : TableBuilder κ → Prop) : Prop where
  record_lex : ∀ (item_set : LexItemSet) (b : TableBuilder κ),
    assoc_find same_items b.lex_state_ids item_set = none → P b →
    P (record_lex_state item_set b)
  token_start : ∀ (item_set : LexItemSet) (sid : LexStateId) (b : TableBuilder κ),
    P b → P (add_token_start E item_set sid b)
  advance_loop : ∀ (fuel : Nat) (sid : LexStateId) (ts : List (CharacterSet × LexItemSet))
    (b b' : TableBuilder κ), P b →
    add_advance_actions_loop (add_lex_state E fuel) sid ts b = some b' → P b'
  lex : ∀ (fuel : Nat) (item_set : LexItemSet) (b : TableBuilder κ) (id : LexStateId)
    (b' : TableBuilder κ), P b → add_lex_state E fuel item_set b = some (id, b') → P b'
  record_parse : ∀ (item_set : ParseItemSet) (b : TableBuilder κ),
    assoc_find same_items b.parse_state_ids item_set = none → P b →
    P (record_parse_state item_set b)
  manager : ∀ (b : TableBuilder κ) (m : κ), P b → P { b with conflict_manager := m }
  shift_loop : ∀ (fuel : Nat) (sid : ParseStateId) (ts : List (ISymbol × ParseItemSet))
    (b b' : TableBuilder κ), P b →
    add_shift_actions_loop E (add_parse_state E fuel) sid ts b = some b' → P b'
  reduce : ∀ (item_set : ParseItemSet) (sid : ParseStateId) (b : TableBuilder κ),
    P b → P (add_reduce_actions E item_set sid b)
  parse : ∀ (fuel : Nat) (item_set : ParseItemSet) (b : TableBuilder κ) (id : ParseStateId)
    (b' : TableBuilder κ), P b → add_parse_state E fuel item_set b = some (id, b') → P b'
  error_lex : ∀ (fuel : Nat) (b b' : TableBuilder κ), P b →
    add_error_lex_state E fuel b = some b' → P b'

/-! ## Rules with repetitions -/

mutual
/-- The rule is built from `Blank`, `ISymbol`, `Choice` with at least one child,
`Seq`, `Metadata`, and `Repeat` of a rule that is not nullable. -/
def is_proper : Rule → Bool
  | .Blank => true
  | .Symbol _ => false
  | .ISym _ => true
  | .Character _ => false
  | .Choice [] => false
  | .Choice (c :: cs) => is_proper c && is_proper_all cs
  | .Seq l r => is_proper l && is_proper r
  | .Repeat x => is_proper x && !is_nullable x
  | .Metadata c _ => is_proper c
/-- Every rule of the list is proper. -/
def is_proper_all : List Rule → Bool
  | [] => true
  | c :: cs => is_proper c && is_proper_all cs
end

theorem assoc_find_append_of_some {κ υ : Type} (eqv : κ → κ → Bool) (m n : List (κ × υ))
    (k : κ) (v : υ) (h : assoc_find eqv m k = some v) : assoc_find eqv (m ++ n) k = some v := by
  induction m with
  | nil => simp [assoc_find] at h
  | cons p rest ih =>
    obtain ⟨k', v'⟩ := p
    simp only [assoc_find, List.cons_append] at h ⊢
    split
    · rename_i hk; simpa [hk] using h
    · rename_i hk; simp only [hk] at h; exact ih h

theorem assoc_find_append_of_none {κ υ : Type} (eqv : κ → κ → Bool) (m n : List (κ × υ))
    (k : κ) (h : assoc_find eqv m k = none) : assoc_find eqv (m ++ n) k = assoc_find eqv n k := by
  induction m with
  | nil => rfl
  | cons p rest ih =>
    obtain ⟨k', v'⟩ := p
    simp only [assoc_find, List.cons_append] at h ⊢
    split
    · rename_i hk; simp [hk] at h
    · rename_i hk; simp only [hk] at h; exact ih h

theorem assoc_assign_of_none {κ υ : Type} (eqv : κ → κ → Bool) (m : List (κ × υ))
    (k : κ) (v : υ) (h : assoc_find eqv m k = none) : assoc_assign eqv m k v = m ++ [(k, v)] := by
  induction m with
  | nil => rfl
  | cons p rest ih =>
    obtain ⟨k', v'⟩ := p
    simp only [assoc_find] at h
    simp only [assoc_assign, List.cons_append]
    split
    · rename_i hk; simp [hk] at h
    · rename_i hk; simp only [hk] at h; rw [ih h]

theorem same_items_refl {α : Type} [DecidableEq α] (a : List α) : same_items a a = true := by
  simp [same_items]

theorem assoc_find_assign_self {α υ : Type} [DecidableEq α] (m : List (List α × υ))
    (k : List α) (v : υ) (h : assoc_find same_items m k = none) :
    assoc_find same_items (assoc_assign same_items m k v) k = some v := by
  rw [assoc_assign_of_none _ _ _ _ h, assoc_find_append_of_none _ _ _ _ h]
  simp [assoc_find, same_items_refl]

theorem modify_at_length {α : Type} (f : α → α) (l : List α) (i : Nat) :
    (modify_at f l i).length = l.length := by
  induction l generalizing i with
  | nil => rfl
  | cons x xs ih => cases i <;> simp [modify_at, ih]

theorem modify_at_getElem?_ne {α : Type} (f : α → α) (l : List α) (i j : Nat) (h : i ≠ j) :
    (modify_at f l i)[j]? = l[j]? := by
  induction l generalizing i j with
  | nil => rfl
  | cons x xs ih =>
    cases i with
    | zero =>
      cases j with
      | zero => exact absurd rfl h
      | succ j => simp [modify_at]
    | succ i =>
      cases j with
      | zero => simp [modify_at]
      | succ j => simp only [modify_at, List.getElem?_cons_succ]; exact ih i j (by omega)

theorem modify_at_getElem?_eq {α : Type} (f : α → α) (l : List α) (i : Nat) :
    (modify_at f l i)[i]? = l[i]?.map f := by
  induction l generalizing i with
  | nil => rfl
  | cons x xs ih =>
    cases i with
    | zero => simp [modify_at]
    | succ i => simp only [modify_at, List.getElem?_cons_succ]; exact ih i

theorem unrecorded_le_of_preserved {α υ : Type} [DecidableEq α] (sets : List (List α))
    (ids ids' : List (List α × υ))
    (h : ∀ s id, assoc_find same_items ids s = some id →
      assoc_find same_items ids' s = some id) :
    unrecorded sets ids' ≤ unrecorded sets ids := by
  unfold unrecorded
  induction sets with
  | nil => simp
  | cons s rest ih =>
    simp only [List.filter_cons]
    cases hs : assoc_find same_items ids s with
    | none =>
      cases hs' : assoc_find same_items ids' s <;> simp <;> omega
    | some id => simp [h s id hs]; exact ih

theorem unrecorded_lt_of_recorded {α υ : Type} [DecidableEq α] (sets : List (List α))
    (ids ids' : List (List α × υ))
    (h : ∀ s id, assoc_find same_items ids s = some id →
      assoc_find same_items ids' s = some id)
    (s : List α) (hs : s ∈ sets) (hnone : assoc_find same_items ids s = none)
    (id : υ) (hsome : assoc_find same_items ids' s = some id) :
    unrecorded sets ids' < unrecorded sets ids := by
  unfold unrecorded
  induction sets with
  | nil => simp at hs
  | cons t rest ih =>
    simp only [List.filter_cons]
    rcases List.mem_cons.mp hs with rfl | hmem
    · have := unrecorded_le_of_preserved rest ids ids' h
      unfold unrecorded at this
      simp [hnone, hsome]; omega
    · have := ih hmem
      cases ht : assoc_find same_items ids t with
      | none =>
        cases ht' : assoc_find same_items ids' t <;> simp <;> omega
      | some id' => simp [h t id' ht]; exact this

/-! ## Lex states: frame of `add_lex_state` -/

theorem LexTable.modify_state_length (t : LexTable) (id : LexStateId) (f : LexState → LexState) :
    (t.modify_state id f).states.length = t.states.length := by
  unfold LexTable.modify_state
  split
  · rfl
  · simp [modify_at_length]

theorem LexWrites.same (b : TableBuilder κ) : LexWrites b b := ⟨rfl, rfl, rfl, rfl⟩

theorem LexWrites.then_writes {b b' b'' : TableBuilder κ} (h : LexWrites b b') (h' : LexWrites b' b'') :
    LexWrites b b'' :=
  ⟨h'.1.trans h.1, h'.2.trans h.2, h'.3.trans h.3, h'.4.trans h.4⟩

theorem LexWrites.lex_grows {b b' : TableBuilder κ} (h : LexWrites b b') : LexGrows b b' :=
  ⟨h.1, h.2, fun s id hs => by rw [h.3]; exact hs, by rw [h.4]⟩

theorem LexGrows.lex_refl (b : TableBuilder κ) : LexGrows b b :=
  ⟨rfl, rfl, fun _ _ h => h, Nat.le_refl _⟩

theorem LexGrows.lex_trans {b b' b'' : TableBuilder κ} (h : LexGrows b b') (h' : LexGrows b' b'') :
    LexGrows b b'' :=
  ⟨h'.1.trans h.1, h'.2.trans h.2, fun s id hs => h'.3 s id (h.3 s id hs),
    Nat.le_trans h.4 h'.4⟩

theorem add_token_start_writes (E : Collaborators κ) (item_set : LexItemSet)
    (state_id : LexStateId) (b : TableBuilder κ) :
    LexWrites b (add_token_start E item_set state_id b) := by
  unfold add_token_start
  induction item_set generalizing b with
  | nil => exact LexWrites.same b
  | cons item rest ih =>
    simp only [List.foldl_cons]
    refine LexWrites.then_writes ?_ (ih _)
    split
    · exact ⟨rfl, rfl, rfl, LexTable.modify_state_length _ _ _⟩
    · exact LexWrites.same b

theorem add_accept_token_action_writes (E : Collaborators κ) (state_id : LexStateId)
    (b : TableBuilder κ) (item : LexItem) :
    LexWrites b (add_accept_token_action E state_id b item) := by
  unfold add_accept_token_action
  split
  · simp only
    split
    · exact ⟨rfl, rfl, rfl, LexTable.modify_state_length _ _ _⟩
    · exact ⟨rfl, rfl, rfl, rfl⟩
  · exact LexWrites.same b

theorem add_accept_token_actions_writes (E : Collaborators κ) (item_set : LexItemSet)
    (state_id : LexStateId) (b : TableBuilder κ) :
    LexWrites b (add_accept_token_actions E item_set state_id b) := by
  unfold add_accept_token_actions
  induction item_set generalizing b with
  | nil => exact LexWrites.same b
  | cons item rest ih =>
    simp only [List.foldl_cons]
    exact LexWrites.then_writes (add_accept_token_action_writes E state_id b item) (ih _)

theorem add_advance_actions_loop_grows
    (add_lex_state : LexItemSet → TableBuilder κ → Option (LexStateId × TableBuilder κ))
    (hrec : ∀ s b id b', add_lex_state s b = some (id, b') → LexGrows b b')
    (state_id : LexStateId) (transitions : List (CharacterSet × LexItemSet))
    (b b' : TableBuilder κ)
    (h : add_advance_actions_loop add_lex_state state_id transitions b = some b') :
    LexGrows b b' := by
  induction transitions generalizing b with
  | nil =>
    simp only [add_advance_actions_loop, Option.some.injEq] at h
    subst h; exact LexGrows.lex_refl b
  | cons transition rest ih =>
    simp only [add_advance_actions_loop] at h
    cases hstep : add_advance_action add_lex_state state_id transition b with
    | none => simp [hstep] at h
    | some b1 =>
      simp only [hstep] at h
      refine LexGrows.lex_trans ?_ (ih b1 h)
      unfold add_advance_action at hstep
      simp only at hstep
      cases hcall : add_lex_state transition.2 b with
      | none => simp [hcall] at hstep
      | some r =>
        obtain ⟨id, b0⟩ := r
        simp only [hcall, Option.some.injEq] at hstep
        subst hstep
        refine LexGrows.lex_trans (hrec _ _ _ _ hcall) (LexWrites.lex_grows ?_)
        exact ⟨rfl, rfl, rfl, LexTable.modify_state_length _ _ _⟩

theorem add_lex_state_spec (E : Collaborators κ) (fuel : Nat) :
    ∀ (item_set : LexItemSet) (b : TableBuilder κ) (id : LexStateId) (b' : TableBuilder κ),
      add_lex_state E fuel item_set b = some (id, b') →
      LexGrows b b' ∧ assoc_find same_items b'.lex_state_ids item_set = some id := by
  induction fuel with
  | zero =>
    intro item_set b id b' h
    simp only [add_lex_state] at h
    cases hfind : assoc_find same_items b.lex_state_ids item_set with
    | none => simp [hfind] at h
    | some id0 =>
      simp only [hfind, Option.some.injEq, Prod.mk.injEq] at h
      obtain ⟨rfl, rfl⟩ := h
      exact ⟨LexGrows.lex_refl b, hfind⟩
  | succ fuel ih =>
    intro item_set b id b' h
    simp only [add_lex_state] at h
    cases hfind : assoc_find same_items b.lex_state_ids item_set with
    | some id0 =>
      simp only [hfind, Option.some.injEq, Prod.mk.injEq] at h
      obtain ⟨rfl, rfl⟩ := h
      exact ⟨LexGrows.lex_refl b, hfind⟩
    | none =>
      simp only [hfind] at h
      split at h
      · simp at h
      · rename_i b3 hloop
        simp only [Option.some.injEq, Prod.mk.injEq] at h
        obtain ⟨rfl, rfl⟩ := h
        have h1 : LexGrows b
            { b with
              lex_table := b.lex_table.add_state.2,
              lex_state_ids := assoc_assign same_items b.lex_state_ids item_set
                b.lex_table.add_state.1 } := by
          refine ⟨rfl, rfl, ?_, ?_⟩
          · intro s id hs
            simp only
            rw [assoc_assign_of_none _ _ _ _ hfind]
            exact assoc_find_append_of_some _ _ _ _ _ hs
          · simp [LexTable.add_state]
        have h2 := (add_token_start_writes E item_set b.lex_table.add_state.1
          { b with
            lex_table := b.lex_table.add_state.2,
            lex_state_ids := assoc_assign same_items b.lex_state_ids item_set
              b.lex_table.add_state.1 }).lex_grows
        have h3 := add_advance_actions_loop_grows (add_lex_state E fuel)
          (fun s b id b' hs => (ih s b id b' hs).1) _ _ _ _ hloop
        have h4 := (add_accept_token_actions_writes E item_set b.lex_table.add_state.1 b3).lex_grows
        have h234 := (h2.lex_trans h3).lex_trans h4
        refine ⟨h1.lex_trans h234, ?_⟩
        apply h234.lex_state_ids
        exact assoc_find_assign_self _ _ _ hfind

/-! ## Parse states: frame of `add_parse_state` -/

theorem Grows.refl (n : Nat) (b : TableBuilder κ) : Grows n b b :=
  ⟨Nat.le_refl _, fun _ _ => rfl, ⟨[], by simp, by simp⟩, fun _ _ h => h, Nat.le_refl _⟩

theorem Grows.trans {n : Nat} {b b' b'' : TableBuilder κ} (h : Grows n b b')
    (h' : Grows n b' b'') : Grows n b b'' := by
  obtain ⟨added, hadd, hids⟩ := h.parse_state_ids
  obtain ⟨added', hadd', hids'⟩ := h'.parse_state_ids
  have h1 := h.parse_states
  have h2 := h'.parse_states
  refine ⟨Nat.le_trans h.1 h'.1, fun i hi => (h'.2 i hi).trans (h.2 i hi),
    ⟨added ++ added', by rw [hadd', hadd, List.append_assoc], ?_⟩,
    fun s id hs => h'.4 s id (h.4 s id hs), Nat.le_trans h.5 h'.5⟩
  rw [List.map_append, hids, hids']
  have e1 : b'.parse_table.states.length = b.parse_table.states.length +
      (b'.parse_table.states.length - b.parse_table.states.length) := by omega
  have e2 : b''.parse_table.states.length - b.parse_table.states.length =
      (b''.parse_table.states.length - b'.parse_table.states.length) +
        (b'.parse_table.states.length - b.parse_table.states.length) := by omega
  rw [e2]
  nth_rewrite 2 [e1]
  exact List.range'_append_1 _ _ _

theorem Grows.ids_ge {n : Nat} {b b' : TableBuilder κ} (h : Grows n b b') :
    ∃ added, b'.parse_state_ids = b.parse_state_ids ++ added ∧
      ∀ p ∈ added, b.parse_table.states.length ≤ p.2 := by
  obtain ⟨added, hadd, hids⟩ := h.parse_state_ids
  refine ⟨added, hadd, fun p hp => ?_⟩
  have : p.2 ∈ added.map Prod.snd := List.mem_map_of_mem _ hp
  rw [hids, List.mem_range'_1] at this
  exact this.1

theorem Grows.mono {m n : Nat} {b b' : TableBuilder κ} (h : Grows n b b') (hmn : m ≤ n) :
    Grows m b b' :=
  ⟨h.1, fun i hi => h.2 i (Nat.lt_of_lt_of_le hi hmn), h.3, h.4, h.5⟩

theorem LexGrows.to_grows {b b' : TableBuilder κ} (h : LexGrows b b') (n : Nat) : Grows n b b' :=
  ⟨by rw [h.1], fun i _ => by rw [h.1], ⟨[], by simp [h.2], by simp [h.1]⟩, h.3, h.4⟩

theorem ParseTable.add_action_length (t : ParseTable) (id : ParseStateId) (symbol : ISymbol)
    (action : ParseAction) : (t.add_action id symbol action).states.length = t.states.length := by
  simp [ParseTable.add_action, modify_at_length]

theorem add_action_grows (n : Nat) (b : TableBuilder κ) (manager : κ) (state_id : ParseStateId)
    (hn : n ≤ state_id) (symbol : ISymbol) (action : ParseAction) :
    Grows n b { b with
      conflict_manager := manager,
      parse_table := b.parse_table.add_action state_id symbol action } := by
  refine ⟨by simp [ParseTable.add_action_length], ?_,
    ⟨[], by simp, by simp [ParseTable.add_action_length]⟩, fun _ _ h => h, Nat.le_refl _⟩
  intro i hi
  simp only [ParseTable.add_action]
  exact modify_at_getElem?_ne _ _ _ _ (by omega)

theorem manager_grows (n : Nat) (b : TableBuilder κ) (manager : κ) :
    Grows n b { b with conflict_manager := manager } :=
  ⟨Nat.le_refl _, fun _ _ => rfl, ⟨[], by simp, by simp⟩, fun _ _ h => h, Nat.le_refl _⟩

theorem add_reduce_action_grows (E : Collaborators κ) (n : Nat) (state_id : ParseStateId)
    (hn : n ≤ state_id) (b : TableBuilder κ) (item : ParseItem) :
    Grows n b (add_reduce_action E state_id b item) := by
  unfold add_reduce_action
  by_cases hd : item.is_done = true
  · simp only [hd, if_true]
    generalize (if item.lhs = E.START then ParseAction.Accept
      else ParseAction.Reduce item.lhs item.consumed_symbol_count (E.precedence item)) = action
    split
    · exact add_action_grows n b b.conflict_manager state_id hn _ _
    · split
      · exact add_action_grows n b _ state_id hn _ _
      · exact manager_grows n b _
  · simp only [hd]
    exact Grows.refl n b

theorem add_reduce_actions_grows (E : Collaborators κ) (n : Nat) (state_id : ParseStateId)
    (hn : n ≤ state_id) (item_set : ParseItemSet) (b : TableBuilder κ) :
    Grows n b (add_reduce_actions E item_set state_id b) := by
  unfold add_reduce_actions
  induction item_set generalizing b with
  | nil => exact Grows.refl n b
  | cons item rest ih =>
    simp only [List.foldl_cons]
    exact (add_reduce_action_grows E n state_id hn b item).trans (ih _)

theorem assign_lex_state_grows (E : Collaborators κ)
    (add_lex_state : LexItemSet → TableBuilder κ → Option (LexStateId × TableBuilder κ))
    (hrec : ∀ s b id b', add_lex_state s b = some (id, b') → LexGrows b b')
    (n : Nat) (state_id : ParseStateId) (hn : n ≤ state_id) (b b' : TableBuilder κ)
    (h : assign_lex_state E add_lex_state state_id b = some b') : Grows n b b' := by
  unfold assign_lex_state at h
  simp only at h
  split at h
  · simp at h
  · rename_i id b1 hcall
    simp only [Option.some.injEq] at h
    subst h
    refine ((hrec _ _ _ _ hcall).to_grows n).trans ?_
    refine ⟨by simp [modify_at_length], ?_, ⟨[], by simp, by simp [modify_at_length]⟩,
      fun _ _ h => h, Nat.le_refl _⟩
    intro i hi
    exact modify_at_getElem?_ne _ _ _ _ (by omega)

theorem add_shift_action_grows (E : Collaborators κ)
    (add_parse_state : ParseItemSet → TableBuilder κ → Option (ParseStateId × TableBuilder κ))
    (hrec : ∀ s b id b', add_parse_state s b = some (id, b') →
      Grows b.parse_table.states.length b b')
    (n : Nat) (state_id : ParseStateId) (hn : n ≤ state_id)
    (transition : ISymbol × ParseItemSet) (b b' : TableBuilder κ)
    (hb : n ≤ b.parse_table.states.length)
    (h : add_shift_action E add_parse_state state_id transition b = some b') :
    Grows n b b' := by
  have install : ∀ (manager : κ) (b' : TableBuilder κ),
      (match add_parse_state transition.2 { b with conflict_manager := manager } with
        | none => none
        | some (new_state_id, b1) =>
          some { b1 with
            parse_table := b1.parse_table.add_action state_id transition.1
              (ParseAction.Shift new_state_id
                (precedence_values_for_item_set E transition.2)) }) = some b' →
      Grows n { b with conflict_manager := manager } b' := by
    intro manager b' h
    split at h
    · simp at h
    · rename_i id b1 hcall
      simp only [Option.some.injEq] at h
      subst h
      exact ((hrec _ _ _ _ hcall).mono hb).trans
        (add_action_grows n b1 b1.conflict_manager state_id hn _ _)
  unfold add_shift_action at h
  simp only at h
  split at h
  · exact install b.conflict_manager b' h
  · split at h
    · exact (manager_grows n b _).trans (install _ b' h)
    · simp only [Option.some.injEq] at h
      subst h
      exact manager_grows n b _

theorem add_shift_actions_loop_grows (E : Collaborators κ)
    (add_parse_state : ParseItemSet → TableBuilder κ → Option (ParseStateId × TableBuilder κ))
    (hrec : ∀ s b id b', add_parse_state s b = some (id, b') →
      Grows b.parse_table.states.length b b')
    (n : Nat) (state_id : ParseStateId) (hn : n ≤ state_id)
    (transitions : List (ISymbol × ParseItemSet)) (b b' : TableBuilder κ)
    (hb : n ≤ b.parse_table.states.length)
    (h : add_shift_actions_loop E add_parse_state state_id transitions b = some b') :
    Grows n b b' := by
  induction transitions generalizing b with
  | nil =>
    simp only [add_shift_actions_loop, Option.some.injEq] at h
    subst h; exact Grows.refl n b
  | cons transition rest ih =>
    simp only [add_shift_actions_loop] at h
    cases hstep : add_shift_action E add_parse_state state_id transition b with
    | none => simp [hstep] at h
    | some b1 =>
      simp only [hstep] at h
      have h1 := add_shift_action_grows E add_parse_state hrec n state_id hn transition b b1
        hb hstep
      exact h1.trans (ih b1 (Nat.le_trans hb h1.1) h)

theorem add_parse_state_spec (E : Collaborators κ) (fuel : Nat) :
    ∀ (item_set : ParseItemSet) (b : TableBuilder κ) (id : ParseStateId) (b' : TableBuilder κ),
      add_parse_state E fuel item_set b = some (id, b') →
      Grows b.parse_table.states.length b b' ∧
      assoc_find same_items b'.parse_state_ids item_set = some id ∧
      (assoc_find same_items b.parse_state_ids item_set = none →
        id = b.parse_table.states.length ∧
        ∃ added, b'.parse_state_ids = b.parse_state_ids ++ (item_set, id) :: added ∧
          (∀ p ∈ added, id < p.2) ∧
          ((item_set, id) :: added).map Prod.snd =
            List.range' id
              (b'.parse_table.states.length - b.parse_table.states.length)) := by
  induction fuel with
  | zero =>
    intro item_set b id b' h
    simp only [add_parse_state] at h
    cases hfind : assoc_find same_items b.parse_state_ids item_set with
    | none => simp [hfind] at h
    | some id0 =>
      simp only [hfind, Option.some.injEq, Prod.mk.injEq] at h
      obtain ⟨rfl, rfl⟩ := h
      exact ⟨Grows.refl _ b, hfind, fun hn => by cases hn⟩
  | succ fuel ih =>
    intro item_set b id b' h
    simp only [add_parse_state] at h
    cases hfind : assoc_find same_items b.parse_state_ids item_set with
    | some id0 =>
      simp only [hfind, Option.some.injEq, Prod.mk.injEq] at h
      obtain ⟨rfl, rfl⟩ := h
      exact ⟨Grows.refl _ b, hfind, fun hn => by cases hn⟩
    | none =>
      simp only [hfind] at h
      split at h
      · simp at h
      · rename_i b2 hloop
        split at h
        · simp at h
        · rename_i b4 hassign
          simp only [Option.some.injEq, Prod.mk.injEq] at h
          obtain ⟨rfl, rfl⟩ := h
          have hid : @Eq Nat b.parse_table.add_state.1 b.parse_table.states.length := by
            simp [ParseTable.add_state]
          have h1 : Grows b.parse_table.states.length b
              { b with
                parse_table := b.parse_table.add_state.2,
                parse_state_ids := assoc_assign same_items b.parse_state_ids item_set
                  b.parse_table.add_state.1 } := by
            refine ⟨by simp [ParseTable.add_state], ?_,
              ⟨[(item_set, b.parse_table.add_state.1)], ?_, ?_⟩,
              fun _ _ h => h, Nat.le_refl _⟩
            · intro i hi
              simp only [ParseTable.add_state]
              exact List.getElem?_append_left hi
            · simp only
              exact assoc_assign_of_none _ _ _ _ hfind
            · simp [ParseTable.add_state]
          have hlen1 : b.parse_table.states.length + 1 =
              (b.parse_table.add_state.2).states.length := by
            simp [ParseTable.add_state]
          have hsid : b.parse_table.states.length ≤ b.parse_table.add_state.1 := by
            rw [hid]
          have h2 := add_shift_actions_loop_grows E (add_parse_state E fuel)
            (fun s b id b' hs => (ih s b id b' hs).1) b.parse_table.states.length
            b.parse_table.add_state.1 hsid _ _ b2 (by simp [ParseTable.add_state]) hloop
          have h3 := add_reduce_actions_grows E b.parse_table.states.length
            b.parse_table.add_state.1 hsid item_set b2
          have h4 := assign_lex_state_grows E (add_lex_state E fuel)
            (fun s b id b' hs => (add_lex_state_spec E fuel s b id b' hs).1)
            b.parse_table.states.length b.parse_table.add_state.1 hsid _ b4 hassign
          have h234 := (h2.trans h3).trans h4
          obtain ⟨added, hadd, hids⟩ := h234.ids_ge
          simp only at hadd
          rw [assoc_assign_of_none _ _ _ _ hfind] at hadd
          refine ⟨h1.trans h234, ?_, fun _ => ⟨hid, added, ?_, ?_, ?_⟩⟩
          · rw [hadd]
            apply assoc_find_append_of_some
            rw [assoc_find_append_of_none _ _ _ _ hfind]
            simp [assoc_find, same_items_refl]
          · rw [hadd]; simp
          rotate_left
          · obtain ⟨all, hall, hrange⟩ := (h1.trans h234).parse_state_ids
            rw [hadd, List.append_assoc] at hall
            have := List.append_cancel_left hall
            simp only [List.singleton_append] at this
            rw [this, hid]
            exact hrange
          · intro p hp
            have h5 : b.parse_table.add_state.2.states.length ≤ p.2 := hids p hp
            have h6 : b.parse_table.add_state.1 + 1 ≤ p.2 := by rw [hid, hlen1]; exact h5
            exact h6

/-! ## Action maps: lemmas -/

theorem assoc_find_assign {κ υ : Type} [DecidableEq κ] (m : List (κ × υ)) (k k' : κ) (v : υ) :
    assoc_find key_eq (assoc_assign key_eq m k v) k' =
      if k = k' then some v else assoc_find key_eq m k' := by
  induction m with
  | nil =>
    simp only [assoc_assign, assoc_find, key_eq, decide_eq_true_eq]
  | cons p rest ih =>
    obtain ⟨k0, v0⟩ := p
    simp only [assoc_assign, key_eq, decide_eq_true_eq]
    by_cases h0 : k0 = k
    · subst h0
      simp only [if_true, assoc_find, key_eq, decide_eq_true_eq]
      split <;> rfl
    · simp only [h0, if_false, assoc_find, key_eq, decide_eq_true_eq]
      by_cases h1 : k0 = k'
      · subst h1
        have : ¬ k = k0 := fun e => h0 e.symm
        simp [this]
      · simp only [h1, if_false]
        simpa [key_eq] using ih

theorem ParseTable.state_eq_of_getElem? (t t' : ParseTable) (i : Nat)
    (h : t'.states[i]? = t.states[i]?) : t'.state i = t.state i := by
  simp [ParseTable.state, List.getD_eq_getElem?_getD, h]

theorem ParseTable.add_action_state (t : ParseTable) (id : ParseStateId) (symbol : ISymbol)
    (action : ParseAction) (h : id < t.states.length) :
    ((t.add_action id symbol action).state id).actions =
      assoc_assign key_eq (t.state id).actions symbol action := by
  simp only [ParseTable.state, ParseTable.add_action, List.getD_eq_getElem?_getD,
    modify_at_getElem?_eq]
  rw [List.getElem?_eq_getElem h]
  simp

theorem add_shift_action_actions (E : Collaborators κ)
    (add_parse_state : ParseItemSet → TableBuilder κ → Option (ParseStateId × TableBuilder κ))
    (hrec : ∀ s b id b', add_parse_state s b = some (id, b') →
      Grows b.parse_table.states.length b b' ∧
        assoc_find same_items b'.parse_state_ids s = some id)
    (state_id : ParseStateId) (transition : ISymbol × ParseItemSet) (b b' : TableBuilder κ)
    (hb : state_id < b.parse_table.states.length)
    (h : add_shift_action E add_parse_state state_id transition b = some b') :
    (b'.parse_table.state state_id).actions = (b.parse_table.state state_id).actions ∨
    ∃ id, assoc_find same_items b'.parse_state_ids transition.2 = some id ∧
      (b'.parse_table.state state_id).actions =
        assoc_assign key_eq (b.parse_table.state state_id).actions transition.1
          (ParseAction.Shift id (precedence_values_for_item_set E transition.2)) := by
  have install : ∀ (manager : κ) (b' : TableBuilder κ),
      (match add_parse_state transition.2 { b with conflict_manager := manager } with
        | none => none
        | some (new_state_id, b1) =>
          some { b1 with
            parse_table := b1.parse_table.add_action state_id transition.1
              (ParseAction.Shift new_state_id
                (precedence_values_for_item_set E transition.2)) }) = some b' →
      ∃ id, assoc_find same_items b'.parse_state_ids transition.2 = some id ∧
        (b'.parse_table.state state_id).actions =
          assoc_assign key_eq (b.parse_table.state state_id).actions transition.1
            (ParseAction.Shift id (precedence_values_for_item_set E transition.2)) := by
    intro manager b' h
    split at h
    · simp at h
    · rename_i id b1 hcall
      simp only [Option.some.injEq] at h
      subst h
      obtain ⟨hg, hid⟩ := hrec _ _ _ _ hcall
      refine ⟨id, hid, ?_⟩
      simp only
      rw [ParseTable.add_action_state _ _ _ _ (Nat.lt_of_lt_of_le hb hg.1)]
      rw [ParseTable.state_eq_of_getElem? _ _ _ (hg.2 state_id hb)]
  unfold add_shift_action at h
  simp only at h
  split at h
  · exact Or.inr (install b.conflict_manager b' h)
  · split at h
    · exact Or.inr (install _ b' h)
    · simp only [Option.some.injEq] at h
      subst h
      exact Or.inl rfl

theorem add_shift_actions_loop_actions (E : Collaborators κ)
    (add_parse_state : ParseItemSet → TableBuilder κ → Option (ParseStateId × TableBuilder κ))
    (hrec : ∀ s b id b', add_parse_state s b = some (id, b') →
      Grows b.parse_table.states.length b b' ∧
        assoc_find same_items b'.parse_state_ids s = some id)
    (state_id : ParseStateId) (transitions : List (ISymbol × ParseItemSet))
    (b b' : TableBuilder κ) (hb : state_id < b.parse_table.states.length)
    (h : add_shift_actions_loop E add_parse_state state_id transitions b = some b')
    (symbol : ISymbol) (action : ParseAction)
    (ha : assoc_find key_eq (b'.parse_table.state state_id).actions symbol = some action) :
    assoc_find key_eq (b.parse_table.state state_id).actions symbol = some action ∨
    ∃ successor id, (symbol, successor) ∈ transitions ∧
      assoc_find same_items b'.parse_state_ids successor = some id ∧
      action = ParseAction.Shift id (precedence_values_for_item_set E successor) := by
  induction transitions generalizing b with
  | nil =>
    simp only [add_shift_actions_loop, Option.some.injEq] at h
    subst h; exact Or.inl ha
  | cons transition rest ih =>
    simp only [add_shift_actions_loop] at h
    cases hstep : add_shift_action E add_parse_state state_id transition b with
    | none => simp [hstep] at h
    | some b1 =>
      simp only [hstep] at h
      have hg1 := add_shift_action_grows E add_parse_state (fun s b id b' hs => (hrec s b id b' hs).1)
        0 state_id (Nat.zero_le _) transition b b1 (Nat.zero_le _) hstep
      have hb1 : state_id < b1.parse_table.states.length := Nat.lt_of_lt_of_le hb hg1.1
      have hg2 := add_shift_actions_loop_grows E add_parse_state
        (fun s b id b' hs => (hrec s b id b' hs).1) 0 state_id (Nat.zero_le _) rest b1 b'
        (Nat.zero_le _) h
      rcases ih b1 hb1 h with h1 | ⟨successor, id, hmem, hid, hact⟩
      · rcases add_shift_action_actions E add_parse_state hrec state_id transition b b1 hb hstep
          with he | ⟨id, hid, he⟩
        · rw [he] at h1; exact Or.inl h1
        · rw [he, assoc_find_assign] at h1
          by_cases hk : transition.1 = symbol
          · simp only [hk, if_true, Option.some.injEq] at h1
            refine Or.inr ⟨transition.2, id, ?_, ?_, h1.symm⟩
            · rw [← hk]; exact List.mem_cons_self _ _
            · obtain ⟨added, hadd, _⟩ := hg2.parse_state_ids
              rw [hadd]
              exact assoc_find_append_of_some _ _ _ _ _ hid
          · simp only [hk, if_false] at h1
            exact Or.inl h1
      · exact Or.inr ⟨successor, id, List.mem_cons_of_mem _ hmem, hid, hact⟩

/-! ## Termination of the state enumeration -/

theorem unrecorded_le_length {α υ : Type} [DecidableEq α] (sets : List (List α))
    (ids : List (List α × υ)) : unrecorded sets ids ≤ sets.length := by
  unfold unrecorded
  exact List.length_filter_le _ _

theorem recorded_of_unrecorded_zero {α υ : Type} [DecidableEq α] (sets : List (List α))
    (ids : List (List α × υ)) (h : unrecorded sets ids = 0) (s : List α) (hs : s ∈ sets) :
    ∃ id, assoc_find same_items ids s = some id := by
  unfold unrecorded at h
  rw [List.length_eq_zero, List.filter_eq_nil_iff] at h
  have := h s hs
  cases hf : assoc_find same_items ids s with
  | none => simp [hf] at this
  | some id => exact ⟨id, rfl⟩

theorem LexGrows.lex_unrecorded_le {b b' : TableBuilder κ} (h : LexGrows b b')
    (sets : List LexItemSet) :
    unrecorded sets b'.lex_state_ids ≤ unrecorded sets b.lex_state_ids :=
  unrecorded_le_of_preserved sets _ _ h.lex_state_ids

theorem Grows.unrecorded_le {n : Nat} {b b' : TableBuilder κ} (h : Grows n b b')
    (parse_sets : List ParseItemSet) (lex_sets : List LexItemSet) :
    unrecorded parse_sets b'.parse_state_ids + unrecorded lex_sets b'.lex_state_ids ≤
      unrecorded parse_sets b.parse_state_ids + unrecorded lex_sets b.lex_state_ids := by
  obtain ⟨added, hadd, _⟩ := h.parse_state_ids
  have h1 : unrecorded parse_sets b'.parse_state_ids ≤
      unrecorded parse_sets b.parse_state_ids := by
    apply unrecorded_le_of_preserved
    intro s id hs
    rw [hadd]
    exact assoc_find_append_of_some _ _ _ _ _ hs
  have h2 := unrecorded_le_of_preserved lex_sets _ _ h.lex_state_ids
  omega

theorem add_advance_actions_loop_halts
    (add_lex_state : LexItemSet → TableBuilder κ → Option (LexStateId × TableBuilder κ))
    (lex_sets : List LexItemSet) (fuel : Nat)
    (htotal : ∀ s b, s ∈ lex_sets → unrecorded lex_sets b.lex_state_ids ≤ fuel →
      ∃ id b', add_lex_state s b = some (id, b'))
    (hgrows : ∀ s b id b', add_lex_state s b = some (id, b') → LexGrows b b')
    (state_id : LexStateId) (transitions : List (CharacterSet × LexItemSet))
    (htrs : ∀ tr ∈ transitions, tr.2 ∈ lex_sets) (b : TableBuilder κ)
    (hb : unrecorded lex_sets b.lex_state_ids ≤ fuel) :
    ∃ b', add_advance_actions_loop add_lex_state state_id transitions b = some b' := by
  induction transitions generalizing b with
  | nil => exact ⟨b, rfl⟩
  | cons transition rest ih =>
    obtain ⟨id, b0, hcall⟩ := htotal transition.2 b (htrs _ (List.mem_cons_self _ _)) hb
    have hg := hgrows _ _ _ _ hcall
    simp only [add_advance_actions_loop, add_advance_action, hcall]
    apply ih (fun tr h => htrs tr (List.mem_cons_of_mem _ h))
    exact Nat.le_trans (hg.lex_unrecorded_le lex_sets) hb

theorem add_lex_state_halts (E : Collaborators κ) (lex_sets : List LexItemSet)
    (hclosed : ∀ s ∈ lex_sets, ∀ tr ∈ E.char_transitions s, tr.2 ∈ lex_sets) (fuel : Nat) :
    ∀ (item_set : LexItemSet) (b : TableBuilder κ), item_set ∈ lex_sets →
      unrecorded lex_sets b.lex_state_ids ≤ fuel →
      ∃ id b', add_lex_state E fuel item_set b = some (id, b') := by
  induction fuel with
  | zero =>
    intro item_set b hs hb
    obtain ⟨id, hid⟩ := recorded_of_unrecorded_zero lex_sets _ (Nat.le_zero.mp hb) item_set hs
    exact ⟨id, b, by simp [add_lex_state, hid]⟩
  | succ fuel ih =>
    intro item_set b hs hb
    cases hfind : assoc_find same_items b.lex_state_ids item_set with
    | some id => exact ⟨id, b, by simp [add_lex_state, hfind]⟩
    | none =>
      simp only [add_lex_state, hfind]
      have hlt : unrecorded lex_sets
          (assoc_assign same_items b.lex_state_ids item_set b.lex_table.add_state.1) <
          unrecorded lex_sets b.lex_state_ids := by
        apply unrecorded_lt_of_recorded lex_sets _ _ _ item_set hs hfind
          b.lex_table.add_state.1 (assoc_find_assign_self _ _ _ hfind)
        intro s id h
        rw [assoc_assign_of_none _ _ _ _ hfind]
        exact assoc_find_append_of_some _ _ _ _ _ h
      have hw := add_token_start_writes E item_set b.lex_table.add_state.1
        { b with
          lex_table := b.lex_table.add_state.2,
          lex_state_ids := assoc_assign same_items b.lex_state_ids item_set
            b.lex_table.add_state.1 }
      obtain ⟨b3, hloop⟩ := add_advance_actions_loop_halts (add_lex_state E fuel) lex_sets fuel
        ih (fun s b id b' h => (add_lex_state_spec E fuel s b id b' h).1)
        b.lex_table.add_state.1 (E.char_transitions item_set) (hclosed item_set hs)
        (add_token_start E item_set b.lex_table.add_state.1
          { b with
            lex_table := b.lex_table.add_state.2,
            lex_state_ids := assoc_assign same_items b.lex_state_ids item_set
              b.lex_table.add_state.1 })
        (by rw [hw.lex_state_ids]; simp only; omega)
      unfold add_advance_actions
      rw [hloop]
      exact ⟨_, _, rfl⟩

theorem mem_assoc_assign {κ υ : Type} [DecidableEq κ] (m : List (κ × υ)) (k : κ) (v : υ)
    (p : κ × υ) (h : p ∈ assoc_assign key_eq m k v) : p.1 = k ∨ p ∈ m := by
  induction m with
  | nil =>
    simp only [assoc_assign, List.mem_singleton] at h
    exact Or.inl (by rw [h])
  | cons q rest ih =>
    obtain ⟨k0, v0⟩ := q
    simp only [assoc_assign] at h
    split at h
    · rename_i hk
      simp only [key_eq, decide_eq_true_eq] at hk
      rcases List.mem_cons.mp h with h | h
      · exact Or.inl (by rw [h, hk])
      · exact Or.inr (List.mem_cons_of_mem _ h)
    · rcases List.mem_cons.mp h with h | h
      · exact Or.inr (by rw [h]; exact List.mem_cons_self _ _)
      · rcases ih h with h | h
        · exact Or.inl h
        · exact Or.inr (List.mem_cons_of_mem _ h)

theorem add_action_keys (symbols : List ISymbol) (b : TableBuilder κ) (manager : κ)
    (state_id : ParseStateId) (hb : state_id < b.parse_table.states.length)
    (symbol : ISymbol) (hsym : symbol ∈ symbols) (action : ParseAction)
    (hkeys : ∀ p ∈ (b.parse_table.state state_id).actions, p.1 ∈ symbols) :
    ∀ p ∈ (({ b with
        conflict_manager := manager,
        parse_table := b.parse_table.add_action state_id symbol action } :
          TableBuilder κ).parse_table.state state_id).actions,
      p.1 ∈ symbols := by
  intro p hp
  simp only at hp
  rw [ParseTable.add_action_state _ _ _ _ hb] at hp
  rcases mem_assoc_assign _ _ _ _ hp with h | h
  · rw [h]; exact hsym
  · exact hkeys p h

theorem add_reduce_action_keys (E : Collaborators κ) (symbols : List ISymbol)
    (state_id : ParseStateId) (b : TableBuilder κ) (item : ParseItem)
    (hb : state_id < b.parse_table.states.length)
    (hitem : item.is_done = true → item.lookahead_sym ∈ symbols)
    (hkeys : ∀ p ∈ (b.parse_table.state state_id).actions, p.1 ∈ symbols) :
    ∀ p ∈ ((add_reduce_action E state_id b item).parse_table.state state_id).actions,
      p.1 ∈ symbols := by
  unfold add_reduce_action
  by_cases hd : item.is_done = true
  · simp only [hd, if_true]
    generalize (if item.lhs = E.START then ParseAction.Accept
      else ParseAction.Reduce item.lhs item.consumed_symbol_count (E.precedence item)) = action
    split
    · exact add_action_keys symbols b b.conflict_manager state_id hb _ (hitem hd) _ hkeys
    · split
      · exact add_action_keys symbols b _ state_id hb _ (hitem hd) _ hkeys
      · exact hkeys
  · simp only [hd]
    exact hkeys

theorem add_reduce_actions_keys (E : Collaborators κ) (symbols : List ISymbol)
    (state_id : ParseStateId) (item_set : ParseItemSet) (b : TableBuilder κ)
    (hb : state_id < b.parse_table.states.length)
    (hitems : ∀ item ∈ item_set, item.is_done = true → item.lookahead_sym ∈ symbols)
    (hkeys : ∀ p ∈ (b.parse_table.state state_id).actions, p.1 ∈ symbols) :
    ∀ p ∈ ((add_reduce_actions E item_set state_id b).parse_table.state state_id).actions,
      p.1 ∈ symbols := by
  unfold add_reduce_actions
  induction item_set generalizing b with
  | nil => exact hkeys
  | cons item rest ih =>
    simp only [List.foldl_cons]
    apply ih
    · exact Nat.lt_of_lt_of_le hb
        (add_reduce_action_grows E 0 state_id (Nat.zero_le _) b item).parse_states
    · exact fun i hi => hitems i (List.mem_cons_of_mem _ hi)
    · exact add_reduce_action_keys E symbols state_id b item hb
        (hitems item (List.mem_cons_self _ _)) hkeys

theorem add_shift_action_halts (E : Collaborators κ)
    (add_parse_state : ParseItemSet → TableBuilder κ → Option (ParseStateId × TableBuilder κ))
    (parse_sets : List ParseItemSet) (lex_sets : List LexItemSet) (symbols : List ISymbol)
    (fuel : Nat)
    (htotal : ∀ s b, s ∈ parse_sets →
      unrecorded parse_sets b.parse_state_ids + unrecorded lex_sets b.lex_state_ids ≤ fuel →
      ∃ id b', add_parse_state s b = some (id, b'))
    (hgrows : ∀ s b id b', add_parse_state s b = some (id, b') →
      Grows b.parse_table.states.length b b')
    (state_id : ParseStateId) (transition : ISymbol × ParseItemSet)
    (htr : transition.2 ∈ parse_sets ∧ transition.1 ∈ symbols) (b : TableBuilder κ)
    (hsid : state_id < b.parse_table.states.length)
    (hb : unrecorded parse_sets b.parse_state_ids + unrecorded lex_sets b.lex_state_ids ≤ fuel)
    (hkeys : ∀ p ∈ (b.parse_table.state state_id).actions, p.1 ∈ symbols) :
    ∃ b', add_shift_action E add_parse_state state_id transition b = some b' ∧
      (∀ p ∈ (b'.parse_table.state state_id).actions, p.1 ∈ symbols) := by
  have install : ∀ (manager : κ), ∃ b',
      (match add_parse_state transition.2 { b with conflict_manager := manager } with
        | none => none
        | some (new_state_id, b1) =>
          some { b1 with
            parse_table := b1.parse_table.add_action state_id transition.1
              (ParseAction.Shift new_state_id
                (precedence_values_for_item_set E transition.2)) }) = some b' ∧
      (∀ p ∈ (b'.parse_table.state state_id).actions, p.1 ∈ symbols) := by
    intro manager
    obtain ⟨id, b1, hcall⟩ := htotal transition.2 { b with conflict_manager := manager }
      htr.1 hb
    have hg := hgrows _ _ _ _ hcall
    rw [hcall]
    refine ⟨_, rfl, ?_⟩
    apply add_action_keys symbols b1 b1.conflict_manager state_id
      (Nat.lt_of_lt_of_le hsid hg.parse_states) _ htr.2
    rw [ParseTable.state_eq_of_getElem? _ _ _ (hg.untouched state_id hsid)]
    exact hkeys
  unfold add_shift_action
  simp only
  split
  · exact install b.conflict_manager
  · split
    · exact install _
    · exact ⟨_, rfl, hkeys⟩

theorem add_shift_actions_loop_halts (E : Collaborators κ)
    (add_parse_state : ParseItemSet → TableBuilder κ → Option (ParseStateId × TableBuilder κ))
    (parse_sets : List ParseItemSet) (lex_sets : List LexItemSet) (symbols : List ISymbol)
    (fuel : Nat)
    (htotal : ∀ s b, s ∈ parse_sets →
      unrecorded parse_sets b.parse_state_ids + unrecorded lex_sets b.lex_state_ids ≤ fuel →
      ∃ id b', add_parse_state s b = some (id, b'))
    (hgrows : ∀ s b id b', add_parse_state s b = some (id, b') →
      Grows b.parse_table.states.length b b')
    (state_id : ParseStateId) (transitions : List (ISymbol × ParseItemSet))
    (htrs : ∀ tr ∈ transitions, tr.2 ∈ parse_sets ∧ tr.1 ∈ symbols) (b : TableBuilder κ)
    (hsid : state_id < b.parse_table.states.length)
    (hb : unrecorded parse_sets b.parse_state_ids + unrecorded lex_sets b.lex_state_ids ≤ fuel)
    (hkeys : ∀ p ∈ (b.parse_table.state state_id).actions, p.1 ∈ symbols) :
    ∃ b', add_shift_actions_loop E add_parse_state state_id transitions b = some b' ∧
      (∀ p ∈ (b'.parse_table.state state_id).actions, p.1 ∈ symbols) := by
  induction transitions generalizing b with
  | nil => exact ⟨b, rfl, hkeys⟩
  | cons transition rest ih =>
    obtain ⟨b1, hstep, hkeys1⟩ := add_shift_action_halts E add_parse_state parse_sets lex_sets
      symbols fuel htotal hgrows state_id transition (htrs _ (List.mem_cons_self _ _)) b hsid
      hb hkeys
    have hg := add_shift_action_grows E add_parse_state hgrows 0 state_id (Nat.zero_le _)
      transition b b1 (Nat.zero_le _) hstep
    simp only [add_shift_actions_loop, hstep]
    exact ih (fun tr h => htrs tr (List.mem_cons_of_mem _ h)) b1
      (Nat.lt_of_lt_of_le hsid hg.parse_states)
      (Nat.le_trans (hg.unrecorded_le parse_sets lex_sets) hb) hkeys1

theorem add_parse_state_halts (E : Collaborators κ) (parse_sets : List ParseItemSet)
    (lex_sets : List LexItemSet)
    (hclosed : ∀ s ∈ parse_sets, ∀ tr ∈ E.sym_transitions s, tr.2 ∈ parse_sets)
    (hlex_closed : ∀ s ∈ lex_sets, ∀ tr ∈ E.char_transitions s, tr.2 ∈ lex_sets)
    (hlex_start : ∀ s ∈ parse_sets, ∀ state : ParseState,
      (∀ p ∈ state.actions, p.1 ∈ expected_symbols E s) →
      lex_item_set_for_parse_state E state ∈ lex_sets)
    (fuel : Nat) :
    ∀ (item_set : ParseItemSet) (b : TableBuilder κ), item_set ∈ parse_sets →
      unrecorded parse_sets b.parse_state_ids + unrecorded lex_sets b.lex_state_ids ≤ fuel →
      ∃ id b', add_parse_state E fuel item_set b = some (id, b') := by
  induction fuel with
  | zero =>
    intro item_set b hs hb
    obtain ⟨id, hid⟩ := recorded_of_unrecorded_zero parse_sets b.parse_state_ids
      (by omega) item_set hs
    exact ⟨id, b, by simp [add_parse_state, hid]⟩
  | succ fuel ih =>
    intro item_set b hs hb
    cases hfind : assoc_find same_items b.parse_state_ids item_set with
    | some id => exact ⟨id, b, by simp [add_parse_state, hfind]⟩
    | none =>
      simp only [add_parse_state, hfind]
      have hlt : unrecorded parse_sets
          (assoc_assign same_items b.parse_state_ids item_set b.parse_table.add_state.1) <
          unrecorded parse_sets b.parse_state_ids := by
        apply unrecorded_lt_of_recorded parse_sets _ _ _ item_set hs hfind
          b.parse_table.add_state.1 (assoc_find_assign_self _ _ _ hfind)
        intro s id h
        rw [assoc_assign_of_none _ _ _ _ hfind]
        exact assoc_find_append_of_some _ _ _ _ _ h
      have hsid1 : b.parse_table.add_state.1 < b.parse_table.add_state.2.states.length := by
        simp [ParseTable.add_state]
      have hgrows := fun s b id b' h => (add_parse_state_spec E fuel s b id b' h).1
      have htrs : ∀ tr ∈ E.sym_transitions item_set,
          tr.2 ∈ parse_sets ∧ tr.1 ∈ expected_symbols E item_set := by
        intro tr htr
        refine ⟨hclosed item_set hs tr htr, ?_⟩
        unfold expected_symbols
        exact List.mem_append_left _ (List.mem_map_of_mem _ htr)
      have hdone : ∀ item ∈ item_set, item.is_done = true →
          item.lookahead_sym ∈ expected_symbols E item_set := by
        intro item hi hd
        unfold expected_symbols
        apply List.mem_append_right
        exact List.mem_map_of_mem (fun item => item.lookahead_sym)
          (List.mem_filter.mpr ⟨hi, hd⟩)
      obtain ⟨b2, hloop, hkeys2⟩ := add_shift_actions_loop_halts E (add_parse_state E fuel)
        parse_sets lex_sets (expected_symbols E item_set) fuel ih hgrows
        b.parse_table.add_state.1 (E.sym_transitions item_set) htrs
        { b with
          parse_table := b.parse_table.add_state.2,
          parse_state_ids := assoc_assign same_items b.parse_state_ids item_set
            b.parse_table.add_state.1 }
        hsid1 (by simp only; omega)
        (by simp [ParseTable.state, ParseTable.add_state])
      have hg2 := add_shift_actions_loop_grows E (add_parse_state E fuel) hgrows 0
        b.parse_table.add_state.1 (Nat.zero_le _) _ _ b2 (Nat.zero_le _) hloop
      have hsid2 : b.parse_table.add_state.1 < b2.parse_table.states.length :=
        Nat.lt_of_lt_of_le hsid1 hg2.parse_states
      have hg3 := add_reduce_actions_grows E 0 b.parse_table.add_state.1 (Nat.zero_le _)
        item_set b2
      have hkeys3 := add_reduce_actions_keys E (expected_symbols E item_set)
        b.parse_table.add_state.1 item_set b2 hsid2 hdone hkeys2
      have hm3 := (hg2.trans hg3).unrecorded_le parse_sets lex_sets
      simp only at hm3
      obtain ⟨lex_id, b4, hlex⟩ := add_lex_state_halts E lex_sets hlex_closed fuel
        (lex_item_set_for_parse_state E
          ((add_reduce_actions E item_set b.parse_table.add_state.1 b2).parse_table.state
            b.parse_table.add_state.1))
        (add_reduce_actions E item_set b.parse_table.add_state.1 b2)
        (hlex_start item_set hs _ hkeys3) (by omega)
      unfold add_shift_actions
      rw [hloop]
      simp only [assign_lex_state, hlex]
      exact ⟨_, _, rfl⟩

/-! ## Rule transitions: theorems -/

theorem assoc_find_map_value {κ υ : Type} [DecidableEq κ] (f : υ → υ) (m : List (κ × υ))
    (k : κ) :
    assoc_find key_eq (m.map (fun p => (p.1, f p.2))) k = (assoc_find key_eq m k).map f := by
  induction m with
  | nil => rfl
  | cons p rest ih =>
    simp only [List.map_cons, assoc_find]
    split
    · rfl
    · exact ih

theorem char_transitions_seq_character (A : CharacterSet) (r : Rule) :
    char_transitions (Rule.Seq (Rule.Character A) r) = [(A, r)] := by
  simp [char_transitions, is_nullable, Seq.Build]

/-! The cases of `rule_transitions_spec.cc`, on the modelled transitions. A map is
listed entry by entry; the order of the entries is not part of the map. -/

theorem rule_transitions_spec_symbols :
    sym_transitions (i_sym 1) = [(⟨1, ⟨false, false⟩⟩, Rule.Blank)] ∧
    sym_transitions (Choice.Build [i_sym 1, i_sym 2]) =
      [(⟨1, ⟨false, false⟩⟩, Rule.Blank), (⟨2, ⟨false, false⟩⟩, Rule.Blank)] ∧
    sym_transitions (Seq.Build [i_sym 1, i_sym 2]) = [(⟨1, ⟨false, false⟩⟩, i_sym 2)] ∧
    sym_transitions (Seq.Build [i_sym 1, i_sym 2, i_sym 3, i_sym 4]) =
      [(⟨1, ⟨false, false⟩⟩, Seq.Build [i_sym 2, i_sym 3, i_sym 4])] ∧
    sym_transitions
        (Seq.Build [Choice.Build [i_sym 1, Rule.Blank], Seq.Build [i_sym 1, i_sym 2]]) =
      [(⟨1, ⟨false, false⟩⟩, Choice.Build [Seq.Build [i_sym 1, i_sym 2], i_sym 2])] ∧
    sym_transitions
        (Choice.Build [Seq.Build [i_sym 1, i_sym 2], Seq.Build [i_sym 1, i_sym 3]]) =
      [(⟨1, ⟨false, false⟩⟩, Choice.Build [i_sym 2, i_sym 3])] ∧
    sym_transitions
        (Rule.Metadata (Seq.Build [i_sym 1, i_sym 2]) [(MetadataKey.PRECEDENCE, 5)]) =
      [(⟨1, ⟨false, false⟩⟩, Rule.Metadata (i_sym 2) [(MetadataKey.PRECEDENCE, 5)])] := by
  decide

theorem rule_transitions_spec_characters :
    char_transitions (Rule.Character {49}) = [({49}, Rule.Blank)] ∧
    char_transitions (str [98, 97, 100]) =
      [({98}, Seq.Build [Rule.Character {97}, Rule.Character {100}])] ∧
    char_transitions (Choice.Build [Rule.Character {97}, Rule.Character {98}]) =
      [({97}, Rule.Blank), ({98}, Rule.Blank)] ∧
    char_transitions Rule.Blank = [] ∧
    char_transitions (Rule.Repeat (str [97, 98])) =
      [({97}, Seq.Build [Rule.Character {98}, Rule.Repeat (str [97, 98])])] ∧
    char_transitions (Rule.Repeat (str [97])) = [({97}, Rule.Repeat (str [97]))] := by
  decide

set_option maxRecDepth 100000 in
theorem rule_transitions_spec_overlapping :
    char_transitions (Choice.Build [
        Seq.Build [Rule.Character (character_range 97 115), Rule.Symbol "x"],
        Seq.Build [Rule.Character (character_range 109 122), Rule.Symbol "y"]]) =
      [(character_range 97 108, Rule.Symbol "x"),
       (character_range 109 115, Choice.Build [Rule.Symbol "x", Rule.Symbol "y"]),
       (character_range 116 122, Rule.Symbol "y")] ∧
    char_transitions (Choice.Build [
        Seq.Build [Rule.Character (character_range 97 99), Rule.Symbol "x"],
        Seq.Build [Rule.Character (character_range 97 122), Rule.Symbol "y"]]) =
      [(character_range 97 99, Choice.Build [Rule.Symbol "x", Rule.Symbol "y"]),
       (character_range 100 122, Rule.Symbol "y")] ∧
    char_transitions (Choice.Build [
        Seq.Build [Rule.Character (character_range 97 122), Rule.Symbol "x"],
        Seq.Build [Rule.Character (character_range 97 99), Rule.Symbol "y"]]) =
      [(character_range 100 122, Rule.Symbol "x"),
       (character_range 97 99, Choice.Build [Rule.Symbol "x", Rule.Symbol "y"])] := by
  decide

set_option maxRecDepth 100000 in
theorem rule_transitions_spec_regression :
    char_transitions (Seq.Build [
        Choice.Build [Rule.Repeat (Rule.Character (Finset.univ \ {34})), Rule.Blank],
        Rule.Character {34}]) =
      [(Finset.univ \ {34},
          Seq.Build [Rule.Repeat (Rule.Character (Finset.univ \ {34})), Rule.Character {34}]),
       ({34}, Rule.Blank)] := by
  decide

theorem char_transitions_character_then (A : CharacterSet) (r : Rule) :
    char_transitions (Seq.Build [Rule.Character A, r]) = [(A, r)] := by
  by_cases hr : r = Rule.Blank
  · subst hr; simp [Seq.Build, char_transitions]
  · simp [Seq.Build, hr, char_transitions, is_nullable]

theorem merge_two_char_transitions (A B : CharacterSet) (rA rB : Rule) :
    merge_char_transitions (merge_char_transitions [] [(A, rA)]) [(B, rB)] =
      ([(A \ B, rA), (A ∩ B, Choice.Build [rA, rB]), (B \ A, rB)]).filter
        (fun p => decide (p.1 ≠ ∅)) := by
  simp only [merge_char_transitions, List.foldl_cons, List.foldl_nil, merge_char_transition]
  by_cases hA : A = ∅
  · subst hA
    by_cases hB : B = ∅
    · subst hB; simp [merge_char_transition]
    · simp [merge_char_transition, hB]
  · simp only [hA, if_false, merge_char_transition]
    by_cases hAB : A ∩ B = ∅
    · have h1 : A \ B = A := by
        rw [Finset.sdiff_eq_self_iff_disjoint, Finset.disjoint_iff_inter_eq_empty]; exact hAB
      have h2 : B \ A = B := by
        rw [Finset.sdiff_eq_self_iff_disjoint, Finset.disjoint_iff_inter_eq_empty,
          Finset.inter_comm]; exact hAB
      by_cases hB : B = ∅ <;> simp [hAB, h1, h2, hA, hB, List.filter]
    · by_cases h1 : A \ B = ∅ <;> by_cases h2 : B \ A = ∅ <;>
        simp [hAB, h1, h2, List.filter]

/-- C9: for all character sets `A`, `B` and residuals `rA`, `rB`,
`char_transitions(Choice(Seq(A, rA), Seq(B, rB)))` is the map
`A \ B ↦ rA`, `A ∩ B ↦ Choice::Build(rA, rB)`, `B \ A ↦ rB` without the entries
whose key is the empty set; when `rA ≠ rB` the same holds of the rule built with
`Choice::Build` and `Seq::Build`, as the tests build it. -/
theorem char_transitions_overlapping_choice (A B : CharacterSet) (rA rB : Rule) :
    char_transitions
        (Rule.Choice [Rule.Seq (Rule.Character A) rA, Rule.Seq (Rule.Character B) rB]) =
      ([(A \ B, rA), (A ∩ B, Choice.Build [rA, rB]), (B \ A, rB)]).filter
        (fun p => decide (p.1 ≠ ∅)) ∧
    (rA ≠ rB →
      char_transitions
          (Choice.Build
            [Seq.Build [Rule.Character A, rA], Seq.Build [Rule.Character B, rB]]) =
        ([(A \ B, rA), (A ∩ B, Choice.Build [rA, rB]), (B \ A, rB)]).filter
          (fun p => decide (p.1 ≠ ∅))) := by
  constructor
  · rw [char_transitions, char_transitions_choice, char_transitions_choice,
      char_transitions_choice, char_transitions_seq_character, char_transitions_seq_character]
    exact merge_two_char_transitions A B rA rB
  · intro h
    have hb : Choice.Build
        [Seq.Build [Rule.Character A, rA], Seq.Build [Rule.Character B, rB]] =
        Rule.Choice [Seq.Build [Rule.Character A, rA], Seq.Build [Rule.Character B, rB]] := by
      by_cases ha : rA = Rule.Blank <;> by_cases hb : rB = Rule.Blank
      · exact absurd (ha.trans hb.symm) h
      · subst ha; simp [Choice.Build, Choice.add_element, Seq.Build, hb]
      · subst hb; simp [Choice.Build, Choice.add_element, Seq.Build, ha]
      · have : ¬ rB = rA := fun e => h e.symm
        simp [Choice.Build, Choice.add_element, Seq.Build, ha, hb, this]
    rw [hb, char_transitions, char_transitions_choice, char_transitions_choice,
      char_transitions_choice, char_transitions_character_then,
      char_transitions_character_then]
    exact merge_two_char_transitions A B rA rB

/-- C9, on a subset and a superset: with `A = {1, 2}` inside `B = {1, 2, 3}` the
map has the two entries `A ↦ Choice(x, y)` and `B \ A ↦ y`. -/
theorem char_transitions_overlapping_choice_witness :
    char_transitions
        (Choice.Build
          [Seq.Build [Rule.Character {1, 2}, Rule.Symbol "x"],
            Seq.Build [Rule.Character {1, 2, 3}, Rule.Symbol "y"]]) =
      ([(({1, 2} : CharacterSet) \ {1, 2, 3}, Rule.Symbol "x"),
        (({1, 2} : CharacterSet) ∩ {1, 2, 3}, Choice.Build [Rule.Symbol "x", Rule.Symbol "y"]),
        (({1, 2, 3} : CharacterSet) \ {1, 2}, Rule.Symbol "y")]).filter
        (fun p => decide (p.1 ≠ ∅)) ∧
    ([(({1, 2} : CharacterSet) \ {1, 2, 3}, Rule.Symbol "x"),
        (({1, 2} : CharacterSet) ∩ {1, 2, 3}, Choice.Build [Rule.Symbol "x", Rule.Symbol "y"]),
        (({1, 2, 3} : CharacterSet) \ {1, 2}, Rule.Symbol "y")]).filter
        (fun p => decide (p.1 ≠ ∅)) =
      [({1, 2}, Rule.Choice [Rule.Symbol "x", Rule.Symbol "y"]), ({3}, Rule.Symbol "y")] :=
  ⟨(char_transitions_overlapping_choice {1, 2} {1, 2, 3} (Rule.Symbol "x")
    (Rule.Symbol "y")).2 (by decide), by decide⟩

/-- C10: for every rule `r` and metadata map `m`, `sym_transitions(Metadata(r, m))`
has the keys of `sym_transitions(r)`, in the same order, and maps a key `k` to
`Metadata(r', m)` where `r'` is the residual of `k` in `sym_transitions(r)`; the
same holds of `char_transitions`. -/
theorem metadata_preserved_on_residuals (r : Rule) (m : List (MetadataKey × Int)) :
    ((sym_transitions (Rule.Metadata r m)).map Prod.fst = (sym_transitions r).map Prod.fst ∧
      ∀ k, assoc_find key_eq (sym_transitions (Rule.Metadata r m)) k =
        (assoc_find key_eq (sym_transitions r) k).map (fun r' => Rule.Metadata r' m)) ∧
    ((char_transitions (Rule.Metadata r m)).map Prod.fst = (char_transitions r).map Prod.fst ∧
      ∀ k, assoc_find key_eq (char_transitions (Rule.Metadata r m)) k =
        (assoc_find key_eq (char_transitions r) k).map (fun r' => Rule.Metadata r' m)) := by
  refine ⟨⟨?_, ?_⟩, ⟨?_, ?_⟩⟩
  · simp [sym_transitions, Function.comp_def]
  · intro k
    rw [sym_transitions]
    exact assoc_find_map_value (fun r' => Rule.Metadata r' m) _ k
  · simp [char_transitions, Function.comp_def]
  · intro k
    rw [char_transitions]
    exact assoc_find_map_value (fun r' => Rule.Metadata r' m) _ k

/-! ## Table builder: theorems -/

/-- C2: `add_parse_state` is memoised on the item set. When the item set has an
entry in `parse_state_ids`, the call returns the recorded id and leaves the
builder as it is, whatever the depth bound; and when a call returns, a second
call on the same item set returns the same id and leaves the builder as the
first call left it. -/
theorem add_parse_state_memoised (E : Collaborators κ) (item_set : ParseItemSet) :
    (∀ (b : TableBuilder κ) (id : ParseStateId),
      assoc_find same_items b.parse_state_ids item_set = some id →
      ∀ fuel, add_parse_state E fuel item_set b = some (id, b)) ∧
    (∀ (b b' : TableBuilder κ) (id : ParseStateId) (fuel : Nat),
      add_parse_state E fuel item_set b = some (id, b') →
      ∀ fuel', add_parse_state E fuel' item_set b' = some (id, b')) := by
  have found : ∀ (b : TableBuilder κ) (id : ParseStateId),
      assoc_find same_items b.parse_state_ids item_set = some id →
      ∀ fuel, add_parse_state E fuel item_set b = some (id, b) := by
    intro b id h fuel
    cases fuel <;> simp [add_parse_state, h]
  refine ⟨found, ?_⟩
  intro b b' id fuel h fuel'
  exact found b' id (add_parse_state_spec E fuel item_set b id b' h).2.1 fuel'

/-- C2, on the small grammar: the first call on the start item set creates the
states and returns an id; the second call, with no depth left, returns the same
id and the same builder. -/
theorem add_parse_state_memoised_witness :
    ∃ id b', add_parse_state Example.collaborators 3 (start_item_set Example.collaborators)
        { conflict_manager := 0 } = some (id, b') ∧
      add_parse_state Example.collaborators 0 (start_item_set Example.collaborators) b' =
        some (id, b') := by
  have hsome : (add_parse_state Example.collaborators 3 (start_item_set Example.collaborators)
      { conflict_manager := 0 }).isSome = true := by decide
  obtain ⟨⟨id, b'⟩, h⟩ := Option.isSome_iff_exists.mp hsome
  exact ⟨id, b', h,
    (add_parse_state_memoised Example.collaborators
      (start_item_set Example.collaborators)).2 _ b' id 3 h 0⟩

theorem precedence_values_foldl_mem (E : Collaborators κ) (item_set : ParseItemSet)
    (init : Finset Int) (p : Int) :
    p ∈ item_set.foldl
        (fun result item =>
          if item.consumed_symbol_count > 0 then insert (E.precedence item) result else result)
        init ↔
      p ∈ init ∨ ∃ item ∈ item_set, item.consumed_symbol_count > 0 ∧ E.precedence item = p := by
  induction item_set generalizing init with
  | nil => simp
  | cons item rest ih =>
    simp only [List.foldl_cons, List.mem_cons, exists_eq_or_imp]
    rw [ih]
    by_cases hc : item.consumed_symbol_count > 0
    · simp only [hc, if_true, Finset.mem_insert, true_and]
      constructor
      · rintro ((h | h) | h)
        · exact Or.inr (Or.inl h.symm)
        · exact Or.inl h
        · exact Or.inr (Or.inr h)
      · rintro (h | h | h)
        · exact Or.inl (Or.inr h)
        · exact Or.inl (Or.inl h.symm)
        · exact Or.inr h
    · simp only [hc, if_false, false_and, false_or]

/-- C3: `precedence_values_for_item_set(S)` holds exactly the values
`item.precedence()` of the items of `S` with `consumed_symbol_count > 0`; and an
action that `add_shift_actions` leaves under a symbol in the state it fills, if
it was not there before, is `Shift` to the recorded id of a successor item set
of that symbol, carrying the set computed on that successor. -/
theorem shift_carries_precedence_values (E : Collaborators κ) :
    (∀ (item_set : ParseItemSet) (p : Int),
      p ∈ precedence_values_for_item_set E item_set ↔
        ∃ item ∈ item_set, item.consumed_symbol_count > 0 ∧ E.precedence item = p) ∧
    (∀ (fuel : Nat) (item_set : ParseItemSet) (state_id : ParseStateId) (b b' : TableBuilder κ),
      state_id < b.parse_table.states.length →
      add_shift_actions E (add_parse_state E fuel) item_set state_id b = some b' →
      ∀ (symbol : ISymbol) (action : ParseAction),
        assoc_find key_eq (b'.parse_table.state state_id).actions symbol = some action →
        assoc_find key_eq (b.parse_table.state state_id).actions symbol = some action ∨
        ∃ successor id, (symbol, successor) ∈ E.sym_transitions item_set ∧
          assoc_find same_items b'.parse_state_ids successor = some id ∧
          action = ParseAction.Shift id (precedence_values_for_item_set E successor)) := by
  constructor
  · intro item_set p
    unfold precedence_values_for_item_set
    rw [precedence_values_foldl_mem]
    simp
  · intro fuel item_set state_id b b' hb h symbol action ha
    exact add_shift_actions_loop_actions E (add_parse_state E fuel)
      (fun s b id b' hs =>
        ⟨(add_parse_state_spec E fuel s b id b' hs).1, (add_parse_state_spec E fuel s b id b' hs).2.1⟩)
      state_id _ b b' hb h symbol action ha

/-- C3, on the small grammar: in the start state, freshly added, the action
that `add_shift_actions` leaves under the token `A` is the shift to the recorded
id of the successor item set, with the precedence values of that set. -/
theorem shift_carries_precedence_values_witness :
    ∃ b', Example.shifted = some b' ∧
      ∃ successor id,
        (Example.tokenA, successor) ∈
          Example.collaborators.sym_transitions (start_item_set Example.collaborators) ∧
        assoc_find same_items b'.parse_state_ids successor = some id ∧
        assoc_find key_eq (b'.parse_table.state 0).actions Example.tokenA =
          some (ParseAction.Shift id
            (precedence_values_for_item_set Example.collaborators successor)) := by
  have h : Example.shifted = some (Example.shifted.getD Example.fresh_start) := by rfl
  have ha : assoc_find key_eq ((Example.shifted.getD Example.fresh_start).parse_table.state 0).actions
      Example.tokenA = some (ParseAction.Shift 2 {0}) := by decide
  rcases (shift_carries_precedence_values Example.collaborators).2 2
      (start_item_set Example.collaborators) 0 Example.fresh_start _ (by decide) h
      Example.tokenA _ ha with h0 | ⟨successor, id, hm, hid, hact⟩
  · exact absurd h0 (by decide)
  · exact ⟨_, h, successor, id, hm, hid, hact ▸ ha⟩

/-- C4: `add_reduce_actions` handles its items one after the other, and what it
does for one item depends on `is_done`. An item that is not done changes
nothing. For a done item the new action is `Accept` when `lhs` is `START` and
`Reduce(lhs, consumed_symbol_count, precedence())` otherwise: when the state has
no action under `lookahead_sym`, the new action is installed there and the
conflict manager is not consulted; when it has one, the conflict manager
decides, and the new action is installed if and only if the decision is true.
An installed action is the one then found under `lookahead_sym`. -/
theorem add_reduce_actions_per_item (E : Collaborators κ) (state_id : ParseStateId) :
    (∀ (before : ParseItemSet) (item : ParseItem) (after : ParseItemSet) (b : TableBuilder κ),
      add_reduce_actions E (before ++ item :: after) state_id b =
        add_reduce_actions E after state_id
          (add_reduce_action E state_id (add_reduce_actions E before state_id b) item)) ∧
    (∀ (b : TableBuilder κ) (item : ParseItem), item.is_done = false →
      add_reduce_action E state_id b item = b) ∧
    (∀ (b : TableBuilder κ) (item : ParseItem), item.is_done = true →
      assoc_find key_eq (b.parse_table.state state_id).actions item.lookahead_sym = none →
      add_reduce_action E state_id b item =
        { b with
          parse_table := b.parse_table.add_action state_id item.lookahead_sym
            (if item.lhs = E.START then ParseAction.Accept
              else ParseAction.Reduce item.lhs item.consumed_symbol_count (E.precedence item)) }) ∧
    (∀ (b : TableBuilder κ) (item : ParseItem) (current : ParseAction), item.is_done = true →
      assoc_find key_eq (b.parse_table.state state_id).actions item.lookahead_sym =
        some current →
      add_reduce_action E state_id b item =
        { b with
          conflict_manager :=
            (E.resolve_parse_action b.conflict_manager item.lookahead_sym current
              (if item.lhs = E.START then ParseAction.Accept
                else ParseAction.Reduce item.lhs item.consumed_symbol_count
                  (E.precedence item))).2,
          parse_table :=
            if (E.resolve_parse_action b.conflict_manager item.lookahead_sym current
              (if item.lhs = E.START then ParseAction.Accept
                else ParseAction.Reduce item.lhs item.consumed_symbol_count
                  (E.precedence item))).1 = true
            then b.parse_table.add_action state_id item.lookahead_sym
              (if item.lhs = E.START then ParseAction.Accept
                else ParseAction.Reduce item.lhs item.consumed_symbol_count (E.precedence item))
            else b.parse_table }) ∧
    (∀ (t : ParseTable) (symbol : ISymbol) (action : ParseAction),
      state_id < t.states.length →
      assoc_find key_eq ((t.add_action state_id symbol action).state state_id).actions symbol =
        some action) := by
  refine ⟨?_, ?_, ?_, ?_, ?_⟩
  · intro before item after b
    simp [add_reduce_actions, List.foldl_append]
  · intro b item hd
    simp [add_reduce_action, hd]
  · intro b item hd hfind
    simp only [add_reduce_action, hd, if_true, hfind]
  · intro b item current hd hfind
    simp only [add_reduce_action, hd, if_true, hfind]
    generalize (if item.lhs = E.START then ParseAction.Accept
      else ParseAction.Reduce item.lhs item.consumed_symbol_count (E.precedence item)) = action
    cases h : (E.resolve_parse_action b.conflict_manager item.lookahead_sym current action).1 <;>
      simp
  · intro t symbol action hlt
    rw [ParseTable.add_action_state _ _ _ _ hlt, assoc_find_assign]
    simp

/-- C4, on the small grammar: in a state without actions the done item of
`START` installs `Accept` under the end of input. -/
theorem add_reduce_actions_per_item_witness :
    add_reduce_action Example.collaborators 1
        { conflict_manager := 0, parse_table := { states := [{}, {}] } } Example.item1 =
      { conflict_manager := 0,
        parse_table := ({ states := [{}, {}] } : ParseTable).add_action 1
          Example.END_OF_INPUT ParseAction.Accept } :=
  (add_reduce_actions_per_item Example.collaborators 1).2.2.1
    { conflict_manager := 0, parse_table := { states := [{}, {}] } } Example.item1
    (by decide) (by decide)

theorem mem_set_insert {α : Type} [DecidableEq α] (x y : α) (s : List α) :
    y ∈ set_insert x s ↔ y = x ∨ y ∈ s := by
  unfold set_insert
  split
  · constructor
    · exact Or.inr
    · rintro (rfl | h)
      · assumption
      · exact h
  · simp [or_comm]

theorem mem_expected_inputs_foldl (actions : List (ISymbol × ParseAction))
    (init : List ISymbol) (symbol : ISymbol) :
    symbol ∈ actions.foldl (fun result pair => set_insert pair.1 result) init ↔
      symbol ∈ init ∨ ∃ action, (symbol, action) ∈ actions := by
  induction actions generalizing init with
  | nil => simp
  | cons p rest ih =>
    simp only [List.foldl_cons, List.mem_cons]
    rw [ih, mem_set_insert]
    constructor
    · rintro ((rfl | h) | ⟨a, h⟩)
      · exact Or.inr ⟨p.2, Or.inl rfl⟩
      · exact Or.inl h
      · exact Or.inr ⟨a, Or.inr h⟩
    · rintro (h | ⟨a, h | h⟩)
      · exact Or.inl (Or.inr h)
      · exact Or.inl (Or.inl (by rw [← h]))
      · exact Or.inr ⟨a, h⟩

theorem mem_lex_item_set_foldl (E : Collaborators κ) (symbols : List ISymbol)
    (init : LexItemSet) (x : LexItem) :
    x ∈ symbols.foldl (lex_item_set_add_symbol E) init ↔
      x ∈ init ∨
      (∃ symbol ∈ symbols, symbol.is_token = true ∧ E.is_built_in symbol = false ∧
        x = ⟨symbol, after_separators (E.lex_grammar.rule symbol)⟩) ∨
      (E.END_OF_INPUT ∈ symbols ∧
        x = ⟨E.END_OF_INPUT, after_separators (Rule.Character {0})⟩) := by
  induction symbols generalizing init with
  | nil => simp
  | cons symbol rest ih =>
    simp only [List.foldl_cons, List.mem_cons, exists_eq_or_imp]
    rw [ih]
    have step : x ∈ lex_item_set_add_symbol E init symbol ↔
        x ∈ init ∨
        (symbol.is_token = true ∧ E.is_built_in symbol = false ∧
          x = ⟨symbol, after_separators (E.lex_grammar.rule symbol)⟩) ∨
        (E.END_OF_INPUT = symbol ∧
          x = ⟨E.END_OF_INPUT, after_separators (Rule.Character {0})⟩) := by
      have r1 : x ∈ (if (symbol.is_token && !E.is_built_in symbol) = true then
            set_insert ⟨symbol, after_separators (E.lex_grammar.rule symbol)⟩ init
          else init) ↔
          x ∈ init ∨ (symbol.is_token = true ∧ E.is_built_in symbol = false ∧
            x = ⟨symbol, after_separators (E.lex_grammar.rule symbol)⟩) := by
        split
        · rename_i h
          simp only [Bool.and_eq_true, Bool.not_eq_true'] at h
          rw [mem_set_insert]
          constructor
          · rintro (h' | h')
            · exact Or.inr ⟨h.1, h.2, h'⟩
            · exact Or.inl h'
          · rintro (h' | ⟨_, _, h'⟩)
            · exact Or.inr h'
            · exact Or.inl h'
        · rename_i h
          simp only [Bool.and_eq_true, Bool.not_eq_true'] at h
          constructor
          · exact Or.inl
          · rintro (h' | ⟨a, b, _⟩)
            · exact h'
            · exact absurd ⟨a, b⟩ h
      unfold lex_item_set_add_symbol
      simp only
      split
      · rename_i h3
        rw [mem_set_insert, r1, h3]
        constructor
        · rintro (h | h | h)
          · exact Or.inr (Or.inr ⟨rfl, h⟩)
          · exact Or.inl h
          · exact Or.inr (Or.inl h)
        · rintro (h | h | ⟨_, h⟩)
          · exact Or.inr (Or.inl h)
          · exact Or.inr (Or.inr h)
          · exact Or.inl h
      · rename_i h3
        rw [r1]
        constructor
        · rintro (h | h)
          · exact Or.inl h
          · exact Or.inr (Or.inl h)
        · rintro (h | h | ⟨h, _⟩)
          · exact Or.inl h
          · exact Or.inr h
          · exact absurd h.symm h3
    rw [step]
    constructor
    · rintro ((h | h | ⟨h, hx⟩) | ⟨s, hs, h⟩ | ⟨h, hx⟩)
      · exact Or.inl h
      · exact Or.inr (Or.inl (Or.inl h))
      · exact Or.inr (Or.inr ⟨Or.inl h, hx⟩)
      · exact Or.inr (Or.inl (Or.inr ⟨s, hs, h⟩))
      · exact Or.inr (Or.inr ⟨Or.inr h, hx⟩)
    · rintro (h | (h | ⟨s, hs, h⟩) | ⟨h | h, hx⟩)
      · exact Or.inl (Or.inl h)
      · exact Or.inl (Or.inr (Or.inl h))
      · exact Or.inr (Or.inl ⟨s, hs, h⟩)
      · exact Or.inl (Or.inr (Or.inr ⟨h, hx⟩))
      · exact Or.inr (Or.inr ⟨h, hx⟩)

/-- C5: for every parse state, an item is in `lex_item_set_for_parse_state` if
and only if it is `LexItem(sym, after_separators(lex_grammar.rule(sym)))` for a
key `sym` of the actions that is a token and not built-in, or it is
`LexItem(END_OF_INPUT, after_separators(CharacterSet({0})))` and `END_OF_INPUT`
is a key of the actions. -/
theorem lex_item_set_for_parse_state_mem (E : Collaborators κ) (state : ParseState)
    (x : LexItem) :
    x ∈ lex_item_set_for_parse_state E state ↔
      (∃ symbol action, (symbol, action) ∈ state.actions ∧ symbol.is_token = true ∧
        E.is_built_in symbol = false ∧
        x = ⟨symbol, after_separators (E.lex_grammar.rule symbol)⟩) ∨
      ((∃ action, (E.END_OF_INPUT, action) ∈ state.actions) ∧
        x = ⟨E.END_OF_INPUT, after_separators (Rule.Character {0})⟩) := by
  unfold lex_item_set_for_parse_state ParseState.expected_inputs
  rw [mem_lex_item_set_foldl]
  simp only [mem_expected_inputs_foldl, List.not_mem_nil, false_or]
  constructor
  · rintro (⟨symbol, ⟨a, ha⟩, h1, h2, h3⟩ | ⟨⟨a, ha⟩, h⟩)
    · exact Or.inl ⟨symbol, a, ha, h1, h2, h3⟩
    · exact Or.inr ⟨⟨a, ha⟩, h⟩
  · rintro (⟨symbol, a, ha, h1, h2, h3⟩ | ⟨⟨a, ha⟩, h⟩)
    · exact Or.inl ⟨symbol, ⟨a, ha⟩, h1, h2, h3⟩
    · exact Or.inr ⟨⟨a, ha⟩, h⟩

theorem mem_add_error_items (options : SymbolOption) (i : Nat) (rules : List (String × Rule))
    (init : LexItemSet) (x : LexItem) :
    x ∈ add_error_items options i rules init ↔
      x ∈ init ∨ ∃ j rule, rules[j]? = some rule ∧
        x = ⟨⟨((i + j : Nat) : Int), options⟩, after_separators rule.2⟩ := by
  induction rules generalizing i init with
  | nil => simp [add_error_items]
  | cons r rest ih =>
    simp only [add_error_items]
    rw [ih, mem_set_insert]
    constructor
    · rintro ((h | h) | ⟨j, rule, hj, h⟩)
      · exact Or.inr ⟨0, r, by simp, by simpa using h⟩
      · exact Or.inl h
      · refine Or.inr ⟨j + 1, rule, by simpa using hj, ?_⟩
        rw [h]
        have : i + 1 + j = i + (j + 1) := by omega
        rw [this]
    · rintro (h | ⟨j, rule, hj, h⟩)
      · exact Or.inl (Or.inr h)
      · cases j with
        | zero =>
          simp only [List.getElem?_cons_zero, Option.some.injEq] at hj
          subst hj
          exact Or.inl (Or.inl (by simpa using h))
        | succ j =>
          refine Or.inr ⟨j, rule, by simpa using hj, ?_⟩
          rw [h]
          have : i + 1 + j = i + (j + 1) := by omega
          rw [this]

theorem add_error_lex_state_grows (E : Collaborators κ) (fuel : Nat) (b b' : TableBuilder κ)
    (h : add_error_lex_state E fuel b = some b') : LexGrows b b' := by
  unfold add_error_lex_state at h
  split at h
  · simp at h
  · rename_i b1 hloop
    simp only [Option.some.injEq] at h
    subst h
    exact (add_advance_actions_loop_grows (add_lex_state E fuel)
      (fun s b id b' hs => (add_lex_state_spec E fuel s b id b' hs).1) _ _ _ _ hloop).lex_trans
      (add_accept_token_actions_writes E _ _ b1).lex_grows


theorem lex_item_set_for_parse_state_closed (E : Collaborators κ) (symbols : List ISymbol)
    (lex_sets : List LexItemSet) (hnil : [] ∈ lex_sets)
    (hstep : ∀ r ∈ lex_sets, ∀ s ∈ symbols, lex_item_set_add_symbol E r s ∈ lex_sets)
    (state : ParseState) (hkeys : ∀ p ∈ state.actions, p.1 ∈ symbols) :
    lex_item_set_for_parse_state E state ∈ lex_sets := by
  unfold lex_item_set_for_parse_state
  have hin : ∀ s ∈ state.expected_inputs, s ∈ symbols := by
    intro s hs
    unfold ParseState.expected_inputs at hs
    rw [mem_expected_inputs_foldl] at hs
    rcases hs with hs | ⟨a, ha⟩
    · simp at hs
    · exact hkeys _ ha
  generalize state.expected_inputs = inputs at hin
  have main : ∀ (init : LexItemSet), init ∈ lex_sets →
      inputs.foldl (lex_item_set_add_symbol E) init ∈ lex_sets := by
    induction inputs with
    | nil => exact fun init h => h
    | cons s rest ih =>
      intro init h
      simp only [List.foldl_cons]
      exact ih (fun x hx => hin x (List.mem_cons_of_mem _ hx)) _
        (hstep init h s (hin s (List.mem_cons_self _ _)))
  exact main [] hnil

/-- C8: state enumeration halts. Let `parse_sets` be a finite collection of
parse item sets closed under `sym_transitions`, and `lex_sets` a finite
collection of lex item sets closed under `char_transitions` that holds the lex
item set of every parse state whose action keys are transition symbols or
lookaheads of done items of a member of `parse_sets`. Then `add_lex_state` on a
member of `lex_sets` returns when its depth bound is at least the number of
members of `lex_sets` without an id, and `add_parse_state` on a member of
`parse_sets` returns when its bound is at least the number of members of
`parse_sets` without an id plus that number for `lex_sets`; neither call
increases these numbers, and recording an item set without an id, which both
methods do before they explore its successors, decreases its number. Hence
`build` returns with the bound `|parse_sets| + |lex_sets|`. -/
theorem state_enumeration_halts (E : Collaborators κ) (parse_sets : List ParseItemSet)
    (lex_sets : List LexItemSet)
    (hclosed : ∀ s ∈ parse_sets, ∀ tr ∈ E.sym_transitions s, tr.2 ∈ parse_sets)
    (hlex_closed : ∀ s ∈ lex_sets, ∀ tr ∈ E.char_transitions s, tr.2 ∈ lex_sets)
    (hlex_start : ∀ s ∈ parse_sets, ∀ state : ParseState,
      (∀ p ∈ state.actions, p.1 ∈ expected_symbols E s) →
      lex_item_set_for_parse_state E state ∈ lex_sets) :
    (∀ (fuel : Nat) (item_set : LexItemSet) (b : TableBuilder κ), item_set ∈ lex_sets →
      unrecorded lex_sets b.lex_state_ids ≤ fuel →
      ∃ id b', add_lex_state E fuel item_set b = some (id, b') ∧
        unrecorded lex_sets b'.lex_state_ids ≤ unrecorded lex_sets b.lex_state_ids) ∧
    (∀ (fuel : Nat) (item_set : ParseItemSet) (b : TableBuilder κ), item_set ∈ parse_sets →
      unrecorded parse_sets b.parse_state_ids + unrecorded lex_sets b.lex_state_ids ≤ fuel →
      ∃ id b', add_parse_state E fuel item_set b = some (id, b') ∧
        unrecorded parse_sets b'.parse_state_ids + unrecorded lex_sets b'.lex_state_ids ≤
          unrecorded parse_sets b.parse_state_ids + unrecorded lex_sets b.lex_state_ids) ∧
    (∀ (item_set : ParseItemSet) (ids : List (ParseItemSet × ParseStateId))
      (id : ParseStateId), item_set ∈ parse_sets →
      assoc_find same_items ids item_set = none →
      unrecorded parse_sets (assoc_assign same_items ids item_set id) <
        unrecorded parse_sets ids) ∧
    (∀ (item_set : LexItemSet) (ids : List (LexItemSet × LexStateId)) (id : LexStateId),
      item_set ∈ lex_sets → assoc_find same_items ids item_set = none →
      unrecorded lex_sets (assoc_assign same_items ids item_set id) <
        unrecorded lex_sets ids) ∧
    (start_item_set E ∈ parse_sets →
      (∀ tr ∈ E.char_transitions (error_item_set E), tr.2 ∈ lex_sets) →
      ∀ manager, ∃ b, build E (parse_sets.length + lex_sets.length) manager = some b) := by
  have record : ∀ {α υ : Type} [DecidableEq α] (sets : List (List α))
      (s : List α) (ids : List (List α × υ)) (id : υ), s ∈ sets →
      assoc_find same_items ids s = none →
      unrecorded sets (assoc_assign same_items ids s id) < unrecorded sets ids := by
    intro α υ _ sets s ids id hs hfind
    apply unrecorded_lt_of_recorded sets _ _ _ s hs hfind id (assoc_find_assign_self _ _ _ hfind)
    intro t i h
    rw [assoc_assign_of_none _ _ _ _ hfind]
    exact assoc_find_append_of_some _ _ _ _ _ h
  have hparse := add_parse_state_halts E parse_sets lex_sets hclosed hlex_closed hlex_start
  refine ⟨?_, ?_, fun s ids id hs h => record parse_sets s ids id hs h,
    fun s ids id hs h => record lex_sets s ids id hs h, ?_⟩
  · intro fuel item_set b hs hb
    obtain ⟨id, b', h⟩ := add_lex_state_halts E lex_sets hlex_closed fuel item_set b hs hb
    exact ⟨id, b', h, (add_lex_state_spec E fuel item_set b id b' h).1.lex_unrecorded_le lex_sets⟩
  · intro fuel item_set b hs hb
    obtain ⟨id, b', h⟩ := hparse fuel item_set b hs hb
    exact ⟨id, b', h,
      (add_parse_state_spec E fuel item_set b id b' h).1.unrecorded_le parse_sets lex_sets⟩
  · intro hstart herror manager
    have h1 := unrecorded_le_length parse_sets
      ({ conflict_manager := manager } : TableBuilder κ).parse_state_ids
    have h2 := unrecorded_le_length lex_sets
      ({ conflict_manager := manager } : TableBuilder κ).lex_state_ids
    obtain ⟨id, b1, hcall⟩ := hparse (parse_sets.length + lex_sets.length) (start_item_set E)
      { conflict_manager := manager } hstart (by omega)
    have hg := (add_parse_state_spec E _ _ _ _ _ hcall).1
    have h3 := unrecorded_le_of_preserved lex_sets _ _ hg.lex_state_ids
    obtain ⟨b2, hloop⟩ := add_advance_actions_loop_halts
      (add_lex_state E (parse_sets.length + lex_sets.length)) lex_sets
      (parse_sets.length + lex_sets.length)
      (add_lex_state_halts E lex_sets hlex_closed _)
      (fun s b id b' h => (add_lex_state_spec E _ s b id b' h).1)
      LexTable.ERROR_STATE_ID (E.char_transitions (error_item_set E)) herror b1 (by omega)
    refine ⟨add_accept_token_actions E (error_item_set E) LexTable.ERROR_STATE_ID b2, ?_⟩
    simp only [build, hcall, add_error_lex_state, add_advance_actions, hloop]

/-- C8, on the small grammar: its three parse item sets and five lex item sets
are closed, and the build returns with the bound 3 + 5. -/
theorem state_enumeration_halts_witness :
    ∃ b, build Example.collaborators 8 0 = some b :=
  (state_enumeration_halts Example.collaborators Example.parse_sets Example.lex_sets
    (by decide) (by decide)
    (fun s hs => lex_item_set_for_parse_state_closed Example.collaborators
      (expected_symbols Example.collaborators s) Example.lex_sets (by decide)
      ((by decide : ∀ s ∈ Example.parse_sets, ∀ r ∈ Example.lex_sets,
        ∀ x ∈ expected_symbols Example.collaborators s,
          lex_item_set_add_symbol Example.collaborators r x ∈ Example.lex_sets) s hs))).2.2.2.2
    (by decide) (by decide) 0

/-! ## Symbol transitions: keys and merged residuals -/

theorem merge_sym_transition_keys (left : List (ISymbol × Rule)) (k : ISymbol) (r : Rule) :
    (merge_sym_transition left k r).map Prod.fst =
      if k ∈ left.map Prod.fst then left.map Prod.fst else left.map Prod.fst ++ [k] := by
  induction left with
  | nil => simp [merge_sym_transition]
  | cons p rest ih =>
    obtain ⟨k0, r0⟩ := p
    simp only [merge_sym_transition]
    by_cases h : k0 = k
    · subst h; simp
    · have h' : ¬ k = k0 := fun e => h e.symm
      simp only [h, if_false, List.map_cons, ih, List.mem_cons, h', false_or]
      split <;> simp

theorem merge_sym_transition_nodup (left : List (ISymbol × Rule)) (k : ISymbol) (r : Rule)
    (h : (left.map Prod.fst).Nodup) : ((merge_sym_transition left k r).map Prod.fst).Nodup := by
  rw [merge_sym_transition_keys]
  split
  · exact h
  · rename_i hk
    exact List.nodup_append.mpr ⟨h, List.nodup_singleton _, by
      intro a ha hb
      simp only [List.mem_singleton] at hb
      exact hk (hb ▸ ha)⟩

theorem merge_sym_transitions_nodup (left right : List (ISymbol × Rule))
    (h : (left.map Prod.fst).Nodup) : ((merge_sym_transitions left right).map Prod.fst).Nodup := by
  unfold merge_sym_transitions
  induction right generalizing left with
  | nil => exact h
  | cons p rest ih => exact ih _ (merge_sym_transition_nodup left p.1 p.2 h)

theorem map_value_keys {κ υ : Type} (f : κ × υ → υ) (m : List (κ × υ)) :
    (m.map (fun p => (p.1, f p))).map Prod.fst = m.map Prod.fst := by
  simp [Function.comp_def]

mutual
theorem sym_transitions_nodup : (r : Rule) → ((sym_transitions r).map Prod.fst).Nodup
  | .Blank => by simp [sym_transitions]
  | .Symbol _ => by simp [sym_transitions]
  | .ISym _ => by simp [sym_transitions]
  | .Character _ => by simp [sym_transitions]
  | .Choice cs => by
    rw [sym_transitions]
    exact sym_transitions_choice_nodup cs [] (by simp)
  | .Seq head tail => by
    have hh := sym_transitions_nodup head
    rw [sym_transitions]
    split
    · apply merge_sym_transitions_nodup
      rw [map_value_keys (fun p => Seq.Build [p.2, tail])]
      exact hh
    · rw [map_value_keys (fun p => Seq.Build [p.2, tail])]
      exact hh
  | .Repeat child => by
    have hh := sym_transitions_nodup child
    rw [sym_transitions, map_value_keys
      (fun p => if p.2 = .Blank then .Repeat child else Seq.Build [p.2, .Repeat child])]
    exact hh
  | .Metadata child value => by
    have hh := sym_transitions_nodup child
    rw [sym_transitions, map_value_keys (fun p => Rule.Metadata p.2 value)]
    exact hh
theorem sym_transitions_choice_nodup : (cs : List Rule) → (acc : List (ISymbol × Rule)) →
    (acc.map Prod.fst).Nodup → ((sym_transitions_choice acc cs).map Prod.fst).Nodup
  | [], acc, h => by rw [sym_transitions_choice]; exact h
  | c :: cs, acc, h => by
    rw [sym_transitions_choice]
    exact sym_transitions_choice_nodup cs _ (merge_sym_transitions_nodup acc _ h)
end

theorem assoc_find_none_of_not_mem {κ υ : Type} [DecidableEq κ] (m : List (κ × υ)) (k : κ)
    (h : k ∉ m.map Prod.fst) : assoc_find key_eq m k = none := by
  induction m with
  | nil => rfl
  | cons p rest ih =>
    obtain ⟨k0, v0⟩ := p
    simp only [List.map_cons, List.mem_cons, not_or] at h
    have h0 : ¬ k0 = k := fun e => h.1 e.symm
    simp only [assoc_find, key_eq, decide_eq_true_eq, h0, if_false]
    simpa [key_eq] using ih h.2

theorem assoc_find_merge_sym_transition (left : List (ISymbol × Rule)) (k k' : ISymbol)
    (r : Rule) :
    assoc_find key_eq (merge_sym_transition left k r) k' =
      if k = k' then
        some (match assoc_find key_eq left k with
          | some a => Choice.Build [a, r]
          | none => r)
      else assoc_find key_eq left k' := by
  induction left with
  | nil =>
    simp only [merge_sym_transition, assoc_find, key_eq, decide_eq_true_eq]
  | cons p rest ih =>
    obtain ⟨k0, r0⟩ := p
    simp only [merge_sym_transition]
    by_cases h0 : k0 = k
    · subst h0
      simp only [if_true, assoc_find, key_eq, decide_eq_true_eq]
      split <;> rfl
    · simp only [h0, if_false, assoc_find, key_eq, decide_eq_true_eq]
      by_cases h1 : k0 = k'
      · subst h1
        have : ¬ k = k0 := fun e => h0 e.symm
        simp [this]
      · simp only [h1, if_false]
        simpa [key_eq] using ih

theorem assoc_find_merge_sym_transitions (left right : List (ISymbol × Rule))
    (h : (right.map Prod.fst).Nodup) (k : ISymbol) :
    assoc_find key_eq (merge_sym_transitions left right) k =
      merged_residual (assoc_find key_eq left k) (assoc_find key_eq right k) := by
  unfold merge_sym_transitions
  induction right generalizing left with
  | nil =>
    simp only [List.foldl_nil, assoc_find, merged_residual]
    cases assoc_find key_eq left k <;> rfl
  | cons p rest ih =>
    obtain ⟨k0, r0⟩ := p
    simp only [List.map_cons, List.nodup_cons] at h
    simp only [List.foldl_cons]
    rw [ih _ h.2, assoc_find_merge_sym_transition]
    by_cases hk : k0 = k
    · subst hk
      rw [assoc_find_none_of_not_mem rest k0 h.1]
      simp only [if_true, assoc_find, key_eq, decide_eq_true_eq]
      cases assoc_find key_eq left k0 <;> rfl
    · simp only [hk, if_false, assoc_find, key_eq, decide_eq_true_eq]

/-- C11: for every rule `x`, `transitions(Repeat(x))` has the keys of
`transitions(x)` and maps a key with residual `r` to `Repeat(x)` when `r` is
`Blank` and to `Seq::Build(r, Repeat(x))`, which is then `Seq(r, Repeat(x))`,
when it is not; this holds of `sym_transitions` and of `char_transitions`, and
for a character set `c`, `char_transitions(Repeat(c))` is `{ c ↦ Repeat(c) }`. -/
theorem repeat_transitions (x : Rule) :
    ((sym_transitions (Rule.Repeat x)).map Prod.fst = (sym_transitions x).map Prod.fst ∧
      ∀ k, assoc_find key_eq (sym_transitions (Rule.Repeat x)) k =
        (assoc_find key_eq (sym_transitions x) k).map
          (fun r => if r = Rule.Blank then Rule.Repeat x else Seq.Build [r, Rule.Repeat x])) ∧
    ((char_transitions (Rule.Repeat x)).map Prod.fst = (char_transitions x).map Prod.fst ∧
      ∀ k, assoc_find key_eq (char_transitions (Rule.Repeat x)) k =
        (assoc_find key_eq (char_transitions x) k).map
          (fun r => if r = Rule.Blank then Rule.Repeat x else Seq.Build [r, Rule.Repeat x])) ∧
    (∀ r, Seq.Build [r, Rule.Repeat x] =
      if r = Rule.Blank then Rule.Repeat x else Rule.Seq r (Rule.Repeat x)) ∧
    (∀ c : CharacterSet,
      char_transitions (Rule.Repeat (Rule.Character c)) =
        [(c, Rule.Repeat (Rule.Character c))]) := by
  refine ⟨⟨?_, ?_⟩, ⟨?_, ?_⟩, ?_, ?_⟩
  · rw [sym_transitions, map_value_keys
      (fun p => if p.2 = .Blank then .Repeat x else Seq.Build [p.2, .Repeat x])]
  · intro k
    rw [sym_transitions]
    exact assoc_find_map_value
      (fun r => if r = Rule.Blank then Rule.Repeat x else Seq.Build [r, Rule.Repeat x]) _ k
  · rw [char_transitions, map_value_keys
      (fun p => if p.2 = .Blank then .Repeat x else Seq.Build [p.2, .Repeat x])]
  · intro k
    rw [char_transitions]
    exact assoc_find_map_value
      (fun r => if r = Rule.Blank then Rule.Repeat x else Seq.Build [r, Rule.Repeat x]) _ k
  · intro r
    by_cases hr : r = Rule.Blank
    · subst hr; simp [Seq.Build]
    · simp [Seq.Build, hr]
  · intro c
    simp [char_transitions]

/-- C12: for all rules `head` and `tail`, when `head` is not nullable
`sym_transitions(Seq(head, tail))` has exactly the entries
`k ↦ Seq::Build(r, tail)` for the entries `k ↦ r` of `sym_transitions(head)`;
when `head` is nullable the entries of `sym_transitions(tail)` are unioned in: a
key of one side keeps the residual of that side, and a key of both sides is
mapped to `Choice::Build` of the two residuals. In both cases every key of
`sym_transitions(head)` is a key. -/
theorem seq_transitions (head tail : Rule) :
    (is_nullable head = false →
      sym_transitions (Rule.Seq head tail) =
        (sym_transitions head).map (fun p => (p.1, Seq.Build [p.2, tail]))) ∧
    (is_nullable head = true →
      ∀ k, assoc_find key_eq (sym_transitions (Rule.Seq head tail)) k =
        merged_residual
          ((assoc_find key_eq (sym_transitions head) k).map (fun r => Seq.Build [r, tail]))
          (assoc_find key_eq (sym_transitions tail) k)) ∧
    (∀ k r, assoc_find key_eq (sym_transitions head) k = some r →
      ∃ r', assoc_find key_eq (sym_transitions (Rule.Seq head tail)) k = some r') := by
  have hnull : is_nullable head = true →
      ∀ k, assoc_find key_eq (sym_transitions (Rule.Seq head tail)) k =
        merged_residual
          ((assoc_find key_eq (sym_transitions head) k).map (fun r => Seq.Build [r, tail]))
          (assoc_find key_eq (sym_transitions tail) k) := by
    intro h k
    rw [sym_transitions]
    simp only [h, if_true]
    rw [assoc_find_merge_sym_transitions _ _ (sym_transitions_nodup tail),
      assoc_find_map_value (fun r => Seq.Build [r, tail])]
  refine ⟨?_, hnull, ?_⟩
  · intro h
    rw [sym_transitions]
    simp [h]
  · intro k r hk
    cases hn : is_nullable head with
    | true =>
      rw [hnull hn k, hk]
      cases assoc_find key_eq (sym_transitions tail) k with
      | none => exact ⟨_, rfl⟩
      | some y => exact ⟨_, rfl⟩
    | false =>
      rw [sym_transitions]
      simp only [hn]
      rw [if_neg (by simp), assoc_find_map_value (fun r => Seq.Build [r, tail]), hk]
      exact ⟨_, rfl⟩

/-- C12, on the rule of the tests: in `seq(choice(s1, blank), seq(s1, s2))` the
head is nullable and `s1` is a key of both sides, so its residual is
`choice(seq(s1, s2), s2)`. -/
theorem seq_transitions_witness :
    assoc_find key_eq
        (sym_transitions
          (Rule.Seq (Rule.Choice [i_sym 1, Rule.Blank]) (Rule.Seq (i_sym 1) (i_sym 2))))
        ⟨1, ⟨false, false⟩⟩ =
      some (Rule.Choice [Rule.Seq (i_sym 1) (i_sym 2), i_sym 2]) :=
  (seq_transitions (Rule.Choice [i_sym 1, Rule.Blank]) (Rule.Seq (i_sym 1) (i_sym 2))).2.1
    (by decide) ⟨1, ⟨false, false⟩⟩

/-! ## Tables: theorems -/

theorem LexTable.state_of_nat (t : LexTable) (i : Nat) :
    t.state (i : Int) = t.states.getD i {} := by
  simp [LexTable.state]

theorem LexTable.modify_state_of_nat (t : LexTable) (i : Nat) (f : LexState → LexState) :
    t.modify_state (i : Int) f = { t with states := modify_at f t.states i } := by
  simp [LexTable.modify_state]

/-- C15: in `LexTable` the id `-1` is the error state and the ids from 0 index
`states`. `state(ERROR_STATE_ID)` is `error_state` and `state(i)` is `states[i]`
for `i < |states|`; `add_action` and `add_default_action` under `ERROR_STATE_ID`
write to `error_state` and leave `states` as it is; under `i < |states|` they
write to `states[i]` and leave `error_state` and every other `states[j]` as they
are; and `add_state` returns the index of the state it adds, never
`ERROR_STATE_ID`. -/
theorem lex_table_ids (t : LexTable) :
    LexTable.ERROR_STATE_ID = -1 ∧
    t.state LexTable.ERROR_STATE_ID = t.error_state ∧
    (∀ i : Nat, i < t.states.length → some (t.state (i : Int)) = t.states[i]?) ∧
    (∀ (cs : CharacterSet) (a : LexAction),
      (t.add_action LexTable.ERROR_STATE_ID cs a).states = t.states ∧
      (t.add_action LexTable.ERROR_STATE_ID cs a).error_state =
        { t.error_state with actions := assoc_assign key_eq t.error_state.actions cs a }) ∧
    (∀ (a : LexAction),
      (t.add_default_action LexTable.ERROR_STATE_ID a).states = t.states ∧
      (t.add_default_action LexTable.ERROR_STATE_ID a).error_state =
        { t.error_state with default_action := a }) ∧
    (∀ (i : Nat) (cs : CharacterSet) (a : LexAction), i < t.states.length →
      (t.add_action (i : Int) cs a).error_state = t.error_state ∧
      (t.add_action (i : Int) cs a).states.length = t.states.length ∧
      (∀ j : Nat, j ≠ i → (t.add_action (i : Int) cs a).states[j]? = t.states[j]?) ∧
      (t.add_action (i : Int) cs a).state (i : Int) =
        { t.state (i : Int) with
          actions := assoc_assign key_eq (t.state (i : Int)).actions cs a }) ∧
    (∀ (i : Nat) (a : LexAction), i < t.states.length →
      (t.add_default_action (i : Int) a).error_state = t.error_state ∧
      (t.add_default_action (i : Int) a).states.length = t.states.length ∧
      (∀ j : Nat, j ≠ i → (t.add_default_action (i : Int) a).states[j]? = t.states[j]?) ∧
      (t.add_default_action (i : Int) a).state (i : Int) =
        { t.state (i : Int) with default_action := a }) ∧
    (t.add_state.1 = (t.states.length : Int) ∧ t.add_state.1 ≠ LexTable.ERROR_STATE_ID ∧
      0 ≤ t.add_state.1 ∧ t.add_state.2.states = t.states ++ [({} : LexState)] ∧
      t.add_state.2.error_state = t.error_state) := by
  have hmod : ∀ (i : Nat) (f : LexState → LexState), i < t.states.length →
      (t.modify_state (i : Int) f).error_state = t.error_state ∧
      (t.modify_state (i : Int) f).states.length = t.states.length ∧
      (∀ j : Nat, j ≠ i → (t.modify_state (i : Int) f).states[j]? = t.states[j]?) ∧
      (t.modify_state (i : Int) f).state (i : Int) = f (t.state (i : Int)) := by
    intro i f hi
    rw [LexTable.modify_state_of_nat]
    refine ⟨rfl, modify_at_length _ _ _, fun j hj => modify_at_getElem?_ne _ _ _ _ hj.symm, ?_⟩
    rw [LexTable.state_of_nat, LexTable.state_of_nat]
    simp only [List.getD_eq_getElem?_getD, modify_at_getElem?_eq,
      List.getElem?_eq_getElem hi, Option.map_some', Option.getD_some]
  refine ⟨rfl, by simp [LexTable.state, LexTable.ERROR_STATE_ID], ?_, ?_, ?_, ?_, ?_, ?_⟩
  · intro i hi
    rw [LexTable.state_of_nat, List.getD_eq_getElem?_getD, List.getElem?_eq_getElem hi]
    rfl
  · intro cs a
    simp [LexTable.add_action, LexTable.modify_state, LexTable.ERROR_STATE_ID]
  · intro a
    simp [LexTable.add_default_action, LexTable.modify_state, LexTable.ERROR_STATE_ID]
  · intro i cs a hi
    exact hmod i _ hi
  · intro i a hi
    exact hmod i _ hi
  · have h1 : t.add_state.1 = (t.states.length : Int) := by simp [LexTable.add_state]
    refine ⟨h1, ?_, ?_, rfl, rfl⟩
    · rw [h1]
      intro e
      have e' : ((t.states.length : Nat) : Int) = -1 := e
      omega
    · rw [h1]
      exact Int.ofNat_nonneg _

/-- C15, on a table of two states: an action added under id 1 is found in
state 1, and state 0 and the error state are as before. -/
theorem lex_table_ids_witness :
    (({ states := [{}, {}] } : LexTable).add_action ((1 : Nat) : Int) {97}
        (LexAction.Advance 0)).error_state = ({} : LexState) ∧
    (({ states := [{}, {}] } : LexTable).add_action ((1 : Nat) : Int) {97}
        (LexAction.Advance 0)).states.length = 2 ∧
    (({ states := [{}, {}] } : LexTable).add_action ((1 : Nat) : Int) {97}
        (LexAction.Advance 0)).states[0]? = some ({} : LexState) ∧
    (({ states := [{}, {}] } : LexTable).add_action ((1 : Nat) : Int) {97}
        (LexAction.Advance 0)).state ((1 : Nat) : Int) =
      { actions := [({97}, LexAction.Advance 0)] } := by
  have h := (lex_table_ids { states := [{}, {}] }).2.2.2.2.2.1 1 {97} (LexAction.Advance 0)
    (by decide)
  exact ⟨h.1, h.2.1, h.2.2.1 0 (by decide), h.2.2.2⟩

theorem assoc_assign_has_key {κ υ : Type} [DecidableEq κ] (m : List (κ × υ)) (k : κ) (v : υ)
    (s : κ) :
    (∃ a, (s, a) ∈ assoc_assign key_eq m k v) ↔ s = k ∨ ∃ a, (s, a) ∈ m := by
  induction m with
  | nil =>
    simp only [assoc_assign, List.mem_singleton, Prod.mk.injEq, List.not_mem_nil,
      exists_false, or_false]
    constructor
    · rintro ⟨a, h, _⟩; exact h
    · intro h; exact ⟨v, h, rfl⟩
  | cons p rest ih =>
    obtain ⟨k0, v0⟩ := p
    simp only [assoc_assign, key_eq, decide_eq_true_eq]
    by_cases h0 : k0 = k
    · subst h0
      simp only [if_true, List.mem_cons, Prod.mk.injEq]
      constructor
      · rintro ⟨a, h | h⟩
        · exact Or.inl h.1
        · exact Or.inr ⟨a, Or.inr h⟩
      · rintro (h | ⟨a, h | h⟩)
        · exact ⟨v, Or.inl ⟨h, rfl⟩⟩
        · exact ⟨v, Or.inl ⟨h.1, rfl⟩⟩
        · exact ⟨a, Or.inr h⟩
    · simp only [h0, if_false, List.mem_cons, Prod.mk.injEq]
      constructor
      · rintro ⟨a, h | h⟩
        · exact Or.inr ⟨a, Or.inl h⟩
        · rcases ih.mp ⟨a, h⟩ with h | ⟨a', h⟩
          · exact Or.inl h
          · exact Or.inr ⟨a', Or.inr h⟩
      · rintro (h | ⟨a, h | h⟩)
        · obtain ⟨a, ha⟩ := ih.mpr (Or.inl h)
          exact ⟨a, Or.inr ha⟩
        · exact ⟨a, Or.inl h⟩
        · obtain ⟨a', ha⟩ := ih.mpr (Or.inr ⟨a, h⟩)
          exact ⟨a', Or.inr ha⟩

theorem mem_modify_at {α : Type} (f : α → α) (l : List α) (i : Nat) (hi : i < l.length)
    (P : α → Prop) :
    (∃ x ∈ modify_at f l i, P x) ↔
      (P (f (l.get ⟨i, hi⟩))) ∨ ∃ j, ∃ hj : j < l.length, j ≠ i ∧ P (l.get ⟨j, hj⟩) := by
  induction l generalizing i with
  | nil => simp at hi
  | cons x xs ih =>
    cases i with
    | zero =>
      simp only [modify_at, List.mem_cons, exists_eq_or_imp, List.get_eq_getElem,
        List.getElem_cons_zero, List.length_cons]
      constructor
      · rintro (h | ⟨y, hy, h⟩)
        · exact Or.inl h
        · obtain ⟨n, hn, rfl⟩ := List.getElem_of_mem hy
          exact Or.inr ⟨n + 1, by omega, by omega, by simpa using h⟩
      · rintro (h | ⟨j, hj, hne, h⟩)
        · exact Or.inl h
        · cases j with
          | zero => exact absurd rfl hne
          | succ j =>
            simp only [List.getElem_cons_succ] at h
            exact Or.inr ⟨_, List.getElem_mem _, h⟩
    | succ i =>
      simp only [List.length_cons, Nat.add_lt_add_iff_right] at hi
      simp only [modify_at, List.mem_cons, exists_eq_or_imp, List.get_eq_getElem,
        List.getElem_cons_succ, List.length_cons]
      have := ih i hi
      simp only [List.get_eq_getElem] at this
      rw [this]
      constructor
      · rintro (h | h | ⟨j, hj, hne, h⟩)
        · exact Or.inr ⟨0, by omega, by omega, by simpa using h⟩
        · exact Or.inl h
        · exact Or.inr ⟨j + 1, by omega, by omega, by simpa using h⟩
      · rintro (h | ⟨j, hj, hne, h⟩)
        · exact Or.inr (Or.inl h)
        · cases j with
          | zero => exact Or.inl (by simpa using h)
          | succ j =>
            simp only [List.getElem_cons_succ] at h
            exact Or.inr (Or.inr ⟨j, by omega, by omega, h⟩)

theorem exists_mem_split_at {α : Type} (l : List α) (i : Nat) (hi : i < l.length)
    (P : α → Prop) :
    (∃ x ∈ l, P x) ↔
      P (l.get ⟨i, hi⟩) ∨ ∃ j, ∃ hj : j < l.length, j ≠ i ∧ P (l.get ⟨j, hj⟩) := by
  constructor
  · rintro ⟨x, hx, h⟩
    obtain ⟨n, hn, rfl⟩ := List.getElem_of_mem hx
    by_cases e : n = i
    · subst e; exact Or.inl h
    · exact Or.inr ⟨n, hn, e, h⟩
  · rintro (h | ⟨j, hj, _, h⟩)
    · exact ⟨_, List.getElem_mem _, h⟩
    · exact ⟨_, List.getElem_mem _, h⟩

/-- C16: `symbols` is the set of the symbols encountered. In every parse table
obtained from the empty one by calls of `add_state` and of `add_action` on a
state of the table, a symbol is in `symbols` if and only if it is a key of the
actions of some state; and `add_action(id, sym, a)` with `id < |states|` makes
`a` the action of `sym` in `states[id]`, and changes no other key of that state,
no other state, and not the number of states. -/
theorem parse_table_symbols :
    (∀ t : ParseTable, ParseTable.Built t →
      ∀ s, s ∈ t.symbols ↔ ∃ st ∈ t.states, ∃ a, (s, a) ∈ st.actions) ∧
    (∀ (t : ParseTable) (id : ParseStateId) (symbol : ISymbol) (action : ParseAction),
      id < t.states.length →
      assoc_find key_eq ((t.add_action id symbol action).state id).actions symbol =
        some action ∧
      (∀ k, k ≠ symbol →
        assoc_find key_eq ((t.add_action id symbol action).state id).actions k =
          assoc_find key_eq (t.state id).actions k) ∧
      ((t.add_action id symbol action).state id).lex_state_id = (t.state id).lex_state_id ∧
      (∀ j, j ≠ id → (t.add_action id symbol action).states[j]? = t.states[j]?) ∧
      (t.add_action id symbol action).states.length = t.states.length) := by
  constructor
  · intro t ht
    induction ht with
    | empty => intro s; simp
    | add_state t _ ih =>
      intro s
      simp only [ParseTable.add_state, List.mem_append, List.mem_singleton]
      rw [ih s]
      constructor
      · rintro ⟨st, hst, h⟩
        exact ⟨st, Or.inl hst, h⟩
      · rintro ⟨st, hst | hst, a, h⟩
        · exact ⟨st, hst, a, h⟩
        · subst hst; simp at h
    | add_action t id symbol action _ hid ih =>
      intro s
      simp only [ParseTable.add_action, Finset.mem_insert]
      rw [ih s, mem_modify_at _ _ _ hid (fun st => ∃ a, (s, a) ∈ st.actions),
        exists_mem_split_at t.states id hid (fun st => ∃ a, (s, a) ∈ st.actions)]
      simp only [assoc_assign_has_key]
      constructor
      · rintro (h | h | h)
        · exact Or.inl (Or.inl h)
        · exact Or.inl (Or.inr h)
        · exact Or.inr h
      · rintro ((h | h) | h)
        · exact Or.inl h
        · exact Or.inr (Or.inl h)
        · exact Or.inr (Or.inr h)
  · intro t id symbol action hid
    refine ⟨?_, ?_, ?_, ?_, ?_⟩
    · rw [ParseTable.add_action_state _ _ _ _ hid, assoc_find_assign]
      simp
    · intro k hk
      rw [ParseTable.add_action_state _ _ _ _ hid, assoc_find_assign]
      rw [if_neg (fun e : symbol = k => hk e.symm)]
    · simp only [ParseTable.state, ParseTable.add_action, List.getD_eq_getElem?_getD,
        modify_at_getElem?_eq]
      rw [List.getElem?_eq_getElem hid]
      simp
    · intro j hj
      simp only [ParseTable.add_action]
      exact modify_at_getElem?_ne _ _ _ _ (fun e => hj e.symm)
    · exact ParseTable.add_action_length _ _ _ _

/-- C16, on a table of one state: the action added under `A` in state 0 is
found there, and the table, built by `add_state` and `add_action`, has `A` as
its only symbol. -/
theorem parse_table_symbols_witness :
    assoc_find key_eq
        (((({} : ParseTable).add_state.2).add_action 0 Example.tokenA
          ParseAction.Accept).state 0).actions Example.tokenA = some ParseAction.Accept ∧
    (∀ s, s ∈ ((({} : ParseTable).add_state.2).add_action 0 Example.tokenA
        ParseAction.Accept).symbols ↔
      ∃ st ∈ ((({} : ParseTable).add_state.2).add_action 0 Example.tokenA
        ParseAction.Accept).states, ∃ a, (s, a) ∈ st.actions) :=
  ⟨(parse_table_symbols.2 (({} : ParseTable).add_state.2) 0 Example.tokenA
      ParseAction.Accept (by decide)).1,
    parse_table_symbols.1 _
      (ParseTable.Built.add_action _ 0 Example.tokenA ParseAction.Accept
        (ParseTable.Built.add_state _ ParseTable.Built.empty) (by decide))⟩

/-- C18, the code against the claim: `Shift` and `Reduce` store their payload,
and `operator==` holds exactly when the type, the state index and the consumed
symbol count agree; it does not look at `symbol` nor at `precedence_values`, so
two `Reduce` actions of the symbols 1 and 2 are equal under it, as are two
`Shift` actions with the precedence sets `{1}` and `{2}`. `LexAction::operator==`
does compare `symbol`. -/
theorem parse_action_equality_ignores_payload :
    (∀ s P, (ParseAction.Shift s P).type = ParseActionType.ParseActionTypeShift ∧
      (ParseAction.Shift s P).state_index = s ∧
      (ParseAction.Shift s P).precedence_values = P) ∧
    (∀ sym n p, (ParseAction.Reduce sym n p).type = ParseActionType.ParseActionTypeReduce ∧
      (ParseAction.Reduce sym n p).symbol = sym ∧
      (ParseAction.Reduce sym n p).consumed_symbol_count = n ∧
      (ParseAction.Reduce sym n p).precedence_values = {p}) ∧
    (∀ a b : ParseAction, a.eq b = true ↔
      a.type = b.type ∧ a.state_index = b.state_index ∧
        a.consumed_symbol_count = b.consumed_symbol_count) ∧
    (ParseAction.Reduce ⟨1, ⟨false, false⟩⟩ 1 0).eq
        (ParseAction.Reduce ⟨2, ⟨false, false⟩⟩ 1 0) = true ∧
    (ParseAction.Reduce ⟨1, ⟨false, false⟩⟩ 1 0).symbol ≠
        (ParseAction.Reduce ⟨2, ⟨false, false⟩⟩ 1 0).symbol ∧
    (ParseAction.Shift 3 {1}).eq (ParseAction.Shift 3 {2}) = true ∧
    (ParseAction.Shift 3 {1}).precedence_values ≠ (ParseAction.Shift 3 {2}).precedence_values ∧
    (∀ a b : LexAction, a.eq b = true ↔
      a.type = b.type ∧ a.state_index = b.state_index ∧ a.symbol = b.symbol) := by
  refine ⟨fun _ _ => ⟨rfl, rfl, rfl⟩, fun _ _ _ => ⟨rfl, rfl, rfl, rfl⟩, ?_, by decide,
    by decide, by decide, by decide, ?_⟩
  · intro a b
    simp [ParseAction.eq, and_assoc]
  · intro a b
    simp [LexAction.eq, and_assoc]

/-! ## Matching: inversion and the smart constructors -/

theorem matches_blank (w : List ISymbol) : Matches Rule.Blank w ↔ w = [] := by
  constructor
  · intro h; cases h; rfl
  · rintro rfl; exact Matches.blank

theorem matches_sym (s : ISymbol) (w : List ISymbol) : Matches (Rule.ISym s) w ↔ w = [s] := by
  constructor
  · intro h; cases h; rfl
  · rintro rfl; exact Matches.sym s

theorem matches_choice (cs : List Rule) (w : List ISymbol) :
    Matches (Rule.Choice cs) w ↔ ∃ c ∈ cs, Matches c w := by
  constructor
  · intro h; cases h with
    | choice _ c _ hc hm => exact ⟨c, hc, hm⟩
  · rintro ⟨c, hc, hm⟩; exact Matches.choice cs c w hc hm

theorem matches_seq (l r : Rule) (w : List ISymbol) :
    Matches (Rule.Seq l r) w ↔ ∃ w₁ w₂, w = w₁ ++ w₂ ∧ Matches l w₁ ∧ Matches r w₂ := by
  constructor
  · intro h; cases h with
    | seq _ _ w₁ w₂ h₁ h₂ => exact ⟨w₁, w₂, rfl, h₁, h₂⟩
  · rintro ⟨w₁, w₂, rfl, h₁, h₂⟩; exact Matches.seq l r w₁ w₂ h₁ h₂

theorem matches_metadata (c : Rule) (value : List (MetadataKey × Int)) (w : List ISymbol) :
    Matches (Rule.Metadata c value) w ↔ Matches c w := by
  constructor
  · intro h; cases h with
    | metadata _ _ _ hm => exact hm
  · exact Matches.metadata c value w

theorem not_matches_symbol (name : String) (w : List ISymbol) :
    ¬ Matches (Rule.Symbol name) w := by
  intro h; cases h

theorem not_matches_character (c : CharacterSet) (w : List ISymbol) :
    ¬ Matches (Rule.Character c) w := by
  intro h; cases h

theorem matches_seq_build (a b : Rule) (w : List ISymbol) :
    Matches (Seq.Build [a, b]) w ↔ ∃ w₁ w₂, w = w₁ ++ w₂ ∧ Matches a w₁ ∧ Matches b w₂ := by
  by_cases ha : a = Rule.Blank
  · subst ha
    have : Seq.Build [Rule.Blank, b] = b := by simp [Seq.Build]
    rw [this]
    constructor
    · intro h; exact ⟨[], w, rfl, Matches.blank, h⟩
    · rintro ⟨w₁, w₂, rfl, h₁, h₂⟩
      rw [(matches_blank w₁).mp h₁]; exact h₂
  · by_cases hb : b = Rule.Blank
    · subst hb
      have : Seq.Build [a, Rule.Blank] = a := by simp [Seq.Build, ha]
      rw [this]
      constructor
      · intro h; exact ⟨w, [], by simp, h, Matches.blank⟩
      · rintro ⟨w₁, w₂, rfl, h₁, h₂⟩
        rw [(matches_blank w₂).mp h₂, List.append_nil]; exact h₁
    · have : Seq.Build [a, b] = Rule.Seq a b := by simp [Seq.Build, ha, hb]
      rw [this, matches_seq]

theorem exists_mem_insert_absent (acc cs : List Rule) (P : Rule → Prop) :
    (∃ c ∈ cs.foldl (fun acc c => if c ∈ acc then acc else acc ++ [c]) acc, P c) ↔
      (∃ c ∈ acc, P c) ∨ ∃ c ∈ cs, P c := by
  induction cs generalizing acc with
  | nil => simp
  | cons c rest ih =>
    simp only [List.foldl_cons, List.mem_cons, exists_eq_or_imp]
    rw [ih]
    by_cases hc : c ∈ acc
    · simp only [hc, if_true]
      constructor
      · rintro (h | h)
        · exact Or.inl h
        · exact Or.inr (Or.inr h)
      · rintro (h | h | h)
        · exact Or.inl h
        · exact Or.inl ⟨c, hc, h⟩
        · exact Or.inr h
    · simp only [hc, if_false, List.mem_append, List.mem_singleton]
      constructor
      · rintro (⟨x, hx | hx, h⟩ | h)
        · exact Or.inl ⟨x, hx, h⟩
        · subst hx; exact Or.inr (Or.inl h)
        · exact Or.inr (Or.inr h)
      · rintro (⟨x, hx, h⟩ | h | h)
        · exact Or.inl ⟨x, Or.inl hx, h⟩
        · exact Or.inl ⟨c, Or.inr rfl, h⟩
        · exact Or.inr h

theorem matches_add_element (acc : List Rule) (r : Rule) (w : List ISymbol) :
    (∃ c ∈ Choice.add_element acc r, Matches c w) ↔ (∃ c ∈ acc, Matches c w) ∨ Matches r w := by
  have plain : (∃ c ∈ (if r ∈ acc then acc else acc ++ [r]), Matches c w) ↔
      (∃ c ∈ acc, Matches c w) ∨ Matches r w := by
    have := exists_mem_insert_absent acc [r] (fun c => Matches c w)
    simpa using this
  cases r with
  | Choice cs =>
    simp only [Choice.add_element]
    rw [exists_mem_insert_absent acc cs (fun c => Matches c w), matches_choice]
  | Blank => simpa [Choice.add_element] using plain
  | Symbol n => simpa [Choice.add_element] using plain
  | ISym s => simpa [Choice.add_element] using plain
  | Character c => simpa [Choice.add_element] using plain
  | Seq l r => simpa [Choice.add_element] using plain
  | Repeat x => simpa [Choice.add_element] using plain
  | Metadata c m => simpa [Choice.add_element] using plain

theorem matches_add_elements (acc cs : List Rule) (w : List ISymbol) :
    (∃ c ∈ cs.foldl Choice.add_element acc, Matches c w) ↔
      (∃ c ∈ acc, Matches c w) ∨ ∃ c ∈ cs, Matches c w := by
  induction cs generalizing acc with
  | nil => simp
  | cons c rest ih =>
    simp only [List.foldl_cons, List.mem_cons, exists_eq_or_imp]
    rw [ih, matches_add_element]
    constructor
    · rintro ((h | h) | h)
      · exact Or.inl h
      · exact Or.inr (Or.inl h)
      · exact Or.inr (Or.inr h)
    · rintro (h | h | h)
      · exact Or.inl (Or.inl h)
      · exact Or.inl (Or.inr h)
      · exact Or.inr h

theorem matches_choice_build (cs : List Rule) (w : List ISymbol) :
    Matches (Choice.Build cs) w ↔ ∃ c ∈ cs, Matches c w := by
  have h := matches_add_elements [] cs w
  simp only [List.not_mem_nil, false_and, exists_false, false_or] at h
  rw [← h]
  unfold Choice.Build
  generalize cs.foldl Choice.add_element [] = elements
  match elements with
  | [] => simp [matches_choice]
  | [r] => simp
  | r₁ :: r₂ :: rest => simp only [matches_choice]

/-! ## Symbol transitions as derivatives -/

theorem merge_sym_transition_matches (left : List (ISymbol × Rule)) (k k' : ISymbol) (r : Rule)
    (w : List ISymbol) :
    (∃ r', (k', r') ∈ merge_sym_transition left k r ∧ Matches r' w) ↔
      (∃ r', (k', r') ∈ left ∧ Matches r' w) ∨ (k = k' ∧ Matches r w) := by
  induction left with
  | nil =>
    simp only [merge_sym_transition, List.mem_singleton, Prod.mk.injEq, List.not_mem_nil,
      false_and, exists_false, false_or]
    constructor
    · rintro ⟨r', ⟨h1, h2⟩, hm⟩; exact ⟨h1.symm, h2 ▸ hm⟩
    · rintro ⟨h1, hm⟩; exact ⟨r, ⟨h1.symm, rfl⟩, hm⟩
  | cons p rest ih =>
    obtain ⟨k0, r0⟩ := p
    simp only [merge_sym_transition]
    by_cases h0 : k0 = k
    · subst h0
      simp only [if_true, List.mem_cons, Prod.mk.injEq]
      constructor
      · rintro ⟨r', (⟨h1, h2⟩ | h), hm⟩
        · subst h2
          rw [matches_choice_build] at hm
          obtain ⟨c, hc, hm⟩ := hm
          simp only [List.mem_cons, List.mem_singleton, List.not_mem_nil, or_false] at hc
          rcases hc with rfl | rfl
          · exact Or.inl ⟨c, Or.inl ⟨h1, rfl⟩, hm⟩
          · exact Or.inr ⟨h1.symm, hm⟩
        · exact Or.inl ⟨r', Or.inr h, hm⟩
      · rintro (⟨r', (⟨h1, h2⟩ | h), hm⟩ | ⟨h1, hm⟩)
        · refine ⟨_, Or.inl ⟨h1, rfl⟩, ?_⟩
          rw [matches_choice_build]
          exact ⟨r0, by simp, h2 ▸ hm⟩
        · exact ⟨r', Or.inr h, hm⟩
        · refine ⟨_, Or.inl ⟨h1.symm, rfl⟩, ?_⟩
          rw [matches_choice_build]
          exact ⟨r, by simp, hm⟩
    · simp only [h0, if_false, List.mem_cons, Prod.mk.injEq]
      constructor
      · rintro ⟨r', (h | h), hm⟩
        · exact Or.inl ⟨r', Or.inl h, hm⟩
        · rcases ih.mp ⟨r', h, hm⟩ with ⟨r'', h', hm'⟩ | h'
          · exact Or.inl ⟨r'', Or.inr h', hm'⟩
          · exact Or.inr h'
      · rintro (⟨r', (h | h), hm⟩ | h)
        · exact ⟨r', Or.inl h, hm⟩
        · obtain ⟨r'', h', hm'⟩ := ih.mpr (Or.inl ⟨r', h, hm⟩)
          exact ⟨r'', Or.inr h', hm'⟩
        · obtain ⟨r'', h', hm'⟩ := ih.mpr (Or.inr h)
          exact ⟨r'', Or.inr h', hm'⟩

theorem merge_sym_transitions_matches (left right : List (ISymbol × Rule)) (k : ISymbol)
    (w : List ISymbol) :
    (∃ r', (k, r') ∈ merge_sym_transitions left right ∧ Matches r' w) ↔
      (∃ r', (k, r') ∈ left ∧ Matches r' w) ∨ (∃ r', (k, r') ∈ right ∧ Matches r' w) := by
  unfold merge_sym_transitions
  induction right generalizing left with
  | nil => simp
  | cons p rest ih =>
    obtain ⟨k0, r0⟩ := p
    simp only [List.foldl_cons, List.mem_cons, Prod.mk.injEq]
    rw [ih, merge_sym_transition_matches]
    constructor
    · rintro ((h | ⟨h1, hm⟩) | ⟨r', h, hm⟩)
      · exact Or.inl h
      · exact Or.inr ⟨r0, Or.inl ⟨h1.symm, rfl⟩, hm⟩
      · exact Or.inr ⟨r', Or.inr h, hm⟩
    · rintro (h | ⟨r', (⟨h1, h2⟩ | h), hm⟩)
      · exact Or.inl (Or.inl h)
      · exact Or.inl (Or.inr ⟨h1.symm, h2 ▸ hm⟩)
      · exact Or.inr ⟨r', h, hm⟩

theorem merge_sym_transition_inhabited (left : List (ISymbol × Rule)) (k : ISymbol) (r : Rule)
    (hleft : ∀ p ∈ left, ∃ w, Matches p.2 w) (hr : ∃ w, Matches r w) :
    ∀ p ∈ merge_sym_transition left k r, ∃ w, Matches p.2 w := by
  induction left with
  | nil =>
    intro p hp
    simp only [merge_sym_transition, List.mem_singleton] at hp
    subst hp; exact hr
  | cons q rest ih =>
    obtain ⟨k0, r0⟩ := q
    intro p hp
    simp only [merge_sym_transition] at hp
    split at hp
    · rcases List.mem_cons.mp hp with rfl | h
      · obtain ⟨w, hw⟩ := hleft (k0, r0) (List.mem_cons_self _ _)
        exact ⟨w, (matches_choice_build _ _).mpr ⟨r0, by simp, hw⟩⟩
      · exact hleft p (List.mem_cons_of_mem _ h)
    · rcases List.mem_cons.mp hp with rfl | h
      · exact hleft _ (List.mem_cons_self _ _)
      · exact ih (fun p hp => hleft p (List.mem_cons_of_mem _ hp)) p h

theorem merge_sym_transitions_inhabited (left right : List (ISymbol × Rule))
    (hleft : ∀ p ∈ left, ∃ w, Matches p.2 w) (hright : ∀ p ∈ right, ∃ w, Matches p.2 w) :
    ∀ p ∈ merge_sym_transitions left right, ∃ w, Matches p.2 w := by
  unfold merge_sym_transitions
  induction right generalizing left with
  | nil => exact hleft
  | cons q rest ih =>
    simp only [List.foldl_cons]
    exact ih _ (merge_sym_transition_inhabited left q.1 q.2 hleft
      (hright q (List.mem_cons_self _ _)))
      (fun p hp => hright p (List.mem_cons_of_mem _ hp))

mutual
theorem plain_inhabited : (r : Rule) → is_plain r = true → ∃ w, Matches r w
  | .Blank, _ => ⟨[], Matches.blank⟩
  | .Symbol _, h => by simp [is_plain] at h
  | .ISym s, _ => ⟨[s], Matches.sym s⟩
  | .Character _, h => by simp [is_plain] at h
  | .Choice [], h => by simp [is_plain] at h
  | .Choice (c :: cs), h => by
    simp only [is_plain, Bool.and_eq_true] at h
    obtain ⟨w, hw⟩ := plain_inhabited c h.1
    exact ⟨w, Matches.choice _ c w (List.mem_cons_self _ _) hw⟩
  | .Seq l r, h => by
    simp only [is_plain, Bool.and_eq_true] at h
    obtain ⟨w₁, h₁⟩ := plain_inhabited l h.1
    obtain ⟨w₂, h₂⟩ := plain_inhabited r h.2
    exact ⟨w₁ ++ w₂, Matches.seq l r w₁ w₂ h₁ h₂⟩
  | .Repeat _, h => by simp [is_plain] at h
  | .Metadata c m, h => by
    simp only [is_plain] at h
    obtain ⟨w, hw⟩ := plain_inhabited c h
    exact ⟨w, Matches.metadata c m w hw⟩
end

mutual
theorem plain_nullable : (r : Rule) → is_plain r = true →
    (is_nullable r = true ↔ Matches r [])
  | .Blank, _ => by simp [is_nullable, matches_blank]
  | .Symbol _, h => by simp [is_plain] at h
  | .ISym s, _ => by simp [is_nullable, matches_sym]
  | .Character _, h => by simp [is_plain] at h
  | .Choice [], h => by simp [is_plain] at h
  | .Choice (c :: cs), h => by
    simp only [is_plain, Bool.and_eq_true] at h
    have hall : is_plain_all (c :: cs) = true := by simp [is_plain_all, h.1, h.2]
    rw [is_nullable, matches_choice]
    exact plain_nullable_any (c :: cs) hall
  | .Seq l r, h => by
    simp only [is_plain, Bool.and_eq_true] at h
    rw [is_nullable, matches_seq, Bool.and_eq_true, plain_nullable l h.1, plain_nullable r h.2]
    constructor
    · rintro ⟨h₁, h₂⟩; exact ⟨[], [], rfl, h₁, h₂⟩
    · rintro ⟨w₁, w₂, hw, h₁, h₂⟩
      have := List.append_eq_nil.mp hw.symm
      rw [this.1] at h₁; rw [this.2] at h₂
      exact ⟨h₁, h₂⟩
  | .Repeat _, h => by simp [is_plain] at h
  | .Metadata c m, h => by
    simp only [is_plain] at h
    rw [is_nullable, matches_metadata]
    exact plain_nullable c h
theorem plain_nullable_any : (cs : List Rule) → is_plain_all cs = true →
    (is_nullable_any cs = true ↔ ∃ c ∈ cs, Matches c [])
  | [], _ => by simp [is_nullable_any]
  | c :: cs, h => by
    simp only [is_plain_all, Bool.and_eq_true] at h
    rw [is_nullable_any, Bool.or_eq_true, plain_nullable c h.1, plain_nullable_any cs h.2]
    simp
end

theorem matches_cons_seq (l r : Rule) (k : ISymbol) (w : List ISymbol) :
    Matches (Rule.Seq l r) (k :: w) ↔
      (∃ w₁ w₂, w = w₁ ++ w₂ ∧ Matches l (k :: w₁) ∧ Matches r w₂) ∨
      (Matches l [] ∧ Matches r (k :: w)) := by
  rw [matches_seq]
  constructor
  · rintro ⟨w₁, w₂, hw, h₁, h₂⟩
    cases w₁ with
    | nil =>
      simp only [List.nil_append] at hw
      subst hw
      exact Or.inr ⟨h₁, h₂⟩
    | cons a w₁ =>
      simp only [List.cons_append, List.cons.injEq] at hw
      obtain ⟨rfl, rfl⟩ := hw
      exact Or.inl ⟨w₁, w₂, rfl, h₁, h₂⟩
  · rintro (⟨w₁, w₂, rfl, h₁, h₂⟩ | ⟨h₁, h₂⟩)
    · exact ⟨k :: w₁, w₂, rfl, h₁, h₂⟩
    · exact ⟨[], k :: w, rfl, h₁, h₂⟩

theorem map_seq_build_matches (m : List (ISymbol × Rule)) (tail : Rule) (k : ISymbol)
    (w : List ISymbol) :
    (∃ r', (k, r') ∈ m.map (fun p => (p.1, Seq.Build [p.2, tail])) ∧ Matches r' w) ↔
      ∃ w₁ w₂, w = w₁ ++ w₂ ∧ (∃ r', (k, r') ∈ m ∧ Matches r' w₁) ∧ Matches tail w₂ := by
  constructor
  · rintro ⟨r', hmem, hm⟩
    obtain ⟨p, hp, he⟩ := List.mem_map.mp hmem
    simp only [Prod.mk.injEq] at he
    obtain ⟨rfl, rfl⟩ := he
    obtain ⟨w₁, w₂, hw, h₁, h₂⟩ := (matches_seq_build _ _ _).mp hm
    exact ⟨w₁, w₂, hw, ⟨p.2, hp, h₁⟩, h₂⟩
  · rintro ⟨w₁, w₂, hw, ⟨r', hmem, h₁⟩, h₂⟩
    exact ⟨Seq.Build [r', tail], List.mem_map.mpr ⟨(k, r'), hmem, rfl⟩,
      (matches_seq_build _ _ _).mpr ⟨w₁, w₂, hw, h₁, h₂⟩⟩

mutual
theorem plain_derivative : (r : Rule) → is_plain r = true → ∀ (k : ISymbol) (w : List ISymbol),
    (Matches r (k :: w) ↔ ∃ r', (k, r') ∈ sym_transitions r ∧ Matches r' w)
  | .Blank, _, k, w => by simp [sym_transitions, matches_blank]
  | .Symbol _, h, _, _ => by simp [is_plain] at h
  | .ISym s, _, k, w => by
    simp only [sym_transitions, List.mem_singleton, Prod.mk.injEq, matches_sym,
      List.cons.injEq]
    constructor
    · rintro ⟨rfl, rfl⟩; exact ⟨Rule.Blank, ⟨rfl, rfl⟩, Matches.blank⟩
    · rintro ⟨r', ⟨rfl, rfl⟩, hm⟩; exact ⟨rfl, (matches_blank w).mp hm⟩
  | .Character _, h, _, _ => by simp [is_plain] at h
  | .Choice [], h, _, _ => by simp [is_plain] at h
  | .Choice (c :: cs), h, k, w => by
    simp only [is_plain, Bool.and_eq_true] at h
    have hall : is_plain_all (c :: cs) = true := by simp [is_plain_all, h.1, h.2]
    rw [sym_transitions, plain_derivative_choice (c :: cs) hall [] k w, matches_choice]
    simp
  | .Seq l r, h, k, w => by
    simp only [is_plain, Bool.and_eq_true] at h
    have hl := plain_derivative l h.1 k
    have hr := plain_derivative r h.2 k w
    have hn := plain_nullable l h.1
    rw [matches_cons_seq, sym_transitions]
    by_cases hnull : is_nullable l = true
    · simp only [hnull, if_true]
      rw [merge_sym_transitions_matches, map_seq_build_matches, ← hr]
      have hl0 : Matches l [] := hn.mp hnull
      constructor
      · rintro (⟨w₁, w₂, hw, h₁, h₂⟩ | ⟨_, h₂⟩)
        · exact Or.inl ⟨w₁, w₂, hw, (hl w₁).mp h₁, h₂⟩
        · exact Or.inr h₂
      · rintro (⟨w₁, w₂, hw, h₁, h₂⟩ | h₂)
        · exact Or.inl ⟨w₁, w₂, hw, (hl w₁).mpr h₁, h₂⟩
        · exact Or.inr ⟨hl0, h₂⟩
    · simp only [hnull]
      rw [if_neg (by simp), map_seq_build_matches]
      have hl0 : ¬ Matches l [] := fun e => hnull (hn.mpr e)
      constructor
      · rintro (⟨w₁, w₂, hw, h₁, h₂⟩ | ⟨h₁, _⟩)
        · exact ⟨w₁, w₂, hw, (hl w₁).mp h₁, h₂⟩
        · exact absurd h₁ hl0
      · rintro ⟨w₁, w₂, hw, h₁, h₂⟩
        exact Or.inl ⟨w₁, w₂, hw, (hl w₁).mpr h₁, h₂⟩
  | .Repeat _, h, _, _ => by simp [is_plain] at h
  | .Metadata c m, h, k, w => by
    simp only [is_plain] at h
    rw [matches_metadata, plain_derivative c h k w, sym_transitions]
    constructor
    · rintro ⟨r', hmem, hm⟩
      exact ⟨Rule.Metadata r' m, List.mem_map.mpr ⟨(k, r'), hmem, rfl⟩,
        Matches.metadata r' m w hm⟩
    · rintro ⟨r', hmem, hm⟩
      obtain ⟨p, hp, he⟩ := List.mem_map.mp hmem
      simp only [Prod.mk.injEq] at he
      obtain ⟨rfl, rfl⟩ := he
      exact ⟨p.2, hp, (matches_metadata _ _ _).mp hm⟩
theorem plain_derivative_choice : (cs : List Rule) → is_plain_all cs = true →
    ∀ (acc : List (ISymbol × Rule)) (k : ISymbol) (w : List ISymbol),
    ((∃ r', (k, r') ∈ sym_transitions_choice acc cs ∧ Matches r' w) ↔
      (∃ r', (k, r') ∈ acc ∧ Matches r' w) ∨ ∃ c ∈ cs, Matches c (k :: w))
  | [], _, acc, k, w => by simp [sym_transitions_choice]
  | c :: cs, h, acc, k, w => by
    simp only [is_plain_all, Bool.and_eq_true] at h
    rw [sym_transitions_choice, plain_derivative_choice cs h.2, merge_sym_transitions_matches,
      ← plain_derivative c h.1 k w]
    simp only [List.mem_cons, exists_eq_or_imp]
    constructor
    · rintro ((h | h) | h)
      · exact Or.inl h
      · exact Or.inr (Or.inl h)
      · exact Or.inr (Or.inr h)
    · rintro (h | h | h)
      · exact Or.inl (Or.inl h)
      · exact Or.inl (Or.inr h)
      · exact Or.inr h
end

mutual
theorem plain_residuals_inhabited : (r : Rule) → is_plain r = true →
    ∀ p ∈ sym_transitions r, ∃ w, Matches p.2 w
  | .Blank, _ => by simp [sym_transitions]
  | .Symbol _, h => by simp [is_plain] at h
  | .ISym s, _ => by
    intro p hp
    simp only [sym_transitions, List.mem_singleton] at hp
    subst hp; exact ⟨[], Matches.blank⟩
  | .Character _, h => by simp [is_plain] at h
  | .Choice [], h => by simp [is_plain] at h
  | .Choice (c :: cs), h => by
    simp only [is_plain, Bool.and_eq_true] at h
    have hall : is_plain_all (c :: cs) = true := by simp [is_plain_all, h.1, h.2]
    rw [sym_transitions]
    exact plain_residuals_inhabited_choice (c :: cs) hall [] (by simp)
  | .Seq l r, h => by
    simp only [is_plain, Bool.and_eq_true] at h
    have hl := plain_residuals_inhabited l h.1
    have hr := plain_residuals_inhabited r h.2
    obtain ⟨wt, hwt⟩ := plain_inhabited r h.2
    have hmap : ∀ p ∈ (sym_transitions l).map (fun p => (p.1, Seq.Build [p.2, r])),
        ∃ w, Matches p.2 w := by
      intro p hp
      obtain ⟨q, hq, rfl⟩ := List.mem_map.mp hp
      obtain ⟨w, hw⟩ := hl q hq
      exact ⟨w ++ wt, (matches_seq_build _ _ _).mpr ⟨w, wt, rfl, hw, hwt⟩⟩
    rw [sym_transitions]
    split
    · exact merge_sym_transitions_inhabited _ _ hmap hr
    · exact hmap
  | .Repeat _, h => by simp [is_plain] at h
  | .Metadata c m, h => by
    simp only [is_plain] at h
    have hc := plain_residuals_inhabited c h
    rw [sym_transitions]
    intro p hp
    obtain ⟨q, hq, rfl⟩ := List.mem_map.mp hp
    obtain ⟨w, hw⟩ := hc q hq
    exact ⟨w, Matches.metadata _ m w hw⟩
theorem plain_residuals_inhabited_choice : (cs : List Rule) → is_plain_all cs = true →
    ∀ (acc : List (ISymbol × Rule)), (∀ p ∈ acc, ∃ w, Matches p.2 w) →
    ∀ p ∈ sym_transitions_choice acc cs, ∃ w, Matches p.2 w
  | [], _, acc, hacc => by rw [sym_transitions_choice]; exact hacc
  | c :: cs, h, acc, hacc => by
    simp only [is_plain_all, Bool.and_eq_true] at h
    rw [sym_transitions_choice]
    exact plain_residuals_inhabited_choice cs h.2 _
      (merge_sym_transitions_inhabited acc _ hacc (plain_residuals_inhabited c h.1))
end

theorem merge_char_transition_disjoint (left : List (CharacterSet × Rule)) (B : CharacterSet)
    (rB : Rule) (h : disjoint_keys left) :
    disjoint_keys (merge_char_transition left B rB) ∧
      ∀ q ∈ (merge_char_transition left B rB).map Prod.fst,
        (∃ p ∈ left.map Prod.fst, q ⊆ p) ∨ q ⊆ B := by
  induction left generalizing B with
  | nil =>
    simp only [merge_char_transition]
    split
    · exact ⟨by simp [disjoint_keys], by simp⟩
    · refine ⟨by simp [disjoint_keys], ?_⟩
      intro q hq
      simp only [List.map_cons, List.map_nil, List.mem_singleton] at hq
      exact Or.inr (hq ▸ Finset.Subset.refl _)
  | cons p rest ih =>
    obtain ⟨A, rA⟩ := p
    have hpw : (∀ p ∈ rest.map Prod.fst, Disjoint A p) ∧ disjoint_keys rest := by
      simpa [disjoint_keys] using h
    simp only [merge_char_transition]
    by_cases hAB : A ∩ B = ∅
    · simp only [hAB, if_true]
      obtain ⟨hpw', hsub⟩ := ih B hpw.2
      have hAq : ∀ q ∈ (merge_char_transition rest B rB).map Prod.fst, Disjoint A q := by
        intro q hq
        rcases hsub q hq with ⟨p, hp, hqp⟩ | hqB
        · exact Disjoint.mono_right hqp (hpw.1 p hp)
        · exact Disjoint.mono_right hqB (Finset.disjoint_iff_inter_eq_empty.mpr hAB)
      refine ⟨?_, ?_⟩
      · unfold disjoint_keys
        rw [List.map_cons, List.pairwise_cons]
        exact ⟨hAq, hpw'⟩
      · intro q hq
        simp only [List.map_cons, List.mem_cons] at hq
        rcases hq with rfl | hq
        · exact Or.inl ⟨q, by simp, Finset.Subset.refl _⟩
        · rcases hsub q hq with ⟨p, hp, hqp⟩ | hqB
          · exact Or.inl ⟨p, by simp [hp], hqp⟩
          · exact Or.inr hqB
    · simp only [hAB, if_false]
      obtain ⟨hpw', hsub⟩ := ih (B \ A) hpw.2
      have hAq : ∀ q ∈ (merge_char_transition rest (B \ A) rB).map Prod.fst, Disjoint A q := by
        intro q hq
        rcases hsub q hq with ⟨p, hp, hqp⟩ | hqB
        · exact Disjoint.mono_right hqp (hpw.1 p hp)
        · exact Disjoint.mono_right hqB Finset.disjoint_sdiff
      have hinter : ∀ q ∈ (merge_char_transition rest (B \ A) rB).map Prod.fst,
          Disjoint (A ∩ B) q :=
        fun q hq => Disjoint.mono_left Finset.inter_subset_left (hAq q hq)
      have hdiff : ∀ q ∈ (merge_char_transition rest (B \ A) rB).map Prod.fst,
          Disjoint (A \ B) q :=
        fun q hq => Disjoint.mono_left Finset.sdiff_subset (hAq q hq)
      have hsub' : ∀ q ∈ (merge_char_transition rest (B \ A) rB).map Prod.fst,
          (∃ p ∈ A :: rest.map Prod.fst, q ⊆ p) ∨ q ⊆ B := by
        intro q hq
        rcases hsub q hq with ⟨p, hp, hqp⟩ | hqB
        · exact Or.inl ⟨p, List.mem_cons_of_mem _ hp, hqp⟩
        · exact Or.inr (Finset.Subset.trans hqB Finset.sdiff_subset)
      have htail : disjoint_keys
          ((A ∩ B, Choice.Build [rA, rB]) :: merge_char_transition rest (B \ A) rB) := by
        unfold disjoint_keys
        rw [List.map_cons, List.pairwise_cons]
        exact ⟨hinter, hpw'⟩
      have hsubt : ∀ q ∈ (((A ∩ B, Choice.Build [rA, rB]) ::
          merge_char_transition rest (B \ A) rB)).map Prod.fst,
          (∃ p ∈ A :: rest.map Prod.fst, q ⊆ p) ∨ q ⊆ B := by
        intro q hq
        simp only [List.map_cons, List.mem_cons] at hq
        rcases hq with rfl | hq
        · exact Or.inl ⟨A, by simp, Finset.inter_subset_left⟩
        · exact hsub' q hq
      by_cases hd : A \ B = ∅
      · simp only [hd, if_true, List.nil_append]
        exact ⟨htail, hsubt⟩
      · simp only [hd, if_false, List.singleton_append]
        refine ⟨?_, ?_⟩
        · unfold disjoint_keys at htail ⊢
          rw [List.map_cons, List.pairwise_cons]
          refine ⟨?_, htail⟩
          intro q hq
          simp only [List.map_cons, List.mem_cons] at hq
          rcases hq with rfl | hq
          · rw [Finset.disjoint_iff_inter_eq_empty]
            ext x
            simp only [Finset.mem_inter, Finset.mem_sdiff, Finset.not_mem_empty, iff_false]
            tauto
          · exact hdiff q hq
        · intro q hq
          rw [List.map_cons, List.mem_cons] at hq
          rcases hq with rfl | hq
          · exact Or.inl ⟨A, by simp, Finset.sdiff_subset⟩
          · exact hsubt q hq

theorem merge_char_transition_nonempty (left : List (CharacterSet × Rule)) (B : CharacterSet)
    (rB : Rule) (h : nonempty_keys left) : nonempty_keys (merge_char_transition left B rB) := by
  induction left generalizing B with
  | nil =>
    simp only [merge_char_transition]
    split
    · simp [nonempty_keys]
    · rename_i hB
      simpa [nonempty_keys] using hB
  | cons p rest ih =>
    obtain ⟨A, rA⟩ := p
    have hne : A ≠ ∅ ∧ nonempty_keys rest := by
      simpa [nonempty_keys] using h
    simp only [merge_char_transition]
    by_cases hAB : A ∩ B = ∅
    · simp only [hAB, if_true]
      intro k hk
      rw [List.map_cons, List.mem_cons] at hk
      rcases hk with rfl | hk
      · exact hne.1
      · exact ih B hne.2 k hk
    · simp only [hAB, if_false]
      intro k hk
      rw [List.map_append, List.mem_append, List.map_cons, List.mem_cons] at hk
      rcases hk with hk | rfl | hk
      · by_cases hd : A \ B = ∅
        · simp [hd] at hk
        · simp only [hd, if_false, List.map_cons, List.map_nil, List.mem_singleton] at hk
          exact hk ▸ hd
      · exact hAB
      · exact ih (B \ A) hne.2 k hk

theorem merge_char_transitions_disjoint (left right : List (CharacterSet × Rule))
    (h : disjoint_keys left) : disjoint_keys (merge_char_transitions left right) := by
  unfold merge_char_transitions
  induction right generalizing left with
  | nil => exact h
  | cons p rest ih => exact ih _ (merge_char_transition_disjoint left p.1 p.2 h).1

theorem merge_char_transitions_nonempty (left right : List (CharacterSet × Rule))
    (h : nonempty_keys left) : nonempty_keys (merge_char_transitions left right) := by
  unfold merge_char_transitions
  induction right generalizing left with
  | nil => exact h
  | cons p rest ih => exact ih _ (merge_char_transition_nonempty left p.1 p.2 h)

theorem disjoint_keys_map (f : CharacterSet × Rule → Rule) (m : List (CharacterSet × Rule))
    (h : disjoint_keys m) : disjoint_keys (m.map (fun p => (p.1, f p))) := by
  unfold disjoint_keys at *
  rw [map_value_keys f m]
  exact h

theorem nonempty_keys_map (f : CharacterSet × Rule → Rule) (m : List (CharacterSet × Rule))
    (h : nonempty_keys m) : nonempty_keys (m.map (fun p => (p.1, f p))) := by
  unfold nonempty_keys at *
  rw [map_value_keys f m]
  exact h

mutual
theorem char_transitions_disjoint : (r : Rule) → disjoint_keys (char_transitions r)
  | .Blank => by simp [char_transitions, disjoint_keys]
  | .Symbol _ => by simp [char_transitions, disjoint_keys]
  | .ISym _ => by simp [char_transitions, disjoint_keys]
  | .Character c => by simp [char_transitions, disjoint_keys]
  | .Choice cs => by
    rw [char_transitions]
    exact char_transitions_choice_disjoint cs [] (by simp [disjoint_keys])
  | .Seq head tail => by
    have hh := char_transitions_disjoint head
    rw [char_transitions]
    split
    · exact merge_char_transitions_disjoint _ _
        (disjoint_keys_map (fun p => Seq.Build [p.2, tail]) _ hh)
    · exact disjoint_keys_map (fun p => Seq.Build [p.2, tail]) _ hh
  | .Repeat child => by
    rw [char_transitions]
    exact disjoint_keys_map
      (fun p => if p.2 = .Blank then .Repeat child else Seq.Build [p.2, .Repeat child]) _
      (char_transitions_disjoint child)
  | .Metadata child value => by
    rw [char_transitions]
    exact disjoint_keys_map (fun p => Rule.Metadata p.2 value) _
      (char_transitions_disjoint child)
theorem char_transitions_choice_disjoint : (cs : List Rule) →
    (acc : List (CharacterSet × Rule)) →
    disjoint_keys acc → disjoint_keys (char_transitions_choice acc cs)
  | [], acc, hacc => by rw [char_transitions_choice]; exact hacc
  | c :: cs, acc, hacc => by
    rw [char_transitions_choice]
    exact char_transitions_choice_disjoint cs _ (merge_char_transitions_disjoint acc _ hacc)
end

mutual
theorem char_transitions_nonempty : (r : Rule) → character_sets_nonempty r = true →
    nonempty_keys (char_transitions r)
  | .Blank, _ => by simp [char_transitions, nonempty_keys]
  | .Symbol _, _ => by simp [char_transitions, nonempty_keys]
  | .ISym _, _ => by simp [char_transitions, nonempty_keys]
  | .Character c, h => by
    simp only [character_sets_nonempty, decide_eq_true_eq] at h
    simp [char_transitions, nonempty_keys, h]
  | .Choice cs, h => by
    simp only [character_sets_nonempty] at h
    rw [char_transitions]
    exact char_transitions_choice_nonempty cs [] (by simp [nonempty_keys])
  | .Seq head tail, h => by
    simp only [character_sets_nonempty, Bool.and_eq_true] at h
    have hh := char_transitions_nonempty head h.1
    rw [char_transitions]
    split
    · exact merge_char_transitions_nonempty _ _
        (nonempty_keys_map (fun p => Seq.Build [p.2, tail]) _ hh)
    · exact nonempty_keys_map (fun p => Seq.Build [p.2, tail]) _ hh
  | .Repeat child, h => by
    simp only [character_sets_nonempty] at h
    rw [char_transitions]
    exact nonempty_keys_map
      (fun p => if p.2 = .Blank then .Repeat child else Seq.Build [p.2, .Repeat child]) _
      (char_transitions_nonempty child h)
  | .Metadata child value, h => by
    simp only [character_sets_nonempty] at h
    rw [char_transitions]
    exact nonempty_keys_map (fun p => Rule.Metadata p.2 value) _
      (char_transitions_nonempty child h)
theorem char_transitions_choice_nonempty : (cs : List Rule) →
    (acc : List (CharacterSet × Rule)) →
    nonempty_keys acc → nonempty_keys (char_transitions_choice acc cs)
  | [], acc, hacc => by rw [char_transitions_choice]; exact hacc
  | c :: cs, acc, hacc => by
    rw [char_transitions_choice]
    exact char_transitions_choice_nonempty cs _ (merge_char_transitions_nonempty acc _ hacc)
end

theorem filter_mem_length_le_one (x : Fin 256) (ks : List CharacterSet)
    (h : ks.Pairwise Disjoint) : (ks.filter (fun k => decide (x ∈ k))).length ≤ 1 := by
  induction ks with
  | nil => simp
  | cons k ks ih =>
    rw [List.pairwise_cons] at h
    by_cases hx : x ∈ k
    · have hnone : ks.filter (fun k => decide (x ∈ k)) = [] := by
        rw [List.filter_eq_nil_iff]
        intro q hq
        have := Finset.disjoint_left.mp (h.1 q hq) hx
        simpa using this
      simp [List.filter_cons, hx, hnone]
    · simpa [List.filter_cons, hx] using ih h.2

/-! ## C14: keys of character transitions -/

/-- C14, as stated, fails for a rule that holds an empty character set: the
leaf `Character ∅` yields the map with the single key `∅`, a key that is
empty. -/
theorem char_transitions_empty_key :
    char_transitions (Rule.Character ∅) = [(∅, Rule.Blank)] ∧
      ¬ (∀ k ∈ (char_transitions (Rule.Character ∅)).map Prod.fst, k ≠ ∅) := by
  refine ⟨by simp [char_transitions], ?_⟩
  intro h
  exact h ∅ (by simp [char_transitions]) rfl

/-- C14, amended: for every rule `r`, the keys of `char_transitions r` are
pairwise disjoint character sets, so no byte belongs to two keys, also when
the overlap comes from a `Seq` whose head is nullable; and when no character
set that occurs in `r` is empty, every key is non-empty. -/
theorem char_transitions_keys_partition (r : Rule) :
    ((char_transitions r).map Prod.fst).Pairwise Disjoint ∧
      (∀ x : Fin 256,
        (((char_transitions r).map Prod.fst).filter (fun k => decide (x ∈ k))).length ≤ 1) ∧
      (character_sets_nonempty r = true →
        ∀ k ∈ (char_transitions r).map Prod.fst, k ≠ ∅) :=
  ⟨char_transitions_disjoint r,
    fun x => filter_mem_length_le_one x _ (char_transitions_disjoint r),
    fun h => char_transitions_nonempty r h⟩

/-- C14, on `seq(choice(character({1, 2}), blank), character({2, 3}))`, whose
head is nullable and overlaps the tail: the keys are `{1}`, `{2}` and `{3}`,
disjoint and non-empty. -/
theorem char_transitions_keys_partition_witness :
    (char_transitions (Rule.Seq (Rule.Choice [Rule.Character {1, 2}, Rule.Blank])
        (Rule.Character {2, 3}))).map Prod.fst = [{1}, {2}, {3}] ∧
      (((char_transitions (Rule.Seq (Rule.Choice [Rule.Character {1, 2}, Rule.Blank])
        (Rule.Character {2, 3}))).map Prod.fst).Pairwise Disjoint ∧
      ∅ ∉ (char_transitions (Rule.Seq (Rule.Choice [Rule.Character {1, 2}, Rule.Blank])
        (Rule.Character {2, 3}))).map Prod.fst) :=
  ⟨by decide,
    (char_transitions_keys_partition (Rule.Seq (Rule.Choice [Rule.Character {1, 2}, Rule.Blank])
        (Rule.Character {2, 3}))).1,
    fun hmem => (char_transitions_keys_partition
      (Rule.Seq (Rule.Choice [Rule.Character {1, 2}, Rule.Blank])
        (Rule.Character {2, 3}))).2.2 (by decide) ∅ hmem rfl⟩

/-! ## Lex states: what `add_lex_state` writes -/

theorem LexTable.add_state_fst (t : LexTable) : t.add_state.1 = (t.states.length : Int) := by
  simp [LexTable.add_state]

theorem LexTable.modify_state_getElem? (t : LexTable) (n i : Nat) (f : LexState → LexState) :
    (t.modify_state (n : Int) f).states[i]? =
      if i = n then (t.states[i]?).map f else t.states[i]? := by
  rw [LexTable.modify_state_of_nat]
  split
  · rename_i h
    subst h
    exact modify_at_getElem?_eq f t.states i
  · rename_i h
    exact modify_at_getElem?_ne f t.states n i (fun e => h e.symm)

theorem LexTable.modify_state_error_state (t : LexTable) (n : Nat) (f : LexState → LexState) :
    (t.modify_state (n : Int) f).error_state = t.error_state := by
  rw [LexTable.modify_state_of_nat]

theorem LexWritesAt.at_refl (n : Nat) (b : TableBuilder κ) : LexWritesAt n b b :=
  ⟨LexWrites.same b, fun _ _ => rfl, rfl⟩

theorem LexWritesAt.at_trans {n : Nat} {b b' b'' : TableBuilder κ} (h : LexWritesAt n b b')
    (h' : LexWritesAt n b' b'') : LexWritesAt n b b'' :=
  ⟨h.1.then_writes h'.1, fun i hi => (h'.2 i hi).trans (h.2 i hi), h'.3.trans h.3⟩

theorem modify_state_writes_at (n : Nat) (f : LexState → LexState) (b : TableBuilder κ) :
    LexWritesAt n b { b with lex_table := b.lex_table.modify_state (n : Int) f } := by
  refine ⟨⟨rfl, rfl, rfl, LexTable.modify_state_length _ _ _⟩, ?_, ?_⟩
  · intro i hi
    simp only [LexTable.modify_state_getElem?, if_neg hi]
  · exact LexTable.modify_state_error_state _ _ _

/-- The new-state branch of `add_lex_state`, with the id of the new state
written as the number of states before the call. -/
theorem add_lex_state_new (E : Collaborators κ) (fuel : Nat) (item_set : LexItemSet)
    (b : TableBuilder κ) (hfind : assoc_find same_items b.lex_state_ids item_set = none) :
    add_lex_state E (fuel + 1) item_set b =
      match add_advance_actions_loop (add_lex_state E fuel)
          ((b.lex_table.states.length : Nat) : Int) (E.char_transitions item_set)
          (add_token_start E item_set ((b.lex_table.states.length : Nat) : Int)
            (record_lex_state item_set b)) with
      | none => none
      | some b3 =>
        some (((b.lex_table.states.length : Nat) : Int),
          add_accept_token_actions E item_set ((b.lex_table.states.length : Nat) : Int) b3) := by
  rw [add_lex_state]
  simp only [hfind, add_advance_actions, LexTable.add_state_fst, record_lex_state]

theorem record_lex_state_states (item_set : LexItemSet) (b : TableBuilder κ) :
    (record_lex_state item_set b).lex_table.states = b.lex_table.states ++ [({} : LexState)] := by
  simp [record_lex_state, LexTable.add_state]

theorem record_lex_state_ids (item_set : LexItemSet) (b : TableBuilder κ)
    (hfind : assoc_find same_items b.lex_state_ids item_set = none) :
    (record_lex_state item_set b).lex_state_ids =
      b.lex_state_ids ++ [(item_set, ((b.lex_table.states.length : Nat) : Int))] := by
  simp only [record_lex_state, LexTable.add_state_fst]
  exact assoc_assign_of_none _ _ _ _ hfind

theorem record_lex_state_frame (item_set : LexItemSet) (b : TableBuilder κ) :
    LexFrame b.lex_table.states.length b (record_lex_state item_set b) := by
  refine ⟨?_, ?_⟩
  · intro i hi
    rw [record_lex_state_states, List.getElem?_append_left hi]
  · simp [record_lex_state, LexTable.add_state]

theorem LexState.map_eta (o : Option LexState) :
    o.map (fun s => (⟨s.actions, s.default_action, s.is_token_start⟩ : LexState)) = o := by
  cases o <;> rfl

theorem add_token_start_at (E : Collaborators κ) (item_set : LexItemSet) (n : Nat)
    (b : TableBuilder κ) :
    LexWritesAt n b (add_token_start E item_set (n : Int) b) ∧
      (add_token_start E item_set (n : Int) b).lex_table.states[n]? =
        (b.lex_table.states[n]?).map (fun s =>
          { s with is_token_start := s.is_token_start || item_set.any E.is_token_start }) := by
  unfold add_token_start
  induction item_set generalizing b with
  | nil =>
    refine ⟨LexWritesAt.at_refl n b, ?_⟩
    show b.lex_table.states[n]? = _
    cases b.lex_table.states[n]? <;> simp
  | cons item rest ih =>
    simp only [List.foldl_cons]
    by_cases hstart : E.is_token_start item = true
    · simp only [hstart, if_true]
      let b1 : TableBuilder κ :=
        { b with
          lex_table := b.lex_table.modify_state (n : Int)
            (fun s => { s with is_token_start := true }) }
      obtain ⟨h1, h2⟩ := ih b1
      refine ⟨(modify_state_writes_at n _ b).at_trans h1, ?_⟩
      have h3 : b1.lex_table.states[n]? =
          (b.lex_table.states[n]?).map (fun s => { s with is_token_start := true }) := by
        simp only [b1, LexTable.modify_state_getElem?, if_true]
      rw [h2, h3]
      cases b.lex_table.states[n]? <;> simp [hstart]
    · simp only [hstart]
      obtain ⟨h1, h2⟩ := ih b
      refine ⟨h1, ?_⟩
      simp only [Bool.false_eq_true, if_false] at h2 ⊢
      rw [h2]
      cases b.lex_table.states[n]? <;> simp [hstart]

theorem add_accept_token_actions_at (E : Collaborators κ) (item_set : LexItemSet) (n : Nat)
    (b : TableBuilder κ) :
    LexWritesAt n b (add_accept_token_actions E item_set (n : Int) b) ∧
      ∃ f : LexAction → LexAction,
        (∀ a, f a = a ∨ ∃ item ∈ item_set, item.is_done = true ∧ f a = LexAction.Accept item.lhs) ∧
        (add_accept_token_actions E item_set (n : Int) b).lex_table.states[n]? =
          (b.lex_table.states[n]?).map (fun s => { s with default_action := f s.default_action }) := by
  unfold add_accept_token_actions
  induction item_set generalizing b with
  | nil =>
    refine ⟨LexWritesAt.at_refl n b, fun a => a, fun a => Or.inl rfl, ?_⟩
    show b.lex_table.states[n]? = _
    cases b.lex_table.states[n]? <;> simp
  | cons item rest ih =>
    simp only [List.foldl_cons]
    have hstep : LexWritesAt n b (add_accept_token_action E (n : Int) b item) ∧
        ∃ f : LexAction → LexAction,
          (∀ a, f a = a ∨ (item.is_done = true ∧ f a = LexAction.Accept item.lhs)) ∧
          (add_accept_token_action E (n : Int) b item).lex_table.states[n]? =
            (b.lex_table.states[n]?).map
              (fun s => { s with default_action := f s.default_action }) := by
      unfold add_accept_token_action
      by_cases hdone : item.is_done = true
      · simp only [if_pos hdone]
        split
        · refine ⟨?_, fun _ => LexAction.Accept item.lhs, fun a => Or.inr ⟨hdone, rfl⟩, ?_⟩
          · have h := modify_state_writes_at n
              (fun s => { s with default_action := LexAction.Accept item.lhs }) b
            exact ⟨⟨rfl, rfl, rfl, h.1.4⟩, h.2, h.3⟩
          · simp only [LexTable.add_default_action, LexTable.modify_state_getElem?, if_true]
        · refine ⟨⟨⟨rfl, rfl, rfl, rfl⟩, fun _ _ => rfl, rfl⟩, fun a => a,
            fun a => Or.inl rfl, ?_⟩
          exact (LexState.map_eta _).symm
      · simp only [if_neg hdone]
        refine ⟨LexWritesAt.at_refl n b, fun a => a, fun a => Or.inl rfl, ?_⟩
        exact (LexState.map_eta _).symm
    obtain ⟨h1, f1, hf1, e1⟩ := hstep
    obtain ⟨h2, f2, hf2, e2⟩ := ih (add_accept_token_action E (n : Int) b item)
    refine ⟨h1.at_trans h2, fun a => f2 (f1 a), ?_, ?_⟩
    · intro a
      rcases hf2 (f1 a) with h | ⟨it, hit, hd, h⟩
      · rcases hf1 a with h' | ⟨hd, h'⟩
        · exact Or.inl (h.trans h')
        · exact Or.inr ⟨item, List.mem_cons_self _ _, hd, h.trans h'⟩
      · exact Or.inr ⟨it, List.mem_cons_of_mem _ hit, hd, h⟩
    · rw [e2, e1]
      cases b.lex_table.states[n]? <;> simp

theorem LexAdvances.advances_trans {n : Nat} {b b' b'' : TableBuilder κ}
    (h : LexAdvances n b b') (h' : LexAdvances n b' b'') : LexAdvances n b b'' :=
  ⟨h.1.lex_trans h'.1,
    fun i hi hn => (h'.2 i (Nat.lt_of_lt_of_le hi h.1.lex_states) hn).trans (h.2 i hi hn),
    h'.3.trans h.3, h'.4.trans h.4, h'.5.trans h.5⟩

theorem add_advance_action_advances
    (add_lex_state : LexItemSet → TableBuilder κ → Option (LexStateId × TableBuilder κ))
    (hrec : ∀ s b id b', add_lex_state s b = some (id, b') →
      LexGrows b b' ∧ LexFrame b.lex_table.states.length b b')
    (n : Nat) (transition : CharacterSet × LexItemSet) (b b' : TableBuilder κ)
    (hn : n < b.lex_table.states.length)
    (h : add_advance_action add_lex_state (n : Int) transition b = some b') :
    LexAdvances n b b' := by
  unfold add_advance_action at h
  simp only at h
  cases hcall : add_lex_state transition.2 b with
  | none => simp [hcall] at h
  | some r =>
    obtain ⟨id, c⟩ := r
    simp only [hcall, Option.some.injEq] at h
    subst h
    obtain ⟨hg, hf⟩ := hrec _ _ _ _ hcall
    have h1 : LexAdvances n b c :=
      ⟨hg, fun i hi _ => hf.1 i hi, hf.2, by rw [hf.1 n hn], by rw [hf.1 n hn]⟩
    refine h1.advances_trans ⟨LexWrites.lex_grows ⟨rfl, rfl, rfl,
      LexTable.modify_state_length _ _ _⟩, ?_, ?_, ?_, ?_⟩
    · intro i _ hi
      simp only [LexTable.add_action, LexTable.modify_state_getElem?, if_neg hi]
    · exact LexTable.modify_state_error_state _ _ _
    · simp only [LexTable.add_action, LexTable.modify_state_getElem?, if_true, Option.map_map]
      rfl
    · simp only [LexTable.add_action, LexTable.modify_state_getElem?, if_true, Option.map_map]
      rfl

theorem add_advance_actions_loop_advances
    (add_lex_state : LexItemSet → TableBuilder κ → Option (LexStateId × TableBuilder κ))
    (hrec : ∀ s b id b', add_lex_state s b = some (id, b') →
      LexGrows b b' ∧ LexFrame b.lex_table.states.length b b')
    (n : Nat) (transitions : List (CharacterSet × LexItemSet)) (b b' : TableBuilder κ)
    (hn : n < b.lex_table.states.length)
    (h : add_advance_actions_loop add_lex_state (n : Int) transitions b = some b') :
    LexAdvances n b b' := by
  induction transitions generalizing b with
  | nil =>
    simp only [add_advance_actions_loop, Option.some.injEq] at h
    subst h
    exact ⟨LexGrows.lex_refl b, fun _ _ _ => rfl, rfl, rfl, rfl⟩
  | cons transition rest ih =>
    simp only [add_advance_actions_loop] at h
    cases hstep : add_advance_action add_lex_state (n : Int) transition b with
    | none => simp [hstep] at h
    | some b1 =>
      simp only [hstep] at h
      have h1 := add_advance_action_advances add_lex_state hrec n transition b b1 hn hstep
      exact h1.advances_trans (ih b1 (Nat.lt_of_lt_of_le hn h1.1.lex_states) h)

theorem record_lex_state_length (item_set : LexItemSet) (b : TableBuilder κ) :
    (record_lex_state item_set b).lex_table.states.length = b.lex_table.states.length + 1 := by
  simp [record_lex_state_states]

/-- The shape of a call of `add_lex_state` that creates a state. -/
theorem add_lex_state_created (E : Collaborators κ) (fuel : Nat) (item_set : LexItemSet)
    (b : TableBuilder κ) (id : LexStateId) (b' : TableBuilder κ)
    (hfind : assoc_find same_items b.lex_state_ids item_set = none)
    (h : add_lex_state E fuel item_set b = some (id, b')) :
    ∃ fuel' b3, fuel = fuel' + 1 ∧ id = ((b.lex_table.states.length : Nat) : Int) ∧
      add_advance_actions_loop (add_lex_state E fuel')
          ((b.lex_table.states.length : Nat) : Int) (E.char_transitions item_set)
          (add_token_start E item_set ((b.lex_table.states.length : Nat) : Int)
            (record_lex_state item_set b)) = some b3 ∧
      b' = add_accept_token_actions E item_set ((b.lex_table.states.length : Nat) : Int) b3 := by
  cases fuel with
  | zero => simp [add_lex_state, hfind] at h
  | succ fuel' =>
    rw [add_lex_state_new E fuel' item_set b hfind] at h
    split at h
    · simp at h
    · rename_i b3 hloop
      simp only [Option.some.injEq, Prod.mk.injEq] at h
      exact ⟨fuel', b3, rfl, h.1.symm, hloop, h.2.symm⟩

theorem add_lex_state_frame (E : Collaborators κ) (fuel : Nat) :
    ∀ (item_set : LexItemSet) (b : TableBuilder κ) (id : LexStateId) (b' : TableBuilder κ),
      add_lex_state E fuel item_set b = some (id, b') →
      LexFrame b.lex_table.states.length b b' := by
  induction fuel with
  | zero =>
    intro item_set b id b' h
    simp only [add_lex_state] at h
    cases hfind : assoc_find same_items b.lex_state_ids item_set with
    | none => simp [hfind] at h
    | some id0 =>
      simp only [hfind, Option.some.injEq, Prod.mk.injEq] at h
      obtain ⟨_, rfl⟩ := h
      exact ⟨fun _ _ => rfl, rfl⟩
  | succ fuel ih =>
    intro item_set b id b' h
    cases hfind : assoc_find same_items b.lex_state_ids item_set with
    | some id0 =>
      simp only [add_lex_state, hfind, Option.some.injEq, Prod.mk.injEq] at h
      obtain ⟨_, rfl⟩ := h
      exact ⟨fun _ _ => rfl, rfl⟩
    | none =>
      obtain ⟨fuel', b3, hfuel, _, hloop, rfl⟩ :=
        add_lex_state_created E (fuel + 1) item_set b id b' hfind h
      have hfuel' : fuel' = fuel := by omega
      subst hfuel'
      have h1 := record_lex_state_frame item_set b
      obtain ⟨h2, _⟩ := add_token_start_at E item_set b.lex_table.states.length
        (record_lex_state item_set b)
      have hlen2 : (add_token_start E item_set ((b.lex_table.states.length : Nat) : Int)
          (record_lex_state item_set b)).lex_table.states.length =
          b.lex_table.states.length + 1 := by
        rw [h2.1.4, record_lex_state_length]
      have h3 := add_advance_actions_loop_advances (add_lex_state E fuel')
        (fun s c id c' hs => ⟨(add_lex_state_spec E fuel' s c id c' hs).1, ih s c id c' hs⟩)
        b.lex_table.states.length _ _ _ (by rw [hlen2]; exact Nat.lt_succ_self _) hloop
      obtain ⟨h4, _⟩ := add_accept_token_actions_at E item_set b.lex_table.states.length b3
      refine ⟨?_, ?_⟩
      · intro i hi
        have hne : i ≠ b.lex_table.states.length := Nat.ne_of_lt hi
        rw [h4.2 i hne, h3.2 i (by rw [hlen2]; exact Nat.lt_succ_of_lt hi) hne, h2.2 i hne,
          h1.1 i hi]
      · rw [h4.3, h3.3, h2.3, h1.2]

theorem record_lex_state_new_state (item_set : LexItemSet) (b : TableBuilder κ) :
    (record_lex_state item_set b).lex_table.states[b.lex_table.states.length]? =
      some ({} : LexState) := by
  rw [record_lex_state_states]
  simp

theorem LexTable.state_of_getElem? (t : LexTable) (n : Nat) (st : LexState)
    (h : t.states[n]? = some st) : t.state (n : Int) = st := by
  rw [LexTable.state_of_nat, List.getD_eq_getElem?_getD, h]
  rfl

/-- The token start flag of a state that `add_lex_state` creates, after
`add_token_start` and at the end of the call. -/
theorem add_lex_state_token_start (E : Collaborators κ) (fuel : Nat) (item_set : LexItemSet)
    (b : TableBuilder κ) (id : LexStateId) (b' : TableBuilder κ)
    (hfind : assoc_find same_items b.lex_state_ids item_set = none)
    (h : add_lex_state E fuel item_set b = some (id, b')) :
    ((add_token_start E item_set id (record_lex_state item_set b)).lex_table.states[
        b.lex_table.states.length]?).map LexState.is_token_start =
        some (item_set.any E.is_token_start) ∧
      (b'.lex_table.states[b.lex_table.states.length]?).map LexState.is_token_start =
        some (item_set.any E.is_token_start) := by
  obtain ⟨fuel', b3, _, rfl, hloop, rfl⟩ := add_lex_state_created E fuel item_set b id b' hfind h
  obtain ⟨h2, e2⟩ := add_token_start_at E item_set b.lex_table.states.length
    (record_lex_state item_set b)
  have hlen2 : (add_token_start E item_set ((b.lex_table.states.length : Nat) : Int)
      (record_lex_state item_set b)).lex_table.states.length =
      b.lex_table.states.length + 1 := by
    rw [h2.1.4, record_lex_state_length]
  have h3 := add_advance_actions_loop_advances (add_lex_state E fuel')
    (fun s c id c' hs => ⟨(add_lex_state_spec E fuel' s c id c' hs).1,
      add_lex_state_frame E fuel' s c id c' hs⟩)
    b.lex_table.states.length _ _ _ (by rw [hlen2]; exact Nat.lt_succ_self _) hloop
  obtain ⟨_, f, _, e4⟩ := add_accept_token_actions_at E item_set b.lex_table.states.length b3
  have hflag : ((add_token_start E item_set ((b.lex_table.states.length : Nat) : Int)
      (record_lex_state item_set b)).lex_table.states[b.lex_table.states.length]?).map
      LexState.is_token_start = some (item_set.any E.is_token_start) := by
    rw [e2, record_lex_state_new_state]
    rfl
  refine ⟨hflag, ?_⟩
  rw [e4, Option.map_map, ← hflag, ← h3.4]
  cases b3.lex_table.states[b.lex_table.states.length]? <;> rfl

/-! ## C17: the token start flag of a new lex state -/

/-- C17: when the lex item set `item_set` has no id yet and
`add_lex_state item_set` returns `id`, the id is that of the state the call
adds, `lex_table.states[id]` exists and its flag `is_token_start` is true
exactly when some item of `item_set` satisfies `is_token_start`; the flag is
the one that `add_token_start` has left, so the creation of the successor
states during the call does not alter it. -/
theorem token_start_flag (E : Collaborators κ) (fuel : Nat) (item_set : LexItemSet)
    (b : TableBuilder κ) (id : LexStateId) (b' : TableBuilder κ)
    (hfind : assoc_find same_items b.lex_state_ids item_set = none)
    (h : add_lex_state E fuel item_set b = some (id, b')) :
    id = (b.lex_table.states.length : Int) ∧
      b'.lex_table.states[b.lex_table.states.length]? = some (b'.lex_table.state id) ∧
      ((b'.lex_table.state id).is_token_start = true ↔
        ∃ item ∈ item_set, E.is_token_start item = true) ∧
      (b'.lex_table.state id).is_token_start =
        ((add_token_start E item_set id (record_lex_state item_set b)).lex_table.state
          id).is_token_start := by
  obtain ⟨h1, h2⟩ := add_lex_state_token_start E fuel item_set b id b' hfind h
  obtain ⟨_, _, _, hid, _, _⟩ := add_lex_state_created E fuel item_set b id b' hfind h
  subst hid
  cases hst : b'.lex_table.states[b.lex_table.states.length]? with
  | none => simp [hst] at h2
  | some st =>
    cases hst1 : (add_token_start E item_set ((b.lex_table.states.length : Nat) : Int)
        (record_lex_state item_set b)).lex_table.states[b.lex_table.states.length]? with
    | none => simp [hst1] at h1
    | some st1 =>
      rw [hst] at h2
      rw [hst1] at h1
      simp only [Option.map_some', Option.some.injEq] at h1 h2
      rw [LexTable.state_of_getElem? _ _ _ hst, LexTable.state_of_getElem? _ _ _ hst1]
      refine ⟨rfl, rfl, ?_, h2.trans h1.symm⟩
      rw [h2, List.any_eq_true]

/-- C17, on the small grammar with the item of `A` marked as a token start:
the lex item set of `A` has no id on the new builder, `add_lex_state` returns
the id 0 and the flag of state 0 is on. -/
theorem token_start_flag_witness :
    ((add_lex_state Example.marking 4 [Example.lex_itemA] { conflict_manager := 0 }).getD
        (0, { conflict_manager := 0 })).1 = 0 ∧
      (((add_lex_state Example.marking 4 [Example.lex_itemA] { conflict_manager := 0 }).getD
        (0, { conflict_manager := 0 })).2.lex_table.state
          ((add_lex_state Example.marking 4 [Example.lex_itemA] { conflict_manager := 0 }).getD
            (0, { conflict_manager := 0 })).1).is_token_start = true := by
  have h : add_lex_state Example.marking 4 [Example.lex_itemA] { conflict_manager := 0 } =
      some ((add_lex_state Example.marking 4 [Example.lex_itemA]
        { conflict_manager := 0 }).getD (0, { conflict_manager := 0 })) := by rfl
  have ht := token_start_flag Example.marking 4 [Example.lex_itemA] { conflict_manager := 0 }
    _ _ rfl h
  exact ⟨ht.1, ht.2.2.1.mpr ⟨Example.lex_itemA, List.mem_singleton.mpr rfl, by decide⟩⟩

/-! ## Lex states: the invariant of the lex side -/

theorem mem_assoc_assign_value {κ υ : Type} [DecidableEq κ] (m : List (κ × υ)) (k : κ) (v : υ)
    (p : κ × υ) (h : p ∈ assoc_assign key_eq m k v) : p.2 = v ∨ p ∈ m := by
  induction m with
  | nil =>
    simp only [assoc_assign, List.mem_singleton] at h
    exact Or.inl (by rw [h])
  | cons q rest ih =>
    obtain ⟨k0, v0⟩ := q
    simp only [assoc_assign] at h
    split at h
    · rcases List.mem_cons.mp h with h | h
      · exact Or.inl (by rw [h])
      · exact Or.inr (List.mem_cons_of_mem _ h)
    · rcases List.mem_cons.mp h with h | h
      · exact Or.inr (h ▸ List.mem_cons_self _ _)
      · rcases ih h with h | h
        · exact Or.inl h
        · exact Or.inr (List.mem_cons_of_mem _ h)

theorem valid_lex_actions_mono {n m : Nat} (h : n ≤ m) (actions : List (CharacterSet × LexAction))
    (ha : valid_lex_actions n actions) : valid_lex_actions m actions := by
  intro p hp
  obtain ⟨id, h0, h1, h2⟩ := ha p hp
  exact ⟨id, h0, Nat.lt_of_lt_of_le h1 h, h2⟩

/-- A write through `LexTable::state(sid)` keeps the invariant when it keeps
the actions valid and the default action one of the allowed ones. -/
theorem LexInv.modify_state (E : Collaborators κ) (b : TableBuilder κ) (hb : LexInv E b)
    (sid : LexStateId) (f : LexState → LexState) (manager : κ)
    (hact : ∀ st, valid_lex_actions b.lex_table.states.length st.actions →
      valid_lex_actions b.lex_table.states.length (f st).actions)
    (hdef : ∀ (i : Nat) st, sid = (i : Int) → b.lex_table.states[i]? = some st →
      (f st).default_action = LexAction.Error ∨
        ∃ s, assoc_find same_items b.lex_state_ids s = some (i : Int) ∧
          ∃ item ∈ s, item.is_done = true ∧ (f st).default_action = LexAction.Accept item.lhs)
    (herr : sid < 0 →
      (f b.lex_table.error_state).default_action = LexAction.Error ∨
        ∃ item ∈ error_item_set E, item.is_done = true ∧
          (f b.lex_table.error_state).default_action = LexAction.Accept item.lhs) :
    LexInv E { b with
      conflict_manager := manager, lex_table := b.lex_table.modify_state sid f } := by
  by_cases hs : sid < 0
  · have e : b.lex_table.modify_state sid f =
        { b.lex_table with error_state := f b.lex_table.error_state } := by
      simp [LexTable.modify_state, hs]
    rw [e]
    exact ⟨hb.ids, hb.actions, hact _ hb.error_actions, hb.default_action, herr hs⟩
  · have hs' : 0 ≤ sid := Int.not_lt.mp hs
    obtain ⟨k, hk⟩ := Int.eq_ofNat_of_zero_le hs'
    subst hk
    refine ⟨?_, ?_, ?_, ?_, ?_⟩
    · intro s id hfind
      have := hb.ids s id hfind
      simpa [LexTable.modify_state_length] using this
    · intro i st hst
      simp only [LexTable.modify_state_length]
      simp only [LexTable.modify_state_getElem?] at hst
      split at hst
      · cases hold : b.lex_table.states[i]? with
        | none => simp [hold] at hst
        | some st0 =>
          simp only [hold, Option.map_some', Option.some.injEq] at hst
          subst hst
          exact hact _ (hb.actions i st0 hold)
      · exact hb.actions i st hst
    · simp only [LexTable.modify_state_length, LexTable.modify_state_error_state]
      exact hb.error_actions
    · intro i st hst
      simp only [LexTable.modify_state_getElem?] at hst
      split at hst
      · rename_i hik
        subst hik
        cases hold : b.lex_table.states[i]? with
        | none => simp [hold] at hst
        | some st0 =>
          simp only [hold, Option.map_some', Option.some.injEq] at hst
          subst hst
          exact hdef i st0 rfl hold
      · exact hb.default_action i st hst
    · simp only [LexTable.modify_state_error_state]
      exact hb.error_default

theorem LexInv.record (E : Collaborators κ) (b : TableBuilder κ) (hb : LexInv E b)
    (item_set : LexItemSet)
    (hfind : assoc_find same_items b.lex_state_ids item_set = none) :
    LexInv E (record_lex_state item_set b) := by
  have hfinds : ∀ s id, assoc_find same_items b.lex_state_ids s = some id →
      assoc_find same_items (record_lex_state item_set b).lex_state_ids s = some id := by
    intro s id hs
    rw [record_lex_state_ids item_set b hfind]
    exact assoc_find_append_of_some _ _ _ _ _ hs
  have hstates : ∀ (i : Nat) (st : LexState),
      (record_lex_state item_set b).lex_table.states[i]? = some st →
      b.lex_table.states[i]? = some st ∨ st = {} := by
    intro i st hst
    rw [record_lex_state_states] at hst
    by_cases hi : i < b.lex_table.states.length
    · rw [List.getElem?_append_left hi] at hst
      exact Or.inl hst
    · rw [List.getElem?_append_right (Nat.le_of_not_lt hi)] at hst
      cases hj : i - b.lex_table.states.length with
      | zero =>
        simp only [hj, List.getElem?_cons_zero, Option.some.injEq] at hst
        exact Or.inr hst.symm
      | succ j => simp [hj] at hst
  refine ⟨?_, ?_, ?_, ?_, ?_⟩
  · intro s id hs
    rw [record_lex_state_length]
    rw [record_lex_state_ids item_set b hfind] at hs
    cases hold : assoc_find same_items b.lex_state_ids s with
    | some id0 =>
      rw [assoc_find_append_of_some _ _ _ _ _ hold] at hs
      simp only [Option.some.injEq] at hs
      subst hs
      exact ⟨(hb.ids s id0 hold).1, Nat.lt_succ_of_lt (hb.ids s id0 hold).2⟩
    | none =>
      rw [assoc_find_append_of_none _ _ _ _ hold] at hs
      simp only [assoc_find] at hs
      split at hs
      · simp only [Option.some.injEq] at hs
        subst hs
        exact ⟨Int.ofNat_nonneg _, by simp⟩
      · simp at hs
  · intro i st hst
    rw [record_lex_state_length]
    rcases hstates i st hst with h | h
    · exact valid_lex_actions_mono (Nat.le_succ _) _ (hb.actions i st h)
    · subst h
      intro p hp
      simp at hp
  · rw [record_lex_state_length]
    exact valid_lex_actions_mono (Nat.le_succ _) _ (by
      simpa [record_lex_state, LexTable.add_state] using hb.error_actions)
  · intro i st hst
    rcases hstates i st hst with h | h
    · rcases hb.default_action i st h with h1 | ⟨s, hs, h2⟩
      · exact Or.inl h1
      · exact Or.inr ⟨s, hfinds s _ hs, h2⟩
    · subst h
      exact Or.inl rfl
  · simpa [record_lex_state, LexTable.add_state] using hb.error_default

theorem LexInv.of_lex_eq (E : Collaborators κ) (b b' : TableBuilder κ)
    (h1 : b'.lex_table = b.lex_table) (h2 : b'.lex_state_ids = b.lex_state_ids)
    (hb : LexInv E b) : LexInv E b' := by
  refine ⟨?_, ?_, ?_, ?_, ?_⟩
  · rw [h1, h2]; exact hb.ids
  · rw [h1]; exact hb.actions
  · rw [h1]; exact hb.error_actions
  · rw [h1, h2]; exact hb.default_action
  · rw [h1]; exact hb.error_default

theorem LexInv.token_start (E : Collaborators κ) (item_set : LexItemSet) (sid : LexStateId)
    (b : TableBuilder κ) (hb : LexInv E b) : LexInv E (add_token_start E item_set sid b) := by
  unfold add_token_start
  induction item_set generalizing b with
  | nil => exact hb
  | cons item rest ih =>
    simp only [List.foldl_cons]
    apply ih
    split
    · exact LexInv.modify_state E b hb sid _ b.conflict_manager (fun st h => h)
        (fun i st _ hst => hb.default_action i st hst) (fun _ => hb.error_default)
    · exact hb

theorem LexInv.accept_token_actions (E : Collaborators κ) (item_set : LexItemSet)
    (sid : LexStateId) (items : List LexItem) (hsub : ∀ item ∈ items, item ∈ item_set)
    (b : TableBuilder κ) (hb : LexInv E b)
    (hset : ∀ i : Nat, sid = (i : Int) →
      assoc_find same_items b.lex_state_ids item_set = some (i : Int))
    (herr : sid < 0 → ∀ item ∈ item_set, item ∈ error_item_set E) :
    LexInv E (items.foldl (add_accept_token_action E sid) b) := by
  induction items generalizing b with
  | nil => exact hb
  | cons item rest ih =>
    simp only [List.foldl_cons]
    have hids := (add_accept_token_action_writes E sid b item).lex_state_ids
    refine ih (fun it hit => hsub it (List.mem_cons_of_mem _ hit)) _ ?_
      (fun i hi => by rw [hids]; exact hset i hi)
    have hitem : item ∈ item_set := hsub item (List.mem_cons_self _ _)
    unfold add_accept_token_action
    by_cases hdone : item.is_done = true
    · simp only [if_pos hdone]
      split
      · exact LexInv.modify_state E b hb sid _ _ (fun st h => h)
          (fun i st hi _ => Or.inr ⟨item_set, hset i hi, item, hitem, hdone, rfl⟩)
          (fun hs => Or.inr ⟨item, herr hs item hitem, hdone, rfl⟩)
      · exact LexInv.of_lex_eq E b _ rfl rfl hb
    · simp only [if_neg hdone]
      exact hb

theorem LexInv.advance_actions_loop (E : Collaborators κ)
    (add_lex_state : LexItemSet → TableBuilder κ → Option (LexStateId × TableBuilder κ))
    (hrec : ∀ s c id c', LexInv E c → add_lex_state s c = some (id, c') →
      LexInv E c' ∧ assoc_find same_items c'.lex_state_ids s = some id)
    (sid : LexStateId) (transitions : List (CharacterSet × LexItemSet))
    (b b' : TableBuilder κ) (hb : LexInv E b)
    (h : add_advance_actions_loop add_lex_state sid transitions b = some b') :
    LexInv E b' := by
  induction transitions generalizing b with
  | nil =>
    simp only [add_advance_actions_loop, Option.some.injEq] at h
    subst h
    exact hb
  | cons transition rest ih =>
    simp only [add_advance_actions_loop] at h
    cases hstep : add_advance_action add_lex_state sid transition b with
    | none => simp [hstep] at h
    | some b1 =>
      simp only [hstep] at h
      refine ih b1 ?_ h
      unfold add_advance_action at hstep
      simp only at hstep
      cases hcall : add_lex_state transition.2 b with
      | none => simp [hcall] at hstep
      | some r =>
        obtain ⟨id, c⟩ := r
        simp only [hcall, Option.some.injEq] at hstep
        subst hstep
        obtain ⟨hc, hid⟩ := hrec _ _ _ _ hb hcall
        have hvalid := hc.ids _ _ hid
        refine LexInv.modify_state E c hc sid _ c.conflict_manager ?_
          (fun i st _ hst => hc.default_action i st hst) (fun _ => hc.error_default)
        intro st hst p hp
        rcases mem_assoc_assign_value _ _ _ _ hp with hp | hp
        · exact ⟨id, hvalid.1, hvalid.2, hp⟩
        · exact hst p hp

theorem add_lex_state_inv (E : Collaborators κ) (fuel : Nat) :
    ∀ (item_set : LexItemSet) (b : TableBuilder κ) (id : LexStateId) (b' : TableBuilder κ),
      LexInv E b → add_lex_state E fuel item_set b = some (id, b') → LexInv E b' := by
  induction fuel with
  | zero =>
    intro item_set b id b' hb h
    simp only [add_lex_state] at h
    cases hfind : assoc_find same_items b.lex_state_ids item_set with
    | none => simp [hfind] at h
    | some id0 =>
      simp only [hfind, Option.some.injEq, Prod.mk.injEq] at h
      obtain ⟨_, rfl⟩ := h
      exact hb
  | succ fuel ih =>
    intro item_set b id b' hb h
    cases hfind : assoc_find same_items b.lex_state_ids item_set with
    | some id0 =>
      simp only [add_lex_state, hfind, Option.some.injEq, Prod.mk.injEq] at h
      obtain ⟨_, rfl⟩ := h
      exact hb
    | none =>
      obtain ⟨fuel', b3, hfuel, _, hloop, rfl⟩ :=
        add_lex_state_created E (fuel + 1) item_set b id b' hfind h
      have hfuel' : fuel' = fuel := by omega
      subst hfuel'
      have h1 := LexInv.record E b hb item_set hfind
      have h2 := LexInv.token_start E item_set ((b.lex_table.states.length : Nat) : Int) _ h1
      have hrec : ∀ s c id c', LexInv E c → add_lex_state E fuel' s c = some (id, c') →
          LexInv E c' ∧ assoc_find same_items c'.lex_state_ids s = some id :=
        fun s c id c' hc hs => ⟨ih s c id c' hc hs, (add_lex_state_spec E fuel' s c id c' hs).2⟩
      have h3 := LexInv.advance_actions_loop E (add_lex_state E fuel') hrec _ _ _ _ h2 hloop
      have hg3 := add_advance_actions_loop_grows (add_lex_state E fuel')
        (fun s c id c' hs => (add_lex_state_spec E fuel' s c id c' hs).1) _ _ _ _ hloop
      have hid : assoc_find same_items b3.lex_state_ids item_set =
          some ((b.lex_table.states.length : Nat) : Int) := by
        apply hg3.lex_state_ids
        rw [(add_token_start_writes E item_set _ _).lex_state_ids,
          record_lex_state_ids item_set b hfind, assoc_find_append_of_none _ _ _ _ hfind]
        simp [assoc_find, same_items_refl]
      refine LexInv.accept_token_actions E item_set _ item_set (fun _ h => h) b3 h3 ?_ ?_
      · intro i hi
        rw [hid, hi]
      · intro hneg
        exact absurd hneg (Int.not_lt.mpr (Int.ofNat_nonneg _))

/-! ## Parse states: what `add_parse_state` does on the lex side -/

theorem add_reduce_actions_lex (E : Collaborators κ) (item_set : ParseItemSet)
    (state_id : ParseStateId) (b : TableBuilder κ) :
    (add_reduce_actions E item_set state_id b).lex_table = b.lex_table ∧
      (add_reduce_actions E item_set state_id b).lex_state_ids = b.lex_state_ids := by
  unfold add_reduce_actions
  induction item_set generalizing b with
  | nil => exact ⟨rfl, rfl⟩
  | cons item rest ih =>
    simp only [List.foldl_cons]
    have hstep : (add_reduce_action E state_id b item).lex_table = b.lex_table ∧
        (add_reduce_action E state_id b item).lex_state_ids = b.lex_state_ids := by
      unfold add_reduce_action
      dsimp only
      repeat' split
      all_goals exact ⟨rfl, rfl⟩
    exact ⟨(ih _).1.trans hstep.1, (ih _).2.trans hstep.2⟩

/-- A property of the lex side that `add_lex_state` keeps is kept by
`add_parse_state`. -/
theorem add_parse_state_lex_invariant (E : Collaborators κ) (P : TableBuilder κ → Prop)
    (hP : ∀ b b' : TableBuilder κ, b'.lex_table = b.lex_table →
      b'.lex_state_ids = b.lex_state_ids → P b → P b')
    (hlex : ∀ fuel s b id b', P b → add_lex_state E fuel s b = some (id, b') → P b')
    (fuel : Nat) :
    ∀ (item_set : ParseItemSet) (b : TableBuilder κ) (id : ParseStateId) (b' : TableBuilder κ),
      P b → add_parse_state E fuel item_set b = some (id, b') → P b' := by
  induction fuel with
  | zero =>
    intro item_set b id b' hb h
    simp only [add_parse_state] at h
    cases hfind : assoc_find same_items b.parse_state_ids item_set with
    | none => simp [hfind] at h
    | some id0 =>
      simp only [hfind, Option.some.injEq, Prod.mk.injEq] at h
      obtain ⟨_, rfl⟩ := h
      exact hb
  | succ fuel ih =>
    intro item_set b id b' hb h
    simp only [add_parse_state] at h
    cases hfind : assoc_find same_items b.parse_state_ids item_set with
    | some id0 =>
      simp only [hfind, Option.some.injEq, Prod.mk.injEq] at h
      obtain ⟨_, rfl⟩ := h
      exact hb
    | none =>
      simp only [hfind] at h
      have hloop : ∀ (transitions : List (ISymbol × ParseItemSet)) (sid : ParseStateId)
          (c c' : TableBuilder κ), P c →
          add_shift_actions_loop E (add_parse_state E fuel) sid transitions c = some c' →
          P c' := by
        intro transitions sid
        induction transitions with
        | nil =>
          intro c c' hc hl
          simp only [add_shift_actions_loop, Option.some.injEq] at hl
          subst hl
          exact hc
        | cons transition rest ihl =>
          intro c c' hc hl
          simp only [add_shift_actions_loop] at hl
          cases hstep : add_shift_action E (add_parse_state E fuel) sid transition c with
          | none => simp [hstep] at hl
          | some c1 =>
            simp only [hstep] at hl
            refine ihl c1 c' ?_ hl
            have hinstall : ∀ (d d' : TableBuilder κ), P d →
                (match add_parse_state E fuel transition.2 d with
                  | none => none
                  | some (new_state_id, b1) =>
                    some { b1 with
                      parse_table := b1.parse_table.add_action sid transition.1
                        (ParseAction.Shift new_state_id
                          (precedence_values_for_item_set E transition.2)) }) = some d' →
                P d' := by
              intro d d' hd hm
              cases hcall : add_parse_state E fuel transition.2 d with
              | none => simp [hcall] at hm
              | some r =>
                obtain ⟨nid, d1⟩ := r
                simp only [hcall, Option.some.injEq] at hm
                subst hm
                exact hP d1 _ rfl rfl (ih _ _ _ _ hd hcall)
            unfold add_shift_action at hstep
            simp only at hstep
            split at hstep
            · exact hinstall c c1 hc hstep
            · split at hstep
              · refine hinstall _ c1 ?_ hstep
                exact hP c _ rfl rfl hc
              · simp only [Option.some.injEq] at hstep
                subst hstep
                exact hP c _ rfl rfl hc
      split at h
      · simp at h
      · rename_i b2 hshift
        split at h
        · simp at h
        · rename_i b4 hassign
          simp only [Option.some.injEq, Prod.mk.injEq] at h
          obtain ⟨_, rfl⟩ := h
          have h2 : P b2 := by
            refine hloop _ _ _ _ ?_ hshift
            exact hP b _ rfl rfl hb
          have h3 : P (add_reduce_actions E item_set b.parse_table.add_state.1 b2) :=
            hP b2 _ (add_reduce_actions_lex E _ _ _).1 (add_reduce_actions_lex E _ _ _).2 h2
          unfold assign_lex_state at hassign
          simp only at hassign
          split at hassign
          · simp at hassign
          · rename_i lid c1 hcall
            simp only [Option.some.injEq] at hassign
            subst hassign
            exact hP c1 _ rfl rfl (hlex _ _ _ _ _ h3 hcall)

theorem LexInv.new_builder (E : Collaborators κ) (manager : κ) :
    LexInv E { conflict_manager := manager } := by
  refine ⟨?_, ?_, ?_, ?_, Or.inl rfl⟩
  · intro s id h
    simp [assoc_find] at h
  · intro i st h
    simp at h
  · intro p hp
    simp at hp
  · intro i st h
    simp at h

theorem add_error_lex_state_inv (E : Collaborators κ) (fuel : Nat) (b b' : TableBuilder κ)
    (hb : LexInv E b) (h : add_error_lex_state E fuel b = some b') : LexInv E b' := by
  unfold add_error_lex_state add_advance_actions at h
  split at h
  · simp at h
  · rename_i b1 hloop
    simp only [Option.some.injEq] at h
    subst h
    have h1 := LexInv.advance_actions_loop E (add_lex_state E fuel)
      (fun s c id c' hc hs => ⟨add_lex_state_inv E fuel s c id c' hc hs,
        (add_lex_state_spec E fuel s c id c' hs).2⟩) _ _ _ _ hb hloop
    refine LexInv.accept_token_actions E (error_item_set E) _ (error_item_set E)
      (fun _ h => h) b1 h1 ?_ (fun _ _ h => h)
    intro i hi
    exact absurd hi (by simp [LexTable.ERROR_STATE_ID])

theorem reachable_lex_inv (E : Collaborators κ) (b : TableBuilder κ) (hb : Reachable E b) :
    LexInv E b := by
  induction hb with
  | new manager => exact LexInv.new_builder E manager
  | parse fuel item_set b id b' _ h ih =>
    exact add_parse_state_lex_invariant E (LexInv E) (LexInv.of_lex_eq E)
      (fun fuel s b id b' hb hs => add_lex_state_inv E fuel s b id b' hb hs)
      fuel item_set b id b' ih h
  | lex fuel item_set b id b' _ h ih => exact add_lex_state_inv E fuel item_set b id b' ih h
  | error_lex fuel b b' _ h ih => exact add_error_lex_state_inv E fuel b b' ih h

theorem size_t_of_int_le (i : Int) (h : 0 ≤ i) : size_t_of_int i ≤ i.toNat := by
  unfold size_t_of_int
  omega

theorem add_advance_actions_loop_entries
    (add_lex_state : LexItemSet → TableBuilder κ → Option (LexStateId × TableBuilder κ))
    (hrec : ∀ s b id b', add_lex_state s b = some (id, b') →
      (LexGrows b b' ∧ LexFrame b.lex_table.states.length b b') ∧
        assoc_find same_items b'.lex_state_ids s = some id)
    (n : Nat) (transitions : List (CharacterSet × LexItemSet)) (b b' : TableBuilder κ)
    (st : LexState) (hst : b.lex_table.states[n]? = some st)
    (hkeys : (transitions.map Prod.fst).Nodup)
    (hfresh : ∀ t ∈ transitions, assoc_find key_eq st.actions t.1 = none)
    (h : add_advance_actions_loop add_lex_state (n : Int) transitions b = some b') :
    ∃ entries, (b'.lex_table.states[n]?).map LexState.actions = some (st.actions ++ entries) ∧
      List.Forall₂ (advance_entry b'.lex_state_ids) transitions entries := by
  induction transitions generalizing b st with
  | nil =>
    simp only [add_advance_actions_loop, Option.some.injEq] at h
    subst h
    exact ⟨[], by simp [hst], List.Forall₂.nil⟩
  | cons transition rest ih =>
    simp only [add_advance_actions_loop] at h
    cases hstep : add_advance_action add_lex_state (n : Int) transition b with
    | none => simp [hstep] at h
    | some b1 =>
      simp only [hstep] at h
      have hn : n < b.lex_table.states.length := by
        rcases Nat.lt_or_ge n b.lex_table.states.length with h | h
        · exact h
        · rw [List.getElem?_eq_none h] at hst
          simp at hst
      have hgrows := add_advance_actions_loop_grows add_lex_state
        (fun s b id b' hs => (hrec s b id b' hs).1.1) (n : Int) rest b1 b' h
      unfold add_advance_action at hstep
      simp only at hstep
      cases hcall : add_lex_state transition.2 b with
      | none => simp [hcall] at hstep
      | some r =>
        obtain ⟨id, c⟩ := r
        simp only [hcall, Option.some.injEq] at hstep
        obtain ⟨⟨_, hf⟩, hid⟩ := hrec _ _ _ _ hcall
        have hc : c.lex_table.states[n]? = some st := by rw [hf.1 n hn]; exact hst
        have hst1 : b1.lex_table.states[n]? = some { st with
            actions := st.actions ++
              [(transition.1, LexAction.Advance (size_t_of_int id))] } := by
          subst hstep
          simp only [LexTable.add_action, LexTable.modify_state_getElem?, if_true, hc,
            Option.map_some']
          rw [assoc_assign_of_none _ _ _ _ (hfresh transition (List.mem_cons_self _ _))]
        have hid1 : assoc_find same_items b1.lex_state_ids transition.2 = some id := by
          subst hstep
          exact hid
        rw [List.map_cons, List.nodup_cons] at hkeys
        obtain ⟨entries, he, hall⟩ := ih b1 _ hst1 hkeys.2 (by
          intro t ht
          simp only
          rw [assoc_find_append_of_none _ _ _ _ (hfresh t (List.mem_cons_of_mem _ ht))]
          have hne : transition.1 ≠ t.1 := fun e =>
            hkeys.1 (e ▸ List.mem_map_of_mem Prod.fst ht)
          simp [assoc_find, key_eq, hne]) h
        refine ⟨(transition.1, LexAction.Advance (size_t_of_int id)) :: entries, ?_, ?_⟩
        · rw [he]
          simp
        · exact List.Forall₂.cons ⟨rfl, id, hgrows.lex_state_ids _ _ hid1, rfl⟩ hall

/-- The action map of a state that `add_lex_state` creates. -/
theorem add_lex_state_entries (E : Collaborators κ) (fuel : Nat) (item_set : LexItemSet)
    (b : TableBuilder κ) (id : LexStateId) (b' : TableBuilder κ)
    (hfind : assoc_find same_items b.lex_state_ids item_set = none)
    (hkeys : ((E.char_transitions item_set).map Prod.fst).Nodup)
    (h : add_lex_state E fuel item_set b = some (id, b')) :
    List.Forall₂ (advance_entry b'.lex_state_ids) (E.char_transitions item_set)
      (b'.lex_table.state id).actions := by
  obtain ⟨fuel', b3, _, rfl, hloop, rfl⟩ := add_lex_state_created E fuel item_set b id b' hfind h
  obtain ⟨_, e2⟩ := add_token_start_at E item_set b.lex_table.states.length
    (record_lex_state item_set b)
  rw [record_lex_state_new_state] at e2
  obtain ⟨entries, he, hall⟩ := add_advance_actions_loop_entries (add_lex_state E fuel')
    (fun s c id c' hs => ⟨⟨(add_lex_state_spec E fuel' s c id c' hs).1,
      add_lex_state_frame E fuel' s c id c' hs⟩, (add_lex_state_spec E fuel' s c id c' hs).2⟩)
    b.lex_table.states.length _ _ _ _ e2 hkeys (fun _ _ => rfl) hloop
  obtain ⟨h4, f, _, e4⟩ := add_accept_token_actions_at E item_set b.lex_table.states.length b3
  rw [h4.1.3]
  cases hst3 : b3.lex_table.states[b.lex_table.states.length]? with
  | none => simp [hst3] at he
  | some st3 =>
    rw [hst3] at he e4
    simp only [Option.map_some', Option.some.injEq] at he e4
    rw [LexTable.state_of_getElem? _ _ _ e4]
    simp only
    rw [he]
    exact hall

theorem build_reachable (E : Collaborators κ) (fuel : Nat) (manager : κ) (b : TableBuilder κ)
    (h : build E fuel manager = some b) : Reachable E b := by
  unfold build at h
  split at h
  · simp at h
  · rename_i id b1 hparse
    exact Reachable.error_lex fuel b1 b
      (Reachable.parse fuel _ _ id b1 (Reachable.new manager) hparse) h

theorem valid_lex_actions_index (n : Nat) (actions : List (CharacterSet × LexAction))
    (h : valid_lex_actions n actions) (p : CharacterSet × LexAction) (hp : p ∈ actions) :
    p.2.type = LexActionType.LexActionTypeAdvance ∧ p.2.state_index < n ∧
      ∃ target : LexStateId, 0 ≤ target ∧ target ≠ LexTable.ERROR_STATE_ID ∧
        p.2 = LexAction.Advance (size_t_of_int target) := by
  obtain ⟨id, h0, h1, h2⟩ := h p hp
  refine ⟨by rw [h2]; rfl, ?_, id, h0, ?_, h2⟩
  · rw [h2]
    exact Nat.lt_of_le_of_lt (size_t_of_int_le id h0) h1
  · intro e
    rw [e] at h0
    simp [LexTable.ERROR_STATE_ID] at h0


/-! ## Parse states: the shift loop on a new state -/

theorem add_shift_action_install (E : Collaborators κ)
    (add_parse_state : ParseItemSet → TableBuilder κ → Option (ParseStateId × TableBuilder κ))
    (state_id : ParseStateId) (transition : ISymbol × ParseItemSet) (b : TableBuilder κ)
    (h : assoc_find key_eq (b.parse_table.state state_id).actions transition.1 = none) :
    add_shift_action E add_parse_state state_id transition b =
      install_shift_action E add_parse_state state_id transition b := by
  unfold add_shift_action install_shift_action
  simp only [h]

theorem install_shift_action_actions (E : Collaborators κ)
    (add_parse_state : ParseItemSet → TableBuilder κ → Option (ParseStateId × TableBuilder κ))
    (hrec : ∀ s b id b', add_parse_state s b = some (id, b') →
      Grows b.parse_table.states.length b b')
    (state_id : ParseStateId) (transition : ISymbol × ParseItemSet) (b b' : TableBuilder κ)
    (hb : state_id < b.parse_table.states.length)
    (h : install_shift_action E add_parse_state state_id transition b = some b') :
    state_id < b'.parse_table.states.length ∧
    ∀ symbol, symbol ≠ transition.1 →
      assoc_find key_eq (b'.parse_table.state state_id).actions symbol =
        assoc_find key_eq (b.parse_table.state state_id).actions symbol := by
  unfold install_shift_action at h
  split at h
  · simp at h
  · rename_i id b1 hcall
    simp only [Option.some.injEq] at h
    subst h
    have hg := hrec _ _ _ _ hcall
    have hb1 : state_id < b1.parse_table.states.length := Nat.lt_of_lt_of_le hb hg.1
    refine ⟨by simpa [ParseTable.add_action_length] using hb1, ?_⟩
    intro symbol hne
    simp only
    rw [ParseTable.add_action_state _ _ _ _ hb1,
      ParseTable.state_eq_of_getElem? _ _ _ (hg.2 state_id hb), assoc_find_assign,
      if_neg (fun e => hne e.symm)]

/-- On a state that has no action under the keys of the transitions, which are
distinct, every iteration of the loop of `add_shift_actions` takes the branch
that installs. -/
theorem add_shift_actions_loop_install (E : Collaborators κ)
    (add_parse_state : ParseItemSet → TableBuilder κ → Option (ParseStateId × TableBuilder κ))
    (hrec : ∀ s b id b', add_parse_state s b = some (id, b') →
      Grows b.parse_table.states.length b b')
    (state_id : ParseStateId) (transitions : List (ISymbol × ParseItemSet))
    (b : TableBuilder κ) (hb : state_id < b.parse_table.states.length)
    (hkeys : (transitions.map Prod.fst).Nodup)
    (hfresh : ∀ t ∈ transitions,
      assoc_find key_eq (b.parse_table.state state_id).actions t.1 = none) :
    add_shift_actions_loop E add_parse_state state_id transitions b =
      install_shift_actions_loop E add_parse_state state_id transitions b := by
  induction transitions generalizing b with
  | nil => rfl
  | cons transition rest ih =>
    rw [add_shift_actions_loop, install_shift_actions_loop,
      add_shift_action_install E add_parse_state state_id transition b
        (hfresh transition (List.mem_cons_self _ _))]
    cases hstep : install_shift_action E add_parse_state state_id transition b with
    | none => rfl
    | some b1 =>
      simp only
      rw [List.map_cons, List.nodup_cons] at hkeys
      obtain ⟨hb1, hsame⟩ := install_shift_action_actions E add_parse_state hrec state_id
        transition b b1 hb hstep
      apply ih b1 hb1 hkeys.2
      intro t ht
      rw [hsame t.1 (fun e => hkeys.1 (e ▸ List.mem_map_of_mem Prod.fst ht))]
      exact hfresh t (List.mem_cons_of_mem _ ht)

theorem explored_append (E : Collaborators κ) (ids more : List (ParseItemSet × ParseStateId))
    (entry : ParseItemSet × ParseStateId) (h : explored E ids entry) :
    explored E (ids ++ more) entry := by
  intro t ht
  obtain ⟨id, hid⟩ := h t ht
  exact ⟨id, assoc_find_append_of_some _ _ _ _ _ hid⟩

theorem install_shift_actions_loop_explored (E : Collaborators κ)
    (add_parse_state : ParseItemSet → TableBuilder κ → Option (ParseStateId × TableBuilder κ))
    (hrec : ∀ s b id b', add_parse_state s b = some (id, b') →
      ∃ added, b'.parse_state_ids = b.parse_state_ids ++ added ∧
        (∀ e ∈ added, explored E b'.parse_state_ids e) ∧
        assoc_find same_items b'.parse_state_ids s = some id)
    (state_id : ParseStateId) (transitions : List (ISymbol × ParseItemSet))
    (b b' : TableBuilder κ)
    (h : install_shift_actions_loop E add_parse_state state_id transitions b = some b') :
    ∃ added, b'.parse_state_ids = b.parse_state_ids ++ added ∧
      (∀ e ∈ added, explored E b'.parse_state_ids e) ∧
      ∀ t ∈ transitions, ∃ id, assoc_find same_items b'.parse_state_ids t.2 = some id := by
  induction transitions generalizing b with
  | nil =>
    simp only [install_shift_actions_loop, Option.some.injEq] at h
    subst h
    exact ⟨[], by simp, by simp, by simp⟩
  | cons transition rest ih =>
    simp only [install_shift_actions_loop] at h
    cases hstep : install_shift_action E add_parse_state state_id transition b with
    | none => simp [hstep] at h
    | some b1 =>
      simp only [hstep] at h
      obtain ⟨added2, hadd2, hexp2, hfound2⟩ := ih b1 h
      unfold install_shift_action at hstep
      split at hstep
      · simp at hstep
      · rename_i id c hcall
        simp only [Option.some.injEq] at hstep
        obtain ⟨added1, hadd1, hexp1, hfound1⟩ := hrec _ _ _ _ hcall
        have hids1 : b1.parse_state_ids = c.parse_state_ids := by rw [← hstep]
        refine ⟨added1 ++ added2, by rw [hadd2, hids1, hadd1, List.append_assoc], ?_, ?_⟩
        · intro e he
          rcases List.mem_append.mp he with he | he
          · rw [hadd2, hids1]
            exact explored_append E _ _ e (hexp1 e he)
          · exact hexp2 e he
        · intro t ht
          rcases List.mem_cons.mp ht with rfl | ht
          · rw [hadd2, hids1]
            exact ⟨id, assoc_find_append_of_some _ _ _ _ _ hfound1⟩
          · exact hfound2 t ht

theorem ParseTable.add_state_id (t : ParseTable) : t.add_state.1 = t.states.length := by
  simp [ParseTable.add_state]

theorem record_parse_state_ids (item_set : ParseItemSet) (b : TableBuilder κ)
    (hfind : assoc_find same_items b.parse_state_ids item_set = none) :
    (record_parse_state item_set b).parse_state_ids =
      b.parse_state_ids ++ [(item_set, b.parse_table.states.length)] := by
  simp only [record_parse_state, ParseTable.add_state_id]
  exact assoc_assign_of_none _ _ _ _ hfind

theorem record_parse_state_states (item_set : ParseItemSet) (b : TableBuilder κ) :
    (record_parse_state item_set b).parse_table.states =
      b.parse_table.states ++ [({} : ParseState)] := by
  simp [record_parse_state, ParseTable.add_state]

/-- The shape of a call of `add_parse_state` that creates a state. -/
theorem add_parse_state_created (E : Collaborators κ) (fuel : Nat) (item_set : ParseItemSet)
    (b : TableBuilder κ) (id : ParseStateId) (b' : TableBuilder κ)
    (hfind : assoc_find same_items b.parse_state_ids item_set = none)
    (h : add_parse_state E fuel item_set b = some (id, b')) :
    ∃ fuel' b2, fuel = fuel' + 1 ∧ id = b.parse_table.states.length ∧
      add_shift_actions_loop E (add_parse_state E fuel') b.parse_table.states.length
        (E.sym_transitions item_set) (record_parse_state item_set b) = some b2 ∧
      assign_lex_state E (add_lex_state E fuel') b.parse_table.states.length
        (add_reduce_actions E item_set b.parse_table.states.length b2) = some b' := by
  cases fuel with
  | zero => simp [add_parse_state, hfind] at h
  | succ fuel' =>
    rw [add_parse_state] at h
    simp only [hfind, add_shift_actions, ParseTable.add_state_id] at h
    split at h
    · simp at h
    · rename_i b2 hshift
      split at h
      · simp at h
      · rename_i b4 hassign
        simp only [Option.some.injEq, Prod.mk.injEq] at h
        obtain ⟨rfl, rfl⟩ := h
        exact ⟨fuel', b2, rfl, rfl, by simpa only [record_parse_state, ParseTable.add_state_id]
          using hshift, hassign⟩

theorem add_reduce_actions_parse_state_ids (E : Collaborators κ) (item_set : ParseItemSet)
    (state_id : ParseStateId) (b : TableBuilder κ) :
    (add_reduce_actions E item_set state_id b).parse_state_ids = b.parse_state_ids := by
  unfold add_reduce_actions
  induction item_set generalizing b with
  | nil => rfl
  | cons item rest ih =>
    simp only [List.foldl_cons]
    have hstep : (add_reduce_action E state_id b item).parse_state_ids = b.parse_state_ids := by
      unfold add_reduce_action
      dsimp only
      repeat' split
      all_goals rfl
    exact (ih _).trans hstep

theorem assign_lex_state_parse_state_ids (E : Collaborators κ) (fuel : Nat)
    (state_id : ParseStateId) (b b' : TableBuilder κ)
    (h : assign_lex_state E (add_lex_state E fuel) state_id b = some b') :
    b'.parse_state_ids = b.parse_state_ids := by
  unfold assign_lex_state at h
  simp only at h
  split at h
  · simp at h
  · rename_i id b1 hcall
    simp only [Option.some.injEq] at h
    subst h
    exact (add_lex_state_spec E fuel _ _ _ _ hcall).1.parse_state_ids

/-- The entries that a call of `add_parse_state` adds to `parse_state_ids` have
all their successors recorded at the end of the call. -/
theorem add_parse_state_explored (E : Collaborators κ)
    (hkeys : ∀ s, ((E.sym_transitions s).map Prod.fst).Nodup) (fuel : Nat) :
    ∀ (item_set : ParseItemSet) (b : TableBuilder κ) (id : ParseStateId) (b' : TableBuilder κ),
      add_parse_state E fuel item_set b = some (id, b') →
      ∃ added, b'.parse_state_ids = b.parse_state_ids ++ added ∧
        (∀ e ∈ added, explored E b'.parse_state_ids e) ∧
        assoc_find same_items b'.parse_state_ids item_set = some id := by
  induction fuel with
  | zero =>
    intro item_set b id b' h
    have hid := (add_parse_state_spec E 0 item_set b id b' h).2.1
    simp only [add_parse_state] at h
    cases hfind : assoc_find same_items b.parse_state_ids item_set with
    | none => simp [hfind] at h
    | some id0 =>
      simp only [hfind, Option.some.injEq, Prod.mk.injEq] at h
      obtain ⟨_, rfl⟩ := h
      exact ⟨[], by simp, by simp, hid⟩
  | succ fuel ih =>
    intro item_set b id b' h
    have hid := (add_parse_state_spec E (fuel + 1) item_set b id b' h).2.1
    cases hfind : assoc_find same_items b.parse_state_ids item_set with
    | some id0 =>
      simp only [add_parse_state, hfind, Option.some.injEq, Prod.mk.injEq] at h
      obtain ⟨_, rfl⟩ := h
      exact ⟨[], by simp, by simp, hid⟩
    | none =>
      obtain ⟨fuel', b2, hfuel, _, hshift, hassign⟩ :=
        add_parse_state_created E (fuel + 1) item_set b id b' hfind h
      have hfuel' : fuel' = fuel := by omega
      subst hfuel'
      have hlen : b.parse_table.states.length <
          (record_parse_state item_set b).parse_table.states.length := by
        simp [record_parse_state_states]
      rw [add_shift_actions_loop_install E (add_parse_state E fuel')
        (fun s c id c' hs => (add_parse_state_spec E fuel' s c id c' hs).1)
        b.parse_table.states.length _ _ hlen (hkeys item_set) (by
          intro t _
          have : (record_parse_state item_set b).parse_table.state
              b.parse_table.states.length = {} := by
            simp [ParseTable.state, record_parse_state_states]
          rw [this]
          rfl)] at hshift
      obtain ⟨added, hadd, hexp, hfound⟩ := install_shift_actions_loop_explored E
        (add_parse_state E fuel') ih _ _ _ _ hshift
      have hids : b'.parse_state_ids = b2.parse_state_ids := by
        rw [assign_lex_state_parse_state_ids E fuel' _ _ _ hassign,
          add_reduce_actions_parse_state_ids]
      refine ⟨(item_set, b.parse_table.states.length) :: added, ?_, ?_, hid⟩
      · rw [hids, hadd, record_parse_state_ids item_set b hfind, List.append_assoc]
        rfl
      · intro e he
        rw [hids]
        rcases List.mem_cons.mp he with rfl | he
        · exact hfound
        · exact hexp e he

/-! ## C19: every successor item set is explored -/

/-- C19: the keys of `sym_transitions` being distinct, when the item set
`item_set` has no id yet and `add_parse_state item_set` returns, every
successor `(sym, successor)` of `sym_transitions(item_set)` has an id in
`parse_state_ids`; the loop of `add_shift_actions` on the new state takes in
every iteration the branch that calls `add_parse_state` and installs the shift,
since the state has no action under the symbol yet, so it runs as the loop
that never consults the conflict manager; and after `build` the successors of
every item set recorded in `parse_state_ids` are recorded too. -/
theorem successors_explored (E : Collaborators κ)
    (hkeys : ∀ s, ((E.sym_transitions s).map Prod.fst).Nodup) :
    (∀ (fuel : Nat) (item_set : ParseItemSet) (b : TableBuilder κ) (id : ParseStateId)
        (b' : TableBuilder κ),
      assoc_find same_items b.parse_state_ids item_set = none →
      add_parse_state E fuel item_set b = some (id, b') →
      (∀ t ∈ E.sym_transitions item_set,
        ∃ id', assoc_find same_items b'.parse_state_ids t.2 = some id') ∧
      add_shift_actions E (add_parse_state E (fuel - 1)) item_set id
          (record_parse_state item_set b) =
        install_shift_actions_loop E (add_parse_state E (fuel - 1)) id
          (E.sym_transitions item_set) (record_parse_state item_set b)) ∧
    (∀ (fuel : Nat) (manager : κ) (b : TableBuilder κ), build E fuel manager = some b →
      ∀ e ∈ b.parse_state_ids, ∀ t ∈ E.sym_transitions e.1,
        ∃ id', assoc_find same_items b.parse_state_ids t.2 = some id') := by
  refine ⟨?_, ?_⟩
  · intro fuel item_set b id b' hfind h
    obtain ⟨hgrows, _, hnew⟩ := add_parse_state_spec E fuel item_set b id b' h
    obtain ⟨hid, added, hadd, _, _⟩ := hnew hfind
    obtain ⟨added', hadd', hexp, _⟩ := add_parse_state_explored E hkeys fuel item_set b id b' h
    refine ⟨?_, ?_⟩
    · have e : added' = (item_set, id) :: added :=
        List.append_cancel_left (hadd'.symm.trans hadd)
      exact hexp (item_set, id) (by rw [e]; exact List.mem_cons_self _ _)
    · subst hid
      unfold add_shift_actions
      apply add_shift_actions_loop_install E (add_parse_state E (fuel - 1))
        (fun s c id c' hs => (add_parse_state_spec E (fuel - 1) s c id c' hs).1)
        b.parse_table.states.length _ _ (by simp [record_parse_state_states]) (hkeys item_set)
      intro t _
      have : (record_parse_state item_set b).parse_table.state
          b.parse_table.states.length = {} := by
        simp [ParseTable.state, record_parse_state_states]
      rw [this]
      rfl
  · intro fuel manager b h
    unfold build at h
    split at h
    · simp at h
    · rename_i id b1 hparse
      obtain ⟨added, hadd, hexp, _⟩ := add_parse_state_explored E hkeys fuel _ _ id b1 hparse
      have hids : b.parse_state_ids = b1.parse_state_ids :=
        (add_error_lex_state_grows E fuel b1 b h).parse_state_ids
      intro e he
      rw [hids] at he ⊢
      apply hexp e
      rw [hadd] at he
      simpa using he

/-- C19, on the small grammar: after `build` the item set reached from the
start item set by shifting the token `A` has an id. -/
theorem successors_explored_witness :
    ∃ id', assoc_find same_items
      ((build Example.collaborators 3 0).getD { conflict_manager := 0 }).parse_state_ids
      [Example.itemS1] = some id' := by
  have h : build Example.collaborators 3 0 =
      some ((build Example.collaborators 3 0).getD { conflict_manager := 0 }) := by rfl
  have hkeys : ∀ s, ((Example.collaborators.sym_transitions s).map Prod.fst).Nodup := by
    intro s
    simp only [Example.collaborators]
    split <;> decide
  exact (successors_explored Example.collaborators hkeys).2 3 0 _ h
    ([Example.item0, Example.itemS0], 0) (by decide)
    (Example.tokenA, [Example.itemS1]) (by decide)

/-! ## Interning maps: ids and states -/

theorem LexIds.of_writes {b b' : TableBuilder κ} (h : LexWrites b b') (hb : LexIds b) :
    LexIds b' := by
  unfold LexIds at *
  rw [h.lex_state_ids, h.lex_states]
  exact hb

theorem LexIds.after_record (item_set : LexItemSet) (b : TableBuilder κ) (hb : LexIds b)
    (hfind : assoc_find same_items b.lex_state_ids item_set = none) :
    LexIds (record_lex_state item_set b) := by
  unfold LexIds at *
  rw [record_lex_state_ids item_set b hfind, record_lex_state_length, List.map_append, hb,
    List.range_succ, List.map_append]
  rfl

/-- A property that the recursive call and the writes to one lex state keep is
kept by the loop of `add_advance_actions`. -/
theorem add_advance_actions_loop_keeps (P : TableBuilder κ → Prop)
    (add_lex_state : LexItemSet → TableBuilder κ → Option (LexStateId × TableBuilder κ))
    (hrec : ∀ s c id c', P c → add_lex_state s c = some (id, c') → P c')
    (hwrites : ∀ c c', LexWrites c c' → P c → P c')
    (sid : LexStateId) (transitions : List (CharacterSet × LexItemSet))
    (b b' : TableBuilder κ) (hb : P b)
    (h : add_advance_actions_loop add_lex_state sid transitions b = some b') : P b' := by
  induction transitions generalizing b with
  | nil =>
    simp only [add_advance_actions_loop, Option.some.injEq] at h
    subst h
    exact hb
  | cons transition rest ih =>
    simp only [add_advance_actions_loop] at h
    cases hstep : add_advance_action add_lex_state sid transition b with
    | none => simp [hstep] at h
    | some b1 =>
      simp only [hstep] at h
      refine ih b1 ?_ h
      unfold add_advance_action at hstep
      simp only at hstep
      cases hcall : add_lex_state transition.2 b with
      | none => simp [hcall] at hstep
      | some r =>
        obtain ⟨id, c⟩ := r
        simp only [hcall, Option.some.injEq] at hstep
        subst hstep
        exact hwrites c _ ⟨rfl, rfl, rfl, LexTable.modify_state_length _ _ _⟩
          (hrec _ _ _ _ hb hcall)

theorem add_lex_state_lex_ids (E : Collaborators κ) (fuel : Nat) :
    ∀ (item_set : LexItemSet) (b : TableBuilder κ) (id : LexStateId) (b' : TableBuilder κ),
      LexIds b → add_lex_state E fuel item_set b = some (id, b') → LexIds b' := by
  induction fuel with
  | zero =>
    intro item_set b id b' hb h
    simp only [add_lex_state] at h
    cases hfind : assoc_find same_items b.lex_state_ids item_set with
    | none => simp [hfind] at h
    | some id0 =>
      simp only [hfind, Option.some.injEq, Prod.mk.injEq] at h
      obtain ⟨_, rfl⟩ := h
      exact hb
  | succ fuel ih =>
    intro item_set b id b' hb h
    cases hfind : assoc_find same_items b.lex_state_ids item_set with
    | some id0 =>
      simp only [add_lex_state, hfind, Option.some.injEq, Prod.mk.injEq] at h
      obtain ⟨_, rfl⟩ := h
      exact hb
    | none =>
      obtain ⟨fuel', b3, hfuel, _, hloop, rfl⟩ :=
        add_lex_state_created E (fuel + 1) item_set b id b' hfind h
      have hfuel' : fuel' = fuel := by omega
      subst hfuel'
      have h1 := LexIds.after_record item_set b hb hfind
      have h2 := LexIds.of_writes (add_token_start_writes E item_set
        ((b.lex_table.states.length : Nat) : Int) (record_lex_state item_set b)) h1
      have h3 := add_advance_actions_loop_keeps LexIds (add_lex_state E fuel') ih
        (fun _ _ hw hc => LexIds.of_writes hw hc) _ _ _ _ h2 hloop
      exact LexIds.of_writes (add_accept_token_actions_writes E item_set _ b3) h3

theorem add_error_lex_state_lex_ids (E : Collaborators κ) (fuel : Nat) (b b' : TableBuilder κ)
    (hb : LexIds b) (h : add_error_lex_state E fuel b = some b') : LexIds b' := by
  unfold add_error_lex_state add_advance_actions at h
  split at h
  · simp at h
  · rename_i b1 hloop
    simp only [Option.some.injEq] at h
    subst h
    have h1 := add_advance_actions_loop_keeps LexIds (add_lex_state E fuel)
      (add_lex_state_lex_ids E fuel) (fun _ _ hw hc => LexIds.of_writes hw hc) _ _ _ _ hb hloop
    exact LexIds.of_writes (add_accept_token_actions_writes E _ _ b1) h1

theorem reachable_lex_ids (E : Collaborators κ) (b : TableBuilder κ) (hb : Reachable E b) :
    LexIds b := by
  induction hb with
  | new manager => rfl
  | parse fuel item_set b id b' _ h ih =>
    refine add_parse_state_lex_invariant E LexIds ?_
      (fun fuel s b id b' hb hs => add_lex_state_lex_ids E fuel s b id b' hb hs)
      fuel item_set b id b' ih h
    intro c c' h1 h2 hc
    unfold LexIds at *
    rw [h1, h2]
    exact hc
  | lex fuel item_set b id b' _ h ih => exact add_lex_state_lex_ids E fuel item_set b id b' ih h
  | error_lex fuel b b' _ h ih => exact add_error_lex_state_lex_ids E fuel b b' ih h

theorem ParseIds.of_grows {b b' : TableBuilder κ} {n : Nat} (h : Grows n b b')
    (hb : ParseIds b) : ParseIds b' := by
  unfold ParseIds at *
  obtain ⟨added, hadd, hids⟩ := h.parse_state_ids
  have hlen := h.parse_states
  have e : List.range' 0 b.parse_table.states.length ++
      List.range' (0 + b.parse_table.states.length)
        (b'.parse_table.states.length - b.parse_table.states.length) =
      List.range' 0 (b'.parse_table.states.length - b.parse_table.states.length +
        b.parse_table.states.length) := List.range'_append_1 ..
  rw [Nat.zero_add, Nat.sub_add_cancel hlen] at e
  rw [hadd, List.map_append, hb, hids, List.range_eq_range', List.range_eq_range', e]

theorem reachable_parse_ids (E : Collaborators κ) (b : TableBuilder κ) (hb : Reachable E b) :
    ParseIds b := by
  induction hb with
  | new manager => rfl
  | parse fuel item_set b id b' _ h ih =>
    exact ParseIds.of_grows (add_parse_state_spec E fuel item_set b id b' h).1 ih
  | lex fuel item_set b id b' _ h ih =>
    exact ParseIds.of_grows ((add_lex_state_spec E fuel item_set b id b' h).1.to_grows 0) ih
  | error_lex fuel b b' _ h ih =>
    exact ParseIds.of_grows ((add_error_lex_state_grows E fuel b b' h).to_grows 0) ih

theorem same_items_iff {α : Type} [DecidableEq α] (a b : List α) :
    same_items a b = true ↔ ∀ x, x ∈ a ↔ x ∈ b := by
  simp only [same_items, Bool.and_eq_true, List.all_eq_true, decide_eq_true_eq]
  constructor
  · intro h x
    exact ⟨h.1 x, h.2 x⟩
  · intro h
    exact ⟨fun x hx => (h x).mp hx, fun x hx => (h x).mpr hx⟩

theorem assoc_find_entry {κ₁ υ : Type} (eqv : κ₁ → κ₁ → Bool) (m : List (κ₁ × υ)) (k : κ₁)
    (v : υ) (h : assoc_find eqv m k = some v) : ∃ k', (k', v) ∈ m ∧ eqv k' k = true := by
  induction m with
  | nil => simp [assoc_find] at h
  | cons p rest ih =>
    obtain ⟨k0, v0⟩ := p
    simp only [assoc_find] at h
    split at h
    · rename_i he
      simp only [Option.some.injEq] at h
      subst h
      exact ⟨k0, List.mem_cons_self _ _, he⟩
    · obtain ⟨k', hmem, he⟩ := ih h
      exact ⟨k', List.mem_cons_of_mem _ hmem, he⟩

theorem entry_key_unique {κ₁ υ : Type} (m : List (κ₁ × υ)) (hm : (m.map Prod.snd).Nodup)
    (k k' : κ₁) (v : υ) (h : (k, v) ∈ m) (h' : (k', v) ∈ m) : k = k' := by
  induction m with
  | nil => simp at h
  | cons p rest ih =>
    rw [List.map_cons, List.nodup_cons] at hm
    rcases List.mem_cons.mp h with h1 | h1
    · rcases List.mem_cons.mp h' with h2 | h2
      · exact (Prod.mk.inj (h1.trans h2.symm)).1
      · have hv : p.2 = v := by rw [← h1]
        exact absurd (List.mem_map_of_mem Prod.snd h2) (hv ▸ hm.1)
    · rcases List.mem_cons.mp h' with h2 | h2
      · have hv : p.2 = v := by rw [← h2]
        exact absurd (List.mem_map_of_mem Prod.snd h1) (hv ▸ hm.1)
      · exact ih hm.2 h1 h2

theorem find_injective {α υ : Type} [DecidableEq α] (m : List (List α × υ))
    (hm : (m.map Prod.snd).Nodup) (s s' : List α) (v : υ)
    (h : assoc_find same_items m s = some v) (h' : assoc_find same_items m s' = some v) :
    same_items s s' = true := by
  obtain ⟨k, hk, he⟩ := assoc_find_entry _ _ _ _ h
  obtain ⟨k', hk', he'⟩ := assoc_find_entry _ _ _ _ h'
  have hkk := entry_key_unique m hm k k' v hk hk'
  subst hkk
  rw [same_items_iff] at he he' ⊢
  intro x
  exact (he x).symm.trans (he' x)

/-! ## Parse states: lex state ids and shift targets -/

theorem ParseTable.add_action_getElem? (t : ParseTable) (n i : Nat) (symbol : ISymbol)
    (action : ParseAction) :
    (t.add_action n symbol action).states[i]? =
      if i = n then (t.states[i]?).map
        (fun s => { s with actions := assoc_assign key_eq s.actions symbol action })
      else t.states[i]? := by
  simp only [ParseTable.add_action]
  split
  · rename_i h
    subst h
    exact modify_at_getElem?_eq _ t.states i
  · rename_i h
    exact modify_at_getElem?_ne _ t.states n i (fun e => h e.symm)

theorem settled_of_grows (E : Collaborators κ) {n : Nat} {b b' : TableBuilder κ}
    (h : Grows n b b') (st : ParseState) (hs : settled E b st) : settled E b' st := by
  refine ⟨h.lex_state_ids _ _ hs.1, ?_⟩
  intro p hp ht
  obtain ⟨added, hadd, _⟩ := h.parse_state_ids
  rw [hadd, List.map_append]
  exact List.mem_append_left _ (hs.2 p hp ht)

theorem shifts_recorded_of_grows {n : Nat} {b b' : TableBuilder κ}
    (h : Grows n b b') (st : ParseState) (hs : shifts_recorded b.parse_state_ids st) :
    shifts_recorded b'.parse_state_ids st := by
  intro p hp ht
  obtain ⟨added, hadd, _⟩ := h.parse_state_ids
  rw [hadd, List.map_append]
  exact List.mem_append_left _ (hs p hp ht)

theorem ShiftLoopInv.of_parse_eq (E : Collaborators κ) (n : Nat) (b b' : TableBuilder κ)
    (h1 : b'.parse_table = b.parse_table) (h2 : b'.parse_state_ids = b.parse_state_ids)
    (h3 : b'.lex_state_ids = b.lex_state_ids) (hb : ShiftLoopInv E n b) :
    ShiftLoopInv E n b' := by
  unfold ShiftLoopInv settled at *
  rw [h1, h2, h3]
  exact hb

theorem install_keeps_shift_loop_inv (E : Collaborators κ)
    (add_parse_state : ParseItemSet → TableBuilder κ → Option (ParseStateId × TableBuilder κ))
    (hrec : ∀ s c id c', add_parse_state s c = some (id, c') →
      Grows c.parse_table.states.length c c' ∧
        assoc_find same_items c'.parse_state_ids s = some id ∧
        ∀ (i : Nat) (st : ParseState), c.parse_table.states.length ≤ i →
          c'.parse_table.states[i]? = some st → settled E c' st)
    (n : Nat) (transition : ISymbol × ParseItemSet) (b b' : TableBuilder κ)
    (hn : n < b.parse_table.states.length) (hb : ShiftLoopInv E n b)
    (h : install_shift_action E add_parse_state n transition b = some b') :
    ShiftLoopInv E n b' := by
  unfold install_shift_action at h
  split at h
  · simp at h
  · rename_i id c hcall
    simp only [Option.some.injEq] at h
    subst h
    obtain ⟨hg, hid, hnew⟩ := hrec _ _ _ _ hcall
    have hmem : id ∈ c.parse_state_ids.map Prod.snd := by
      obtain ⟨k, hk, _⟩ := assoc_find_entry _ _ _ _ hid
      exact List.mem_map_of_mem Prod.snd hk
    refine ⟨?_, ?_⟩
    · intro i st hi hst
      simp only [ParseTable.add_action_getElem?, if_neg (Nat.ne_of_gt hi)] at hst
      show settled E c st
      by_cases hlt : i < b.parse_table.states.length
      · rw [hg.untouched i hlt] at hst
        exact settled_of_grows E hg st (hb.1 i st hi hst)
      · exact hnew i st (Nat.le_of_not_lt hlt) hst
    · intro st hst
      simp only [ParseTable.add_action_getElem?, if_true] at hst
      cases hold : c.parse_table.states[n]? with
      | none => simp [hold] at hst
      | some st0 =>
        simp only [hold, Option.map_some', Option.some.injEq] at hst
        subst hst
        have h0 : shifts_recorded c.parse_state_ids st0 := by
          rw [hg.untouched n hn] at hold
          exact shifts_recorded_of_grows hg st0 (hb.2 st0 hold)
        intro p hp ht
        rcases mem_assoc_assign_value _ _ _ _ hp with hp | hp
        · rw [hp]
          exact hmem
        · exact h0 p hp ht

theorem add_shift_actions_loop_settled (E : Collaborators κ)
    (add_parse_state : ParseItemSet → TableBuilder κ → Option (ParseStateId × TableBuilder κ))
    (hrec : ∀ s c id c', add_parse_state s c = some (id, c') →
      Grows c.parse_table.states.length c c' ∧
        assoc_find same_items c'.parse_state_ids s = some id ∧
        ∀ (i : Nat) (st : ParseState), c.parse_table.states.length ≤ i →
          c'.parse_table.states[i]? = some st → settled E c' st)
    (n : Nat) (transitions : List (ISymbol × ParseItemSet)) (b b' : TableBuilder κ)
    (hn : n < b.parse_table.states.length) (hb : ShiftLoopInv E n b)
    (h : add_shift_actions_loop E add_parse_state n transitions b = some b') :
    ShiftLoopInv E n b' := by
  induction transitions generalizing b with
  | nil =>
    simp only [add_shift_actions_loop, Option.some.injEq] at h
    subst h
    exact hb
  | cons transition rest ih =>
    simp only [add_shift_actions_loop] at h
    cases hstep : add_shift_action E add_parse_state n transition b with
    | none => simp [hstep] at h
    | some b1 =>
      simp only [hstep] at h
      have hg1 := add_shift_action_grows E add_parse_state
        (fun s c id c' hs => (hrec s c id c' hs).1) 0 n (Nat.zero_le _) transition b b1
        (Nat.zero_le _) hstep
      refine ih b1 (Nat.lt_of_lt_of_le hn hg1.1) ?_ h
      unfold add_shift_action at hstep
      simp only at hstep
      split at hstep
      · exact install_keeps_shift_loop_inv E add_parse_state hrec n transition b b1 hn hb hstep
      · split at hstep
        · refine install_keeps_shift_loop_inv E add_parse_state hrec n transition _ b1 ?_ ?_ hstep
          · exact hn
          · exact ShiftLoopInv.of_parse_eq E n b _ rfl rfl rfl hb
        · simp only [Option.some.injEq] at hstep
          subst hstep
          exact ShiftLoopInv.of_parse_eq E n b _ rfl rfl rfl hb

theorem add_action_keeps_shift_loop_inv (E : Collaborators κ) (n : Nat) (b : TableBuilder κ)
    (manager : κ) (symbol : ISymbol) (action : ParseAction)
    (hnot : action.type ≠ ParseActionType.ParseActionTypeShift) (hb : ShiftLoopInv E n b) :
    ShiftLoopInv E n { b with
      conflict_manager := manager,
      parse_table := b.parse_table.add_action n symbol action } := by
  refine ⟨?_, ?_⟩
  · intro i st hi hst
    simp only [ParseTable.add_action_getElem?, if_neg (Nat.ne_of_gt hi)] at hst
    exact hb.1 i st hi hst
  · intro st hst
    simp only [ParseTable.add_action_getElem?, if_true] at hst
    cases hold : b.parse_table.states[n]? with
    | none => simp [hold] at hst
    | some st0 =>
      simp only [hold, Option.map_some', Option.some.injEq] at hst
      subst hst
      intro p hp ht
      rcases mem_assoc_assign_value _ _ _ _ hp with hp | hp
      · rw [hp] at ht
        exact absurd ht hnot
      · exact hb.2 st0 hold p hp ht

theorem add_reduce_actions_keeps_shift_loop_inv (E : Collaborators κ) (item_set : ParseItemSet)
    (n : Nat) (b : TableBuilder κ) (hb : ShiftLoopInv E n b) :
    ShiftLoopInv E n (add_reduce_actions E item_set n b) := by
  unfold add_reduce_actions
  induction item_set generalizing b with
  | nil => exact hb
  | cons item rest ih =>
    simp only [List.foldl_cons]
    apply ih
    unfold add_reduce_action
    have hnot : (if item.lhs = E.START then ParseAction.Accept
        else ParseAction.Reduce item.lhs item.consumed_symbol_count (E.precedence item)).type ≠
        ParseActionType.ParseActionTypeShift := by
      split <;> simp [ParseAction.Accept, ParseAction.Reduce]
    generalize (if item.lhs = E.START then ParseAction.Accept
      else ParseAction.Reduce item.lhs item.consumed_symbol_count (E.precedence item)) = action
      at hnot
    dsimp only
    split
    · split
      · exact add_action_keeps_shift_loop_inv E n b b.conflict_manager _ action hnot hb
      · split
        · exact add_action_keeps_shift_loop_inv E n b _ _ action hnot hb
        · exact ShiftLoopInv.of_parse_eq E n b _ rfl rfl rfl hb
    · exact hb

/-- The parse states that a call of `add_parse_state` creates are settled at
the end of the call. -/
theorem add_parse_state_settled (E : Collaborators κ) (fuel : Nat) :
    ∀ (item_set : ParseItemSet) (b : TableBuilder κ) (id : ParseStateId) (b' : TableBuilder κ),
      add_parse_state E fuel item_set b = some (id, b') →
      ∀ (i : Nat) (st : ParseState), b.parse_table.states.length ≤ i →
        b'.parse_table.states[i]? = some st → settled E b' st := by
  induction fuel with
  | zero =>
    intro item_set b id b' h i st hi hst
    simp only [add_parse_state] at h
    cases hfind : assoc_find same_items b.parse_state_ids item_set with
    | none => simp [hfind] at h
    | some id0 =>
      simp only [hfind, Option.some.injEq, Prod.mk.injEq] at h
      obtain ⟨_, rfl⟩ := h
      rw [List.getElem?_eq_none hi] at hst
      simp at hst
  | succ fuel ih =>
    intro item_set b id b' h i st hi hst
    cases hfind : assoc_find same_items b.parse_state_ids item_set with
    | some id0 =>
      simp only [add_parse_state, hfind, Option.some.injEq, Prod.mk.injEq] at h
      obtain ⟨_, rfl⟩ := h
      rw [List.getElem?_eq_none hi] at hst
      simp at hst
    | none =>
      obtain ⟨fuel', b2, hfuel, _, hshift, hassign⟩ :=
        add_parse_state_created E (fuel + 1) item_set b id b' hfind h
      have hfuel' : fuel' = fuel := by omega
      subst hfuel'
      have h1 : ShiftLoopInv E b.parse_table.states.length (record_parse_state item_set b) := by
        refine ⟨?_, ?_⟩
        · intro j sj hj hsj
          rw [record_parse_state_states, List.getElem?_eq_none (by simp; omega)] at hsj
          simp at hsj
        · intro sj hsj
          rw [record_parse_state_states] at hsj
          simp only [List.getElem?_concat_length, Option.some.injEq] at hsj
          subst hsj
          intro p hp
          simp at hp
      have h2 := add_shift_actions_loop_settled E (add_parse_state E fuel')
        (fun s c id c' hs => ⟨(add_parse_state_spec E fuel' s c id c' hs).1,
          (add_parse_state_spec E fuel' s c id c' hs).2.1, ih s c id c' hs⟩)
        b.parse_table.states.length _ _ _ (by simp [record_parse_state_states]) h1 hshift
      have h3 := add_reduce_actions_keeps_shift_loop_inv E item_set
        b.parse_table.states.length b2 h2
      unfold assign_lex_state at hassign
      simp only at hassign
      split at hassign
      · simp at hassign
      · rename_i lid c1 hcall
        simp only [Option.some.injEq] at hassign
        subst hassign
        obtain ⟨hg, hlid⟩ := add_lex_state_spec E fuel' _ _ _ _ hcall
        simp only at hst
        by_cases hin : i = b.parse_table.states.length
        · subst hin
          rw [modify_at_getElem?_eq, hg.parse_table] at hst
          cases hold : (add_reduce_actions E item_set b.parse_table.states.length
              b2).parse_table.states[b.parse_table.states.length]? with
          | none => simp [hold] at hst
          | some st0 =>
            simp only [hold, Option.map_some', Option.some.injEq] at hst
            subst hst
            have hstate : (add_reduce_actions E item_set b.parse_table.states.length
                b2).parse_table.state b.parse_table.states.length = st0 := by
              simp [ParseTable.state, List.getD_eq_getElem?_getD, hold]
            rw [hstate] at hlid
            refine ⟨hlid, ?_⟩
            show shifts_recorded c1.parse_state_ids st0
            rw [hg.parse_state_ids]
            exact h3.2 st0 hold
        · rw [modify_at_getElem?_ne _ _ _ _ (fun e => hin e.symm), hg.parse_table] at hst
          have hgt : b.parse_table.states.length < i := Nat.lt_of_le_of_ne hi (fun e => hin e.symm)
          have hs := h3.1 i st hgt hst
          refine ⟨hg.lex_state_ids _ _ hs.1, ?_⟩
          show shifts_recorded c1.parse_state_ids st
          rw [hg.parse_state_ids]
          exact hs.2

/-! ## C21: the tables are referentially closed -/

/-- C21: after `build`, every parse state has a lex state id that is
non-negative and below `|lex_table.states|`, so not the default `-1` of the
constructor, which is the id of the error state, and that is the id recorded in
`lex_state_ids` for `lex_item_set_for_parse_state` of the state with its final
actions; and every `Shift` action in the parse table has a state index below
`|parse_table.states|`. -/
theorem tables_referentially_closed (E : Collaborators κ) (fuel : Nat) (manager : κ)
    (b : TableBuilder κ) (h : build E fuel manager = some b) :
    (∀ (i : Nat) (st : ParseState), b.parse_table.states[i]? = some st →
      0 ≤ st.lex_state_id ∧ st.lex_state_id < (b.lex_table.states.length : Int) ∧
      st.lex_state_id ≠ LexTable.ERROR_STATE_ID ∧
      assoc_find same_items b.lex_state_ids (lex_item_set_for_parse_state E st) =
        some st.lex_state_id) ∧
    (∀ (i : Nat) (st : ParseState), b.parse_table.states[i]? = some st →
      ∀ p ∈ st.actions, p.2.type = ParseActionType.ParseActionTypeShift →
        p.2.state_index < b.parse_table.states.length) := by
  have hreach := build_reachable E fuel manager b h
  have hinv := reachable_lex_inv E b hreach
  have hids : b.parse_state_ids.map Prod.snd = List.range b.parse_table.states.length :=
    reachable_parse_ids E b hreach
  unfold build at h
  split at h
  · simp at h
  · rename_i id b1 hparse
    have hg := add_error_lex_state_grows E fuel b1 b h
    have hsettled : ∀ (i : Nat) (st : ParseState), b.parse_table.states[i]? = some st →
        settled E b st := by
      intro i st hst
      rw [hg.parse_table] at hst
      have hs := add_parse_state_settled E fuel _ _ id b1 hparse i st (Nat.zero_le _) hst
      refine ⟨hg.lex_state_ids _ _ hs.1, ?_⟩
      show shifts_recorded b.parse_state_ids st
      rw [hg.parse_state_ids]
      exact hs.2
    refine ⟨?_, ?_⟩
    · intro i st hst
      have hs := (hsettled i st hst).1
      obtain ⟨h0, h1⟩ := hinv.ids _ _ hs
      refine ⟨h0, (Int.toNat_lt h0).mp h1, ?_, hs⟩
      intro e
      rw [e] at h0
      simp [LexTable.ERROR_STATE_ID] at h0
    · intro i st hst p hp ht
      have hmem := (hsettled i st hst).2 p hp ht
      rw [hids, List.mem_range] at hmem
      exact hmem

/-- C21, on the small grammar: in the tables that `build` returns the start
state has a lex state id that indexes `lex_table.states`. -/
theorem tables_referentially_closed_witness :
    0 ≤ (((build Example.collaborators 3 0).getD
        { conflict_manager := 0 }).parse_table.state 0).lex_state_id ∧
      (((build Example.collaborators 3 0).getD
        { conflict_manager := 0 }).parse_table.state 0).lex_state_id <
        (((build Example.collaborators 3 0).getD
          { conflict_manager := 0 }).lex_table.states.length : Int) := by
  have h : build Example.collaborators 3 0 =
      some ((build Example.collaborators 3 0).getD { conflict_manager := 0 }) := by rfl
  have hst : ((build Example.collaborators 3 0).getD
      { conflict_manager := 0 }).parse_table.states[0]? =
      some (((build Example.collaborators 3 0).getD
        { conflict_manager := 0 }).parse_table.state 0) := by rfl
  have ht := (tables_referentially_closed Example.collaborators 3 0 _ h).1 0 _ hst
  exact ⟨ht.1, ht.2.1⟩

/-! ## Parse states: the order of creation -/

theorem visited_eq_find (m : List (ParseItemSet × ParseStateId)) (item_set : ParseItemSet) :
    visited (m.map Prod.fst) item_set = (assoc_find same_items m item_set).isSome := by
  induction m with
  | nil => rfl
  | cons p rest ih =>
    obtain ⟨k, v⟩ := p
    simp only [visited, List.map_cons, List.any_cons, assoc_find] at ih ⊢
    by_cases h : same_items k item_set = true
    · simp [h]
    · simp only [h, Bool.false_or, Bool.false_eq_true, if_false]
      exact ih

theorem install_shift_actions_loop_preorder (E : Collaborators κ)
    (add_parse_state : ParseItemSet → TableBuilder κ → Option (ParseStateId × TableBuilder κ))
    (visit : ParseItemSet → List ParseItemSet → Option (List ParseItemSet))
    (hrec : ∀ s c id c', add_parse_state s c = some (id, c') →
      visit s (c.parse_state_ids.map Prod.fst) = some (c'.parse_state_ids.map Prod.fst))
    (state_id : ParseStateId) (transitions : List (ISymbol × ParseItemSet))
    (b b' : TableBuilder κ)
    (h : install_shift_actions_loop E add_parse_state state_id transitions b = some b') :
    preorder_successors visit transitions (b.parse_state_ids.map Prod.fst) =
      some (b'.parse_state_ids.map Prod.fst) := by
  induction transitions generalizing b with
  | nil =>
    simp only [install_shift_actions_loop, Option.some.injEq] at h
    subst h
    rfl
  | cons transition rest ih =>
    simp only [install_shift_actions_loop] at h
    cases hstep : install_shift_action E add_parse_state state_id transition b with
    | none => simp [hstep] at h
    | some b1 =>
      simp only [hstep] at h
      unfold install_shift_action at hstep
      split at hstep
      · simp at hstep
      · rename_i id c hcall
        simp only [Option.some.injEq] at hstep
        have hids : b1.parse_state_ids = c.parse_state_ids := by rw [← hstep]
        rw [preorder_successors, hrec _ _ _ _ hcall]
        simp only
        rw [← hids]
        exact ih b1 h

/-- The item sets recorded by a call of `add_parse_state` are those of the
depth-first traversal in pre-order, in its order. -/
theorem add_parse_state_preorder (E : Collaborators κ)
    (hkeys : ∀ s, ((E.sym_transitions s).map Prod.fst).Nodup) (fuel : Nat) :
    ∀ (item_set : ParseItemSet) (b : TableBuilder κ) (id : ParseStateId) (b' : TableBuilder κ),
      add_parse_state E fuel item_set b = some (id, b') →
      preorder E fuel item_set (b.parse_state_ids.map Prod.fst) =
        some (b'.parse_state_ids.map Prod.fst) := by
  induction fuel with
  | zero =>
    intro item_set b id b' h
    simp only [add_parse_state] at h
    cases hfind : assoc_find same_items b.parse_state_ids item_set with
    | none => simp [hfind] at h
    | some id0 =>
      simp only [hfind, Option.some.injEq, Prod.mk.injEq] at h
      obtain ⟨_, rfl⟩ := h
      simp [preorder, visited_eq_find, hfind]
  | succ fuel ih =>
    intro item_set b id b' h
    cases hfind : assoc_find same_items b.parse_state_ids item_set with
    | some id0 =>
      simp only [add_parse_state, hfind, Option.some.injEq, Prod.mk.injEq] at h
      obtain ⟨_, rfl⟩ := h
      simp [preorder, visited_eq_find, hfind]
    | none =>
      obtain ⟨fuel', b2, hfuel, _, hshift, hassign⟩ :=
        add_parse_state_created E (fuel + 1) item_set b id b' hfind h
      have hfuel' : fuel' = fuel := by omega
      subst hfuel'
      rw [add_shift_actions_loop_install E (add_parse_state E fuel')
        (fun s c id c' hs => (add_parse_state_spec E fuel' s c id c' hs).1)
        b.parse_table.states.length _ _ (by simp [record_parse_state_states]) (hkeys item_set)
        (by
          intro t _
          have : (record_parse_state item_set b).parse_table.state
              b.parse_table.states.length = {} := by
            simp [ParseTable.state, record_parse_state_states]
          rw [this]
          rfl)] at hshift
      have hloop := install_shift_actions_loop_preorder E (add_parse_state E fuel')
        (preorder E fuel') ih _ _ _ _ hshift
      have hids : b'.parse_state_ids = b2.parse_state_ids := by
        rw [assign_lex_state_parse_state_ids E fuel' _ _ _ hassign,
          add_reduce_actions_parse_state_ids]
      rw [record_parse_state_ids item_set b hfind, List.map_append] at hloop
      simp only [preorder, visited_eq_find, hfind, Option.isSome_none, Bool.false_eq_true,
        if_false]
      rw [hids]
      exact hloop

/-! ## Lex states: the default action and the error state -/

theorem LexTable.state_modify_state (t : LexTable) (sid : LexStateId) (f : LexState → LexState)
    (h : sid < 0 ∨ sid.toNat < t.states.length) :
    (t.modify_state sid f).state sid = f (t.state sid) := by
  unfold LexTable.modify_state LexTable.state
  by_cases hs : sid < 0
  · simp [hs]
  · have hlt : sid.toNat < t.states.length := by
      rcases h with h | h
      · exact absurd h hs
      · exact h
    simp only [hs, if_false, List.getD_eq_getElem?_getD, modify_at_getElem?_eq,
      List.getElem?_eq_getElem hlt, Option.map_some', Option.getD_some]

/-- The loop of `add_accept_token_actions` changes the state of the conflict
manager and the default action of the state `sid` as `accept_token_step` says,
and leaves the actions and the token start flag of that state as they are. -/
theorem add_accept_token_actions_fold (E : Collaborators κ) (item_set : LexItemSet)
    (sid : LexStateId) (b : TableBuilder κ)
    (h : sid < 0 ∨ sid.toNat < b.lex_table.states.length) :
    ((add_accept_token_actions E item_set sid b).conflict_manager,
        ((add_accept_token_actions E item_set sid b).lex_table.state sid).default_action) =
      item_set.foldl (accept_token_step E)
        (b.conflict_manager, (b.lex_table.state sid).default_action) ∧
    ((add_accept_token_actions E item_set sid b).lex_table.state sid).actions =
      (b.lex_table.state sid).actions ∧
    ((add_accept_token_actions E item_set sid b).lex_table.state sid).is_token_start =
      (b.lex_table.state sid).is_token_start := by
  unfold add_accept_token_actions
  induction item_set generalizing b with
  | nil => exact ⟨rfl, rfl, rfl⟩
  | cons item rest ih =>
    simp only [List.foldl_cons]
    have hlen := (add_accept_token_action_writes E sid b item).lex_states
    have hstep : ((add_accept_token_action E sid b item).conflict_manager,
          ((add_accept_token_action E sid b item).lex_table.state sid).default_action) =
        accept_token_step E (b.conflict_manager, (b.lex_table.state sid).default_action) item ∧
        ((add_accept_token_action E sid b item).lex_table.state sid).actions =
          (b.lex_table.state sid).actions ∧
        ((add_accept_token_action E sid b item).lex_table.state sid).is_token_start =
          (b.lex_table.state sid).is_token_start := by
      unfold add_accept_token_action accept_token_step
      by_cases hdone : item.is_done = true
      · simp only [if_pos hdone]
        by_cases hd : (E.resolve_lex_action b.conflict_manager
            (b.lex_table.state sid).default_action (LexAction.Accept item.lhs)).1 = true
        · simp [hd, LexTable.add_default_action, LexTable.state_modify_state _ _ _ h]
        · simp [hd]
      · simp [hdone]
    obtain ⟨h1, h2, h3⟩ := ih (add_accept_token_action E sid b item) (by rw [hlen]; exact h)
    rw [h1, hstep.1, h2, hstep.2.1, h3, hstep.2.2]
    exact ⟨rfl, rfl, rfl⟩

theorem LexTable.state_error (t : LexTable) : t.state LexTable.ERROR_STATE_ID = t.error_state := by
  simp [LexTable.state, LexTable.ERROR_STATE_ID]

theorem LexTable.add_action_error (t : LexTable) (cs : CharacterSet) (a : LexAction) :
    (t.add_action LexTable.ERROR_STATE_ID cs a).states = t.states ∧
      (t.add_action LexTable.ERROR_STATE_ID cs a).error_state =
        { t.error_state with actions := assoc_assign key_eq t.error_state.actions cs a } := by
  simp [LexTable.add_action, LexTable.modify_state, LexTable.ERROR_STATE_ID]

/-- The entries that the loop of `add_advance_actions` adds to the action map
of the error state, and what it leaves as it is. -/
theorem add_advance_actions_loop_error_entries
    (add_lex_state : LexItemSet → TableBuilder κ → Option (LexStateId × TableBuilder κ))
    (hrec : ∀ s b id b', add_lex_state s b = some (id, b') →
      (LexGrows b b' ∧ LexFrame b.lex_table.states.length b b') ∧
        assoc_find same_items b'.lex_state_ids s = some id)
    (transitions : List (CharacterSet × LexItemSet)) (b b' : TableBuilder κ)
    (hkeys : (transitions.map Prod.fst).Nodup)
    (hfresh : ∀ t ∈ transitions,
      assoc_find key_eq b.lex_table.error_state.actions t.1 = none)
    (h : add_advance_actions_loop add_lex_state LexTable.ERROR_STATE_ID transitions b =
      some b') :
    (∃ entries,
      b'.lex_table.error_state =
        { b.lex_table.error_state with
          actions := b.lex_table.error_state.actions ++ entries } ∧
      List.Forall₂ (advance_entry b'.lex_state_ids) transitions entries) ∧
    ∀ i, i < b.lex_table.states.length → b'.lex_table.states[i]? = b.lex_table.states[i]? := by
  induction transitions generalizing b with
  | nil =>
    simp only [add_advance_actions_loop, Option.some.injEq] at h
    subst h
    exact ⟨⟨[], by simp, List.Forall₂.nil⟩, fun _ _ => rfl⟩
  | cons transition rest ih =>
    simp only [add_advance_actions_loop] at h
    cases hstep : add_advance_action add_lex_state LexTable.ERROR_STATE_ID transition b with
    | none => simp [hstep] at h
    | some b1 =>
      simp only [hstep] at h
      have hgrows := add_advance_actions_loop_grows add_lex_state
        (fun s b id b' hs => (hrec s b id b' hs).1.1) LexTable.ERROR_STATE_ID rest b1 b' h
      unfold add_advance_action at hstep
      simp only at hstep
      cases hcall : add_lex_state transition.2 b with
      | none => simp [hcall] at hstep
      | some r =>
        obtain ⟨id, c⟩ := r
        simp only [hcall, Option.some.injEq] at hstep
        obtain ⟨⟨hg, hf⟩, hid⟩ := hrec _ _ _ _ hcall
        have herr1 : b1.lex_table.error_state =
            { b.lex_table.error_state with
              actions := b.lex_table.error_state.actions ++
                [(transition.1, LexAction.Advance (size_t_of_int id))] } := by
          subst hstep
          simp only [(LexTable.add_action_error _ _ _).2, hf.2]
          rw [assoc_assign_of_none _ _ _ _ (hfresh transition (List.mem_cons_self _ _))]
        have hstates1 : b1.lex_table.states = c.lex_table.states := by
          subst hstep
          exact (LexTable.add_action_error _ _ _).1
        have hid1 : assoc_find same_items b1.lex_state_ids transition.2 = some id := by
          subst hstep
          exact hid
        rw [List.map_cons, List.nodup_cons] at hkeys
        obtain ⟨⟨entries, he, hall⟩, hframe⟩ := ih b1 hkeys.2 (by
          intro t ht
          rw [herr1]
          simp only
          rw [assoc_find_append_of_none _ _ _ _ (hfresh t (List.mem_cons_of_mem _ ht))]
          have hne : transition.1 ≠ t.1 := fun e =>
            hkeys.1 (e ▸ List.mem_map_of_mem Prod.fst ht)
          simp [assoc_find, key_eq, hne]) h
        refine ⟨⟨(transition.1, LexAction.Advance (size_t_of_int id)) :: entries, ?_, ?_⟩, ?_⟩
        · rw [he, herr1]
          simp
        · exact List.Forall₂.cons ⟨rfl, id, hgrows.lex_state_ids _ _ hid1, rfl⟩ hall
        · intro i hi
          have hi1 : i < b1.lex_table.states.length := by
            rw [hstates1]
            exact Nat.lt_of_lt_of_le hi hg.lex_states
          rw [hframe i hi1, hstates1]
          exact hf.1 i hi

theorem add_accept_token_actions_error_states (E : Collaborators κ) (item_set : LexItemSet)
    (b : TableBuilder κ) :
    (add_accept_token_actions E item_set LexTable.ERROR_STATE_ID b).lex_table.states =
      b.lex_table.states := by
  unfold add_accept_token_actions
  induction item_set generalizing b with
  | nil => rfl
  | cons item rest ih =>
    simp only [List.foldl_cons]
    rw [ih]
    unfold add_accept_token_action
    split
    · simp only
      split
      · simp [LexTable.add_default_action, LexTable.modify_state, LexTable.ERROR_STATE_ID]
      · rfl
    · rfl

/-- What `add_error_lex_state` leaves in the error state: one `Advance` entry
for each transition of its item set, and the default action that the loop of
`add_accept_token_actions` computes; the lex states that exist are left as
they are. -/
theorem add_error_lex_state_writes (E : Collaborators κ) (fuel : Nat) (b b' : TableBuilder κ)
    (hkeys : ((E.char_transitions (error_item_set E)).map Prod.fst).Nodup)
    (hfresh : ∀ t ∈ E.char_transitions (error_item_set E),
      assoc_find key_eq b.lex_table.error_state.actions t.1 = none)
    (h : add_error_lex_state E fuel b = some b') :
    ∃ b1 entries,
      add_advance_actions E (add_lex_state E fuel) (error_item_set E)
        LexTable.ERROR_STATE_ID b = some b1 ∧
      b' = add_accept_token_actions E (error_item_set E) LexTable.ERROR_STATE_ID b1 ∧
      List.Forall₂ (advance_entry b'.lex_state_ids) (E.char_transitions (error_item_set E))
        entries ∧
      b'.lex_table.error_state.actions = b.lex_table.error_state.actions ++ entries ∧
      (b'.conflict_manager, b'.lex_table.error_state.default_action) =
        (error_item_set E).foldl (accept_token_step E)
          (b1.conflict_manager, b.lex_table.error_state.default_action) ∧
      b'.lex_table.error_state.is_token_start = b.lex_table.error_state.is_token_start ∧
      ∀ i, i < b.lex_table.states.length → b'.lex_table.states[i]? = b.lex_table.states[i]? := by
  unfold add_error_lex_state at h
  split at h
  · simp at h
  · rename_i b1 hloop
    simp only [Option.some.injEq] at h
    subst h
    have hloop' := hloop
    unfold add_advance_actions at hloop'
    obtain ⟨⟨entries, he, hall⟩, hframe⟩ := add_advance_actions_loop_error_entries
      (add_lex_state E fuel)
      (fun s c id c' hs => ⟨⟨(add_lex_state_spec E fuel s c id c' hs).1,
        add_lex_state_frame E fuel s c id c' hs⟩, (add_lex_state_spec E fuel s c id c' hs).2⟩)
      _ _ _ hkeys hfresh hloop'
    obtain ⟨h1, h2, h3⟩ := add_accept_token_actions_fold E (error_item_set E)
      LexTable.ERROR_STATE_ID b1 (Or.inl (by decide))
    rw [LexTable.state_error, LexTable.state_error] at h1 h2 h3
    refine ⟨b1, entries, hloop, rfl, ?_, ?_, ?_, ?_, ?_⟩
    · rw [(add_accept_token_actions_writes E _ _ b1).lex_state_ids]
      exact hall
    · rw [h2, he]
    · rw [h1, he]
    · rw [h3, he]
    · intro i hi
      rw [add_accept_token_actions_error_states]
      exact hframe i hi

/-- What `add_lex_state` leaves in a state that it creates: one `Advance`
entry for each transition of the item set, and the default action that the
loop of `add_accept_token_actions` computes from `LexAction()`. -/
theorem add_lex_state_writes (E : Collaborators κ) (fuel : Nat) (item_set : LexItemSet)
    (b : TableBuilder κ) (id : LexStateId) (b' : TableBuilder κ)
    (hfind : assoc_find same_items b.lex_state_ids item_set = none)
    (hkeys : ((E.char_transitions item_set).map Prod.fst).Nodup)
    (h : add_lex_state E fuel item_set b = some (id, b')) :
    ∃ b3,
      add_advance_actions E (add_lex_state E (fuel - 1)) item_set id
        (add_token_start E item_set id (record_lex_state item_set b)) = some b3 ∧
      b' = add_accept_token_actions E item_set id b3 ∧
      List.Forall₂ (advance_entry b'.lex_state_ids) (E.char_transitions item_set)
        (b'.lex_table.state id).actions ∧
      (b'.conflict_manager, (b'.lex_table.state id).default_action) =
        item_set.foldl (accept_token_step E) (b3.conflict_manager, LexAction.default) := by
  have hentries := add_lex_state_entries E fuel item_set b id b' hfind hkeys h
  obtain ⟨fuel', b3, hfuel, hid, hloop, hb'⟩ :=
    add_lex_state_created E fuel item_set b id b' hfind h
  subst hfuel hid
  refine ⟨b3, hloop, hb', hentries, ?_⟩
  obtain ⟨h2, e2⟩ := add_token_start_at E item_set b.lex_table.states.length
    (record_lex_state item_set b)
  have hlen2 : (add_token_start E item_set ((b.lex_table.states.length : Nat) : Int)
      (record_lex_state item_set b)).lex_table.states.length =
      b.lex_table.states.length + 1 := by
    rw [h2.1.4, record_lex_state_length]
  have h3 := add_advance_actions_loop_advances (add_lex_state E fuel')
    (fun s c id c' hs => ⟨(add_lex_state_spec E fuel' s c id c' hs).1,
      add_lex_state_frame E fuel' s c id c' hs⟩)
    b.lex_table.states.length _ _ _ (by rw [hlen2]; exact Nat.lt_succ_self _) hloop
  have hlen3 : b.lex_table.states.length < b3.lex_table.states.length :=
    Nat.lt_of_lt_of_le (by rw [hlen2]; exact Nat.lt_succ_self _) h3.1.lex_states
  have hdef : (b3.lex_table.state ((b.lex_table.states.length : Nat) : Int)).default_action =
      LexAction.default := by
    have hd := h3.default_action
    rw [e2, record_lex_state_new_state] at hd
    cases hst : b3.lex_table.states[b.lex_table.states.length]? with
    | none => simp [hst] at hd
    | some st =>
      rw [hst] at hd
      simp only [Option.map_some', Option.some.injEq] at hd
      rw [LexTable.state_of_getElem? _ _ _ hst, hd]
  obtain ⟨h1, _, _⟩ := add_accept_token_actions_fold E item_set
    ((b.lex_table.states.length : Nat) : Int) b3 (Or.inr (by simpa using hlen3))
  rw [hb', h1, hdef]

/-! ## The points of a build: what is kept -/

theorem shift_call_site_kept (E : Collaborators κ) (P : TableBuilder κ → Prop)
    (hK : Kept E P) (sid : ParseStateId) (transition : ISymbol × ParseItemSet)
    (b c : TableBuilder κ) (hb : P b) (h : shift_call_site E sid transition b = some c) :
    P c := by
  unfold shift_call_site at h
  split at h
  · simp only [Option.some.injEq] at h
    subst h
    exact hb
  · simp only at h
    split at h
    · simp only [Option.some.injEq] at h
      subst h
      exact hK.manager b _ hb
    · simp at h

/-- The call that an iteration of the loop of `add_shift_actions` makes is made
on the builder that `shift_call_site` gives. -/
theorem add_shift_action_call_site (E : Collaborators κ)
    (add_parse_state : ParseItemSet → TableBuilder κ → Option (ParseStateId × TableBuilder κ))
    (sid : ParseStateId) (transition : ISymbol × ParseItemSet) (b c : TableBuilder κ)
    (h : shift_call_site E sid transition b = some c) :
    add_shift_action E add_parse_state sid transition b =
      install_shift_action E add_parse_state sid transition c := by
  unfold shift_call_site at h
  unfold add_shift_action install_shift_action
  split at h
  · rename_i hnone
    simp only [Option.some.injEq] at h
    subst h
    simp only [hnone]
  · rename_i cur hsome
    simp only at h
    split at h
    · rename_i hd
      simp only [Option.some.injEq] at h
      subst h
      simp only [hsome, hd, if_true]
    · simp at h

theorem add_advance_actions_loop_append
    (add_lex_state : LexItemSet → TableBuilder κ → Option (LexStateId × TableBuilder κ))
    (sid : LexStateId) (xs ys : List (CharacterSet × LexItemSet)) (b : TableBuilder κ) :
    add_advance_actions_loop add_lex_state sid (xs ++ ys) b =
      (add_advance_actions_loop add_lex_state sid xs b).bind
        (add_advance_actions_loop add_lex_state sid ys) := by
  induction xs generalizing b with
  | nil => rfl
  | cons x xs ih =>
    simp only [List.cons_append, add_advance_actions_loop]
    cases add_advance_action add_lex_state sid x b with
    | none => rfl
    | some b1 => exact ih b1

theorem add_shift_actions_loop_append (E : Collaborators κ)
    (add_parse_state : ParseItemSet → TableBuilder κ → Option (ParseStateId × TableBuilder κ))
    (sid : ParseStateId) (xs ys : List (ISymbol × ParseItemSet)) (b : TableBuilder κ) :
    add_shift_actions_loop E add_parse_state sid (xs ++ ys) b =
      (add_shift_actions_loop E add_parse_state sid xs b).bind
        (add_shift_actions_loop E add_parse_state sid ys) := by
  induction xs generalizing b with
  | nil => rfl
  | cons x xs ih =>
    simp only [List.cons_append, add_shift_actions_loop]
    cases add_shift_action E add_parse_state sid x b with
    | none => rfl
    | some b1 => exact ih b1

theorem lex_point_kept (E : Collaborators κ) (P : TableBuilder κ → Prop) (hK : Kept E P)
    (fuel : Nat) (item_set : LexItemSet) (b d : TableBuilder κ) (hb : P b)
    (h : LexPoint E fuel item_set b d) : P d := by
  induction h with
  | entry fuel item_set b => exact hb
  | exit fuel item_set b id b' hcall => exact hK.lex fuel item_set b id b' hb hcall
  | nested fuel item_set b earlier transition later c d hfind _ hloop _ ih =>
    exact ih (hK.advance_loop fuel _ earlier _ c
      (hK.token_start item_set _ _ (hK.record_lex item_set b hfind hb)) hloop)

theorem parse_point_kept (E : Collaborators κ) (P : TableBuilder κ → Prop) (hK : Kept E P)
    (fuel : Nat) (item_set : ParseItemSet) (b d : TableBuilder κ) (hb : P b)
    (h : ParsePoint E fuel item_set b d) : P d := by
  induction h with
  | entry fuel item_set b => exact hb
  | exit fuel item_set b id b' hcall => exact hK.parse fuel item_set b id b' hb hcall
  | shift fuel item_set b earlier transition later c c1 d hfind _ hloop hsite _ ih =>
    exact ih (shift_call_site_kept E P hK _ transition c c1
      (hK.shift_loop fuel _ earlier _ c (hK.record_parse item_set b hfind hb) hloop) hsite)
  | lex fuel item_set b b2 d hfind hshift hpoint =>
    refine lex_point_kept E P hK fuel _ _ d ?_ hpoint
    exact hK.reduce item_set _ b2
      (hK.shift_loop fuel _ _ _ b2 (hK.record_parse item_set b hfind hb) hshift)

theorem build_point_kept (E : Collaborators κ) (P : TableBuilder κ → Prop) (hK : Kept E P)
    (fuel : Nat) (manager : κ) (d : TableBuilder κ) (hnew : P { conflict_manager := manager })
    (h : BuildPoint E fuel manager d) : P d := by
  cases h with
  | parse _ hpoint => exact parse_point_kept E P hK fuel _ _ d hnew hpoint
  | error_lex id b1 earlier transition later c _ hparse _ hloop hpoint =>
    exact lex_point_kept E P hK fuel _ c d
      (hK.advance_loop fuel _ earlier b1 c (hK.parse fuel _ _ id b1 hnew hparse) hloop) hpoint
  | result _ hbuild =>
    unfold build at hbuild
    split at hbuild
    · simp at hbuild
    · rename_i id b1 hparse
      exact hK.error_lex fuel b1 d (hK.parse fuel _ _ id b1 hnew hparse) hbuild

/-- A property of the lex side that the calls of `add_parse_state` keep is kept
by the loop of `add_shift_actions`. -/
theorem add_shift_actions_loop_lex_invariant (E : Collaborators κ) (P : TableBuilder κ → Prop)
    (hP : ∀ b b' : TableBuilder κ, b'.lex_table = b.lex_table →
      b'.lex_state_ids = b.lex_state_ids → P b → P b')
    (add_parse_state : ParseItemSet → TableBuilder κ → Option (ParseStateId × TableBuilder κ))
    (hrec : ∀ s c id c', P c → add_parse_state s c = some (id, c') → P c')
    (sid : ParseStateId) (transitions : List (ISymbol × ParseItemSet)) (b b' : TableBuilder κ)
    (hb : P b) (h : add_shift_actions_loop E add_parse_state sid transitions b = some b') :
    P b' := by
  induction transitions generalizing b with
  | nil =>
    simp only [add_shift_actions_loop, Option.some.injEq] at h
    subst h
    exact hb
  | cons transition rest ih =>
    simp only [add_shift_actions_loop] at h
    cases hstep : add_shift_action E add_parse_state sid transition b with
    | none => simp [hstep] at h
    | some b1 =>
      simp only [hstep] at h
      refine ih b1 ?_ h
      have hinstall : ∀ (d d' : TableBuilder κ), P d →
          install_shift_action E add_parse_state sid transition d = some d' → P d' := by
        intro d d' hd hm
        unfold install_shift_action at hm
        cases hcall : add_parse_state transition.2 d with
        | none => simp [hcall] at hm
        | some r =>
          obtain ⟨nid, d1⟩ := r
          simp only [hcall, Option.some.injEq] at hm
          subst hm
          exact hP d1 _ rfl rfl (hrec _ _ _ _ hd hcall)
      cases hsite : shift_call_site E sid transition b with
      | some c =>
        rw [add_shift_action_call_site E add_parse_state sid transition b c hsite] at hstep
        refine hinstall c b1 ?_ hstep
        unfold shift_call_site at hsite
        split at hsite
        · simp only [Option.some.injEq] at hsite
          subst hsite
          exact hb
        · simp only at hsite
          split at hsite
          · simp only [Option.some.injEq] at hsite
            subst hsite
            exact hP b _ rfl rfl hb
          · simp at hsite
      | none =>
        unfold shift_call_site at hsite
        unfold add_shift_action at hstep
        split at hsite
        · simp at hsite
        · rename_i cur hsome
          simp only at hsite
          split at hsite
          · simp at hsite
          · rename_i hd
            simp only [hsome, hd] at hstep
            simp only [Bool.false_eq_true, if_false, Option.some.injEq] at hstep
            subst hstep
            exact hP b _ rfl rfl hb

theorem kept_lex_inv (E : Collaborators κ) : Kept E (LexInv E) where
  record_lex := fun item_set b hfind hb => LexInv.record E b hb item_set hfind
  token_start := fun item_set sid b hb => LexInv.token_start E item_set sid b hb
  advance_loop := fun fuel sid ts b b' hb h =>
    LexInv.advance_actions_loop E (add_lex_state E fuel)
      (fun s c id c' hc hs => ⟨add_lex_state_inv E fuel s c id c' hc hs,
        (add_lex_state_spec E fuel s c id c' hs).2⟩) sid ts b b' hb h
  lex := fun fuel item_set b id b' hb h => add_lex_state_inv E fuel item_set b id b' hb h
  record_parse := fun _ b _ hb => LexInv.of_lex_eq E b _ rfl rfl hb
  manager := fun b _ hb => LexInv.of_lex_eq E b _ rfl rfl hb
  shift_loop := fun fuel sid ts b b' hb h =>
    add_shift_actions_loop_lex_invariant E (LexInv E) (LexInv.of_lex_eq E)
      (add_parse_state E fuel)
      (fun s c id c' hc hs => add_parse_state_lex_invariant E (LexInv E) (LexInv.of_lex_eq E)
        (fun fuel s b id b' hb hs => add_lex_state_inv E fuel s b id b' hb hs)
        fuel s c id c' hc hs) sid ts b b' hb h
  reduce := fun item_set sid b hb =>
    LexInv.of_lex_eq E b _ (add_reduce_actions_lex E item_set sid b).1
      (add_reduce_actions_lex E item_set sid b).2 hb
  parse := fun fuel item_set b id b' hb h =>
    add_parse_state_lex_invariant E (LexInv E) (LexInv.of_lex_eq E)
      (fun fuel s b id b' hb hs => add_lex_state_inv E fuel s b id b' hb hs)
      fuel item_set b id b' hb h
  error_lex := fun fuel b b' hb h => add_error_lex_state_inv E fuel b b' hb h

theorem LexIds.of_same_lex (b b' : TableBuilder κ) (h1 : b'.lex_table = b.lex_table)
    (h2 : b'.lex_state_ids = b.lex_state_ids) (hb : LexIds b) : LexIds b' := by
  unfold LexIds at *
  rw [h1, h2]
  exact hb

theorem ParseIds.of_same_parse (b b' : TableBuilder κ) (h1 : b'.parse_table = b.parse_table)
    (h2 : b'.parse_state_ids = b.parse_state_ids) (hb : ParseIds b) : ParseIds b' := by
  unfold ParseIds at *
  rw [h1, h2]
  exact hb

theorem ParseIds.after_record_parse (item_set : ParseItemSet) (b : TableBuilder κ)
    (hb : ParseIds b) (hfind : assoc_find same_items b.parse_state_ids item_set = none) :
    ParseIds (record_parse_state item_set b) := by
  unfold ParseIds at *
  rw [record_parse_state_ids item_set b hfind, record_parse_state_states, List.map_append, hb,
    List.length_append, List.length_singleton, List.range_succ]
  rfl

theorem kept_ids (E : Collaborators κ) : Kept E (fun b => ParseIds b ∧ LexIds b) where
  record_lex := fun item_set b hfind hb =>
    ⟨ParseIds.of_same_parse b _ rfl rfl hb.1, LexIds.after_record item_set b hb.2 hfind⟩
  token_start := fun item_set sid b hb =>
    ⟨ParseIds.of_same_parse b _ (add_token_start_writes E item_set sid b).parse_table
        (add_token_start_writes E item_set sid b).parse_state_ids hb.1,
      LexIds.of_writes (add_token_start_writes E item_set sid b) hb.2⟩
  advance_loop := fun fuel sid ts b b' hb h =>
    ⟨ParseIds.of_grows ((add_advance_actions_loop_grows (add_lex_state E fuel)
        (fun s c id c' hs => (add_lex_state_spec E fuel s c id c' hs).1) sid ts b b'
        h).to_grows 0) hb.1,
      add_advance_actions_loop_keeps LexIds (add_lex_state E fuel) (add_lex_state_lex_ids E fuel)
        (fun _ _ hw hc => LexIds.of_writes hw hc) sid ts b b' hb.2 h⟩
  lex := fun fuel item_set b id b' hb h =>
    ⟨ParseIds.of_grows ((add_lex_state_spec E fuel item_set b id b' h).1.to_grows 0) hb.1,
      add_lex_state_lex_ids E fuel item_set b id b' hb.2 h⟩
  record_parse := fun item_set b hfind hb =>
    ⟨ParseIds.after_record_parse item_set b hb.1 hfind, LexIds.of_same_lex b _ rfl rfl hb.2⟩
  manager := fun b _ hb =>
    ⟨ParseIds.of_same_parse b _ rfl rfl hb.1, LexIds.of_same_lex b _ rfl rfl hb.2⟩
  shift_loop := fun fuel sid ts b b' hb h =>
    ⟨ParseIds.of_grows (add_shift_actions_loop_grows E (add_parse_state E fuel)
        (fun s c id c' hs => (add_parse_state_spec E fuel s c id c' hs).1) 0 sid
        (Nat.zero_le _) ts b b' (Nat.zero_le _) h) hb.1,
      add_shift_actions_loop_lex_invariant E LexIds LexIds.of_same_lex (add_parse_state E fuel)
        (fun s c id c' hc hs => add_parse_state_lex_invariant E LexIds LexIds.of_same_lex
          (fun fuel s b id b' hb hs => add_lex_state_lex_ids E fuel s b id b' hb hs)
          fuel s c id c' hc hs) sid ts b b' hb.2 h⟩
  reduce := fun item_set sid b hb =>
    ⟨ParseIds.of_grows (add_reduce_actions_grows E 0 sid (Nat.zero_le _) item_set b) hb.1,
      LexIds.of_same_lex b _ (add_reduce_actions_lex E item_set sid b).1
        (add_reduce_actions_lex E item_set sid b).2 hb.2⟩
  parse := fun fuel item_set b id b' hb h =>
    ⟨ParseIds.of_grows (add_parse_state_spec E fuel item_set b id b' h).1 hb.1,
      add_parse_state_lex_invariant E LexIds LexIds.of_same_lex
        (fun fuel s b id b' hb hs => add_lex_state_lex_ids E fuel s b id b' hb hs)
        fuel item_set b id b' hb.2 h⟩
  error_lex := fun fuel b b' hb h =>
    ⟨ParseIds.of_grows ((add_error_lex_state_grows E fuel b b' h).to_grows 0) hb.1,
      add_error_lex_state_lex_ids E fuel b b' hb.2 h⟩

/-! ## Symbol transitions of rules with repetitions -/

theorem repeat_matches_nonempty (r : Rule) (w : List ISymbol) (h : Matches r w) :
    ∀ x, r = Rule.Repeat x → (∀ v, Matches x v → v ≠ []) → w ≠ [] := by
  induction h with
  | blank => intro x e; cases e
  | sym s => intro x e; cases e
  | choice cs c w hc hm _ => intro x e; cases e
  | seq l r w₁ w₂ h₁ h₂ _ _ => intro x e; cases e
  | repeat_once x w hm _ =>
    intro y e hy
    cases e
    exact hy w hm
  | repeat_more x w₁ w₂ h₁ h₂ _ _ =>
    intro y e hy
    cases e
    intro hnil
    exact hy w₁ h₁ (List.append_eq_nil.mp hnil).1
  | metadata c m w hm _ => intro x e; cases e

theorem repeat_first (r : Rule) (u : List ISymbol) (h : Matches r u) :
    ∀ x k w, r = Rule.Repeat x → u = k :: w → ∃ w', Matches x (k :: w') := by
  induction h with
  | blank => intro x k w e; cases e
  | sym s => intro x k w e; cases e
  | choice cs c w hc hm _ => intro x k w' e; cases e
  | seq l r w₁ w₂ h₁ h₂ _ _ => intro x k w e; cases e
  | repeat_once x w hm _ =>
    intro y k w' e hu
    cases e
    subst hu
    exact ⟨w', hm⟩
  | repeat_more x w₁ w₂ h₁ h₂ _ ih =>
    intro y k w' e hu
    cases e
    cases w₁ with
    | nil => exact ih x k w' rfl (by simpa using hu)
    | cons a w₁ =>
      simp only [List.cons_append, List.cons.injEq] at hu
      obtain ⟨rfl, _⟩ := hu
      exact ⟨w₁, h₁⟩
  | metadata c m w hm _ => intro x k w' e; cases e

mutual
theorem nullable_matches_nil : (r : Rule) → is_nullable r = true → Matches r []
  | .Blank, _ => Matches.blank
  | .Symbol _, h => by simp [is_nullable] at h
  | .ISym _, h => by simp [is_nullable] at h
  | .Character _, h => by simp [is_nullable] at h
  | .Choice cs, h => by
    rw [is_nullable] at h
    obtain ⟨c, hc, hm⟩ := nullable_any_matches_nil cs h
    exact Matches.choice cs c [] hc hm
  | .Seq l r, h => by
    simp only [is_nullable, Bool.and_eq_true] at h
    exact Matches.seq l r [] [] (nullable_matches_nil l h.1) (nullable_matches_nil r h.2)
  | .Repeat _, h => by simp [is_nullable] at h
  | .Metadata c m, h => by
    rw [is_nullable] at h
    exact Matches.metadata c m [] (nullable_matches_nil c h)
theorem nullable_any_matches_nil : (cs : List Rule) → is_nullable_any cs = true →
    ∃ c ∈ cs, Matches c []
  | [], h => by simp [is_nullable_any] at h
  | c :: cs, h => by
    simp only [is_nullable_any, Bool.or_eq_true] at h
    rcases h with h | h
    · exact ⟨c, List.mem_cons_self _ _, nullable_matches_nil c h⟩
    · obtain ⟨c', hc', hm⟩ := nullable_any_matches_nil cs h
      exact ⟨c', List.mem_cons_of_mem _ hc', hm⟩
end

mutual
theorem proper_matches_nil : (r : Rule) → is_proper r = true → Matches r [] →
    is_nullable r = true
  | .Blank, _, _ => by simp [is_nullable]
  | .Symbol _, h, _ => by simp [is_proper] at h
  | .ISym s, _, hm => by simp [matches_sym] at hm
  | .Character _, h, _ => by simp [is_proper] at h
  | .Choice [], h, _ => by simp [is_proper] at h
  | .Choice (c :: cs), h, hm => by
    simp only [is_proper, Bool.and_eq_true] at h
    have hall : is_proper_all (c :: cs) = true := by simp [is_proper_all, h.1, h.2]
    rw [matches_choice] at hm
    rw [is_nullable]
    exact proper_matches_nil_any (c :: cs) hall hm
  | .Seq l r, h, hm => by
    simp only [is_proper, Bool.and_eq_true] at h
    rw [matches_seq] at hm
    obtain ⟨w₁, w₂, hw, h₁, h₂⟩ := hm
    have hnil := List.append_eq_nil.mp hw.symm
    rw [hnil.1] at h₁; rw [hnil.2] at h₂
    simp only [is_nullable, Bool.and_eq_true]
    exact ⟨proper_matches_nil l h.1 h₁, proper_matches_nil r h.2 h₂⟩
  | .Repeat x, h, hm => by
    simp only [is_proper, Bool.and_eq_true, Bool.not_eq_true'] at h
    exfalso
    refine repeat_matches_nonempty _ _ hm x rfl ?_ rfl
    intro v hv hnil
    subst hnil
    have hx := proper_matches_nil x h.1 hv
    rw [h.2] at hx
    cases hx
  | .Metadata c m, h, hm => by
    simp only [is_proper] at h
    rw [matches_metadata] at hm
    rw [is_nullable]
    exact proper_matches_nil c h hm
theorem proper_matches_nil_any : (cs : List Rule) → is_proper_all cs = true →
    (∃ c ∈ cs, Matches c []) → is_nullable_any cs = true
  | [], _, hm => by simp at hm
  | c :: cs, h, hm => by
    simp only [is_proper_all, Bool.and_eq_true] at h
    simp only [is_nullable_any, Bool.or_eq_true]
    obtain ⟨c', hc', hm'⟩ := hm
    rcases List.mem_cons.mp hc' with hc | hc
    · exact Or.inl (proper_matches_nil c h.1 (hc ▸ hm'))
    · exact Or.inr (proper_matches_nil_any cs h.2 ⟨c', hc, hm'⟩)
end

mutual
theorem proper_inhabited : (r : Rule) → is_proper r = true → ∃ w, Matches r w
  | .Blank, _ => ⟨[], Matches.blank⟩
  | .Symbol _, h => by simp [is_proper] at h
  | .ISym s, _ => ⟨[s], Matches.sym s⟩
  | .Character _, h => by simp [is_proper] at h
  | .Choice [], h => by simp [is_proper] at h
  | .Choice (c :: cs), h => by
    simp only [is_proper, Bool.and_eq_true] at h
    obtain ⟨w, hw⟩ := proper_inhabited c h.1
    exact ⟨w, Matches.choice _ c w (List.mem_cons_self _ _) hw⟩
  | .Seq l r, h => by
    simp only [is_proper, Bool.and_eq_true] at h
    obtain ⟨w₁, h₁⟩ := proper_inhabited l h.1
    obtain ⟨w₂, h₂⟩ := proper_inhabited r h.2
    exact ⟨w₁ ++ w₂, Matches.seq l r w₁ w₂ h₁ h₂⟩
  | .Repeat x, h => by
    simp only [is_proper, Bool.and_eq_true] at h
    obtain ⟨w, hw⟩ := proper_inhabited x h.1
    exact ⟨w, Matches.repeat_once x w hw⟩
  | .Metadata c m, h => by
    simp only [is_proper] at h
    obtain ⟨w, hw⟩ := proper_inhabited c h
    exact ⟨w, Matches.metadata c m w hw⟩
end

theorem merge_sym_transition_mem_keys (left : List (ISymbol × Rule)) (k0 k : ISymbol)
    (r : Rule) :
    k ∈ (merge_sym_transition left k0 r).map Prod.fst ↔ k ∈ left.map Prod.fst ∨ k = k0 := by
  rw [merge_sym_transition_keys]
  split
  · rename_i h
    constructor
    · exact Or.inl
    · rintro (h' | rfl)
      · exact h'
      · exact h
  · simp

theorem merge_sym_transitions_mem_keys (left right : List (ISymbol × Rule)) (k : ISymbol) :
    k ∈ (merge_sym_transitions left right).map Prod.fst ↔
      k ∈ left.map Prod.fst ∨ k ∈ right.map Prod.fst := by
  unfold merge_sym_transitions
  induction right generalizing left with
  | nil => simp
  | cons p rest ih =>
    simp only [List.foldl_cons, List.map_cons, List.mem_cons]
    rw [ih, merge_sym_transition_mem_keys]
    constructor
    · rintro ((h | h) | h)
      · exact Or.inl h
      · exact Or.inr (Or.inl h)
      · exact Or.inr (Or.inr h)
    · rintro (h | h | h)
      · exact Or.inl (Or.inl h)
      · exact Or.inl (Or.inr h)
      · exact Or.inr h

mutual
theorem proper_first : (r : Rule) → is_proper r = true → ∀ k : ISymbol,
    (k ∈ (sym_transitions r).map Prod.fst ↔ ∃ w, Matches r (k :: w))
  | .Blank, _, k => by simp [sym_transitions, matches_blank]
  | .Symbol _, h, _ => by simp [is_proper] at h
  | .ISym s, _, k => by
    simp only [sym_transitions, List.map_cons, List.map_nil, List.mem_singleton, matches_sym,
      List.cons.injEq]
    constructor
    · rintro rfl; exact ⟨[], rfl, rfl⟩
    · rintro ⟨w, h, _⟩; exact h
  | .Character _, h, _ => by simp [is_proper] at h
  | .Choice [], h, _ => by simp [is_proper] at h
  | .Choice (c :: cs), h, k => by
    simp only [is_proper, Bool.and_eq_true] at h
    have hall : is_proper_all (c :: cs) = true := by simp [is_proper_all, h.1, h.2]
    rw [sym_transitions, proper_first_choice (c :: cs) hall [] k]
    simp only [List.map_nil, List.not_mem_nil, false_or, matches_choice]
    constructor
    · rintro ⟨c', hc', w, hw⟩; exact ⟨w, c', hc', hw⟩
    · rintro ⟨w, c', hc', hw⟩; exact ⟨c', hc', w, hw⟩
  | .Seq l r, h, k => by
    simp only [is_proper, Bool.and_eq_true] at h
    have hl := proper_first l h.1 k
    have hr := proper_first r h.2 k
    obtain ⟨wr, hwr⟩ := proper_inhabited r h.2
    have hfirst : (∃ w, Matches (Rule.Seq l r) (k :: w)) ↔
        (∃ w, Matches l (k :: w)) ∨ (Matches l [] ∧ ∃ w, Matches r (k :: w)) := by
      constructor
      · rintro ⟨w, hw⟩
        rcases (matches_cons_seq l r k w).mp hw with ⟨w₁, w₂, _, h₁, _⟩ | ⟨h₁, h₂⟩
        · exact Or.inl ⟨w₁, h₁⟩
        · exact Or.inr ⟨h₁, w, h₂⟩
      · rintro (⟨w, hw⟩ | ⟨h₁, w, hw⟩)
        · exact ⟨w ++ wr, (matches_cons_seq l r k _).mpr (Or.inl ⟨w, wr, rfl, hw, hwr⟩)⟩
        · exact ⟨w, (matches_cons_seq l r k w).mpr (Or.inr ⟨h₁, hw⟩)⟩
    rw [hfirst, sym_transitions]
    by_cases hnull : is_nullable l = true
    · simp only [hnull, if_true]
      rw [merge_sym_transitions_mem_keys, map_value_keys (fun p => Seq.Build [p.2, r]), hl, hr]
      have hl0 := nullable_matches_nil l hnull
      constructor
      · rintro (h' | h')
        · exact Or.inl h'
        · exact Or.inr ⟨hl0, h'⟩
      · rintro (h' | ⟨_, h'⟩)
        · exact Or.inl h'
        · exact Or.inr h'
    · simp only [hnull]
      rw [if_neg (by simp), map_value_keys (fun p => Seq.Build [p.2, r]), hl]
      have hl0 : ¬ Matches l [] := fun e => hnull (proper_matches_nil l h.1 e)
      constructor
      · exact Or.inl
      · rintro (h' | ⟨h₁, _⟩)
        · exact h'
        · exact absurd h₁ hl0
  | .Repeat x, h, k => by
    simp only [is_proper, Bool.and_eq_true] at h
    rw [sym_transitions, map_value_keys
      (fun p => if p.2 = .Blank then .Repeat x else Seq.Build [p.2, .Repeat x]),
      proper_first x h.1 k]
    constructor
    · rintro ⟨w, hw⟩; exact ⟨w, Matches.repeat_once x _ hw⟩
    · rintro ⟨w, hw⟩; exact repeat_first _ _ hw x k w rfl rfl
  | .Metadata c m, h, k => by
    simp only [is_proper] at h
    rw [sym_transitions, map_value_keys (fun p => Rule.Metadata p.2 m), proper_first c h k]
    simp only [matches_metadata]
theorem proper_first_choice : (cs : List Rule) → is_proper_all cs = true →
    ∀ (acc : List (ISymbol × Rule)) (k : ISymbol),
    (k ∈ (sym_transitions_choice acc cs).map Prod.fst ↔
      k ∈ acc.map Prod.fst ∨ ∃ c ∈ cs, ∃ w, Matches c (k :: w))
  | [], _, acc, k => by simp [sym_transitions_choice]
  | c :: cs, h, acc, k => by
    simp only [is_proper_all, Bool.and_eq_true] at h
    rw [sym_transitions_choice, proper_first_choice cs h.2, merge_sym_transitions_mem_keys,
      proper_first c h.1 k]
    simp only [List.mem_cons, exists_eq_or_imp]
    exact or_assoc
end

mutual
theorem sound_derivative : (r : Rule) → ∀ (k : ISymbol) (w : List ISymbol),
    (∃ r', (k, r') ∈ sym_transitions r ∧ Matches r' w) → Matches r (k :: w)
  | .Blank, k, w => by simp [sym_transitions]
  | .Symbol _, k, w => by simp [sym_transitions]
  | .ISym s, k, w => by
    rintro ⟨r', hmem, hm⟩
    simp only [sym_transitions, List.mem_singleton, Prod.mk.injEq] at hmem
    obtain ⟨rfl, rfl⟩ := hmem
    rw [(matches_blank w).mp hm]
    exact Matches.sym _
  | .Character _, k, w => by simp [sym_transitions]
  | .Choice cs, k, w => by
    intro h
    rw [sym_transitions] at h
    rcases sound_derivative_choice cs [] k w h with ⟨r', hmem, _⟩ | ⟨c, hc, hm⟩
    · simp at hmem
    · exact Matches.choice cs c _ hc hm
  | .Seq l r, k, w => by
    intro h
    rw [sym_transitions] at h
    rw [matches_cons_seq]
    have hmap : (∃ r', (k, r') ∈ (sym_transitions l).map (fun p => (p.1, Seq.Build [p.2, r])) ∧
        Matches r' w) → ∃ w₁ w₂, w = w₁ ++ w₂ ∧ Matches l (k :: w₁) ∧ Matches r w₂ := by
      intro h'
      obtain ⟨w₁, w₂, hw, h₁, h₂⟩ := (map_seq_build_matches _ r k w).mp h'
      exact ⟨w₁, w₂, hw, sound_derivative l k w₁ h₁, h₂⟩
    by_cases hnull : is_nullable l = true
    · simp only [hnull, if_true] at h
      rcases (merge_sym_transitions_matches _ _ k w).mp h with h' | h'
      · exact Or.inl (hmap h')
      · exact Or.inr ⟨nullable_matches_nil l hnull, sound_derivative r k w h'⟩
    · simp only [hnull] at h
      rw [if_neg (by simp)] at h
      exact Or.inl (hmap h)
  | .Repeat x, k, w => by
    rintro ⟨r', hmem, hm⟩
    rw [sym_transitions] at hmem
    obtain ⟨⟨pk, pr⟩, hp, he⟩ := List.mem_map.mp hmem
    simp only [Prod.mk.injEq] at he
    obtain ⟨hk, hr⟩ := he
    subst hk
    by_cases hb : pr = Rule.Blank
    · rw [if_pos hb] at hr
      subst hr
      subst hb
      have hx : Matches x [pk] := sound_derivative x pk [] ⟨Rule.Blank, hp, Matches.blank⟩
      exact Matches.repeat_more x [pk] w hx hm
    · rw [if_neg hb] at hr
      subst hr
      obtain ⟨w₁, w₂, hw, h₁, h₂⟩ := (matches_seq_build _ _ _).mp hm
      subst hw
      have hx : Matches x (pk :: w₁) := sound_derivative x pk w₁ ⟨pr, hp, h₁⟩
      exact Matches.repeat_more x (pk :: w₁) w₂ hx h₂
  | .Metadata c m, k, w => by
    rintro ⟨r', hmem, hm⟩
    rw [sym_transitions] at hmem
    obtain ⟨p, hp, he⟩ := List.mem_map.mp hmem
    simp only [Prod.mk.injEq] at he
    obtain ⟨rfl, rfl⟩ := he
    exact Matches.metadata c m _
      (sound_derivative c p.1 w ⟨p.2, hp, (matches_metadata _ _ _).mp hm⟩)
theorem sound_derivative_choice : (cs : List Rule) →
    ∀ (acc : List (ISymbol × Rule)) (k : ISymbol) (w : List ISymbol),
    (∃ r', (k, r') ∈ sym_transitions_choice acc cs ∧ Matches r' w) →
      (∃ r', (k, r') ∈ acc ∧ Matches r' w) ∨ ∃ c ∈ cs, Matches c (k :: w)
  | [], acc, k, w => by simp [sym_transitions_choice]
  | c :: cs, acc, k, w => by
    intro h
    rw [sym_transitions_choice] at h
    rcases sound_derivative_choice cs _ k w h with h' | ⟨c', hc', hm⟩
    · rcases (merge_sym_transitions_matches _ _ k w).mp h' with h'' | h''
      · exact Or.inl h''
      · exact Or.inr ⟨c, List.mem_cons_self _ _, sound_derivative c k w h''⟩
    · exact Or.inr ⟨c', List.mem_cons_of_mem _ hc', hm⟩
end

/-- C6: the item set of `add_error_lex_state` holds exactly the items
`LexItem(ISymbol(i, Token), after_separators(rules[i].rule))` of the rules of the
lexical grammar, the items
`LexItem(ISymbol(i, Token|Auxiliary), after_separators(aux_rules[i].rule))` of
its auxiliary rules, and `LexItem(END_OF_INPUT, after_separators(CharacterSet({0})))`.
When `add_error_lex_state` returns (the keys of the transitions of that item set
being distinct and not yet keys of the error state), it has run
`add_advance_actions` and then `add_accept_token_actions` on that item set with
the id `ERROR_STATE_ID = -1`, and `error_state` holds the result: its action map
has got one entry `cs ↦ Advance(lex_state_ids[successor])` for each transition
`(cs, successor)`, its default action is the one that the loop over the done
items computes with `resolve_lex_action`, and the lex states that existed are
as they were. A new state of `add_lex_state` gets its actions and its default
action from the same two methods, in the same way. A write of an action or of a
default action under `ERROR_STATE_ID` goes to `error_state` and leaves `states`
as it is. -/
theorem error_lex_state_item_set (E : Collaborators κ) :
    (∀ x, x ∈ error_item_set E ↔
      (∃ (i : Nat) (rule : String × Rule), E.lex_grammar.rules[i]? = some rule ∧
        x = ⟨⟨(i : Int), SymbolOptionToken⟩, after_separators rule.2⟩) ∨
      (∃ (i : Nat) (rule : String × Rule), E.lex_grammar.aux_rules[i]? = some rule ∧
        x = ⟨⟨(i : Int), SymbolOptionToken.or SymbolOptionAuxiliary⟩,
          after_separators rule.2⟩) ∨
      x = ⟨E.END_OF_INPUT, after_separators (Rule.Character {0})⟩) ∧
    (∀ (fuel : Nat) (b b' : TableBuilder κ),
      ((E.char_transitions (error_item_set E)).map Prod.fst).Nodup →
      (∀ t ∈ E.char_transitions (error_item_set E),
        assoc_find key_eq b.lex_table.error_state.actions t.1 = none) →
      add_error_lex_state E fuel b = some b' →
      ∃ b1 entries,
        add_advance_actions E (add_lex_state E fuel) (error_item_set E)
          LexTable.ERROR_STATE_ID b = some b1 ∧
        b' = add_accept_token_actions E (error_item_set E) LexTable.ERROR_STATE_ID b1 ∧
        List.Forall₂ (advance_entry b'.lex_state_ids)
          (E.char_transitions (error_item_set E)) entries ∧
        b'.lex_table.error_state.actions = b.lex_table.error_state.actions ++ entries ∧
        (b'.conflict_manager, b'.lex_table.error_state.default_action) =
          (error_item_set E).foldl (accept_token_step E)
            (b1.conflict_manager, b.lex_table.error_state.default_action) ∧
        b'.lex_table.error_state.is_token_start =
          b.lex_table.error_state.is_token_start ∧
        ∀ i, i < b.lex_table.states.length →
          b'.lex_table.states[i]? = b.lex_table.states[i]?) ∧
    (∀ (fuel : Nat) (item_set : LexItemSet) (b : TableBuilder κ) (id : LexStateId)
        (b' : TableBuilder κ),
      assoc_find same_items b.lex_state_ids item_set = none →
      ((E.char_transitions item_set).map Prod.fst).Nodup →
      add_lex_state E fuel item_set b = some (id, b') →
      ∃ b3,
        add_advance_actions E (add_lex_state E (fuel - 1)) item_set id
          (add_token_start E item_set id (record_lex_state item_set b)) = some b3 ∧
        b' = add_accept_token_actions E item_set id b3 ∧
        List.Forall₂ (advance_entry b'.lex_state_ids) (E.char_transitions item_set)
          (b'.lex_table.state id).actions ∧
        (b'.conflict_manager, (b'.lex_table.state id).default_action) =
          item_set.foldl (accept_token_step E) (b3.conflict_manager, LexAction.default)) ∧
    (∀ fuel b, add_error_lex_state E fuel b =
      (add_advance_actions E (add_lex_state E fuel) (error_item_set E)
        LexTable.ERROR_STATE_ID b).map
        (add_accept_token_actions E (error_item_set E) LexTable.ERROR_STATE_ID)) ∧
    (∀ fuel item_set b, assoc_find same_items b.lex_state_ids item_set = none →
      add_lex_state E (fuel + 1) item_set b =
        (add_advance_actions E (add_lex_state E fuel) item_set b.lex_table.add_state.1
          (add_token_start E item_set b.lex_table.add_state.1
            { b with
              lex_table := b.lex_table.add_state.2,
              lex_state_ids := assoc_assign same_items b.lex_state_ids item_set
                b.lex_table.add_state.1 })).map
          (fun b3 => (b.lex_table.add_state.1,
            add_accept_token_actions E item_set b.lex_table.add_state.1 b3))) ∧
    LexTable.ERROR_STATE_ID = -1 ∧
    (∀ (t : LexTable) (cs : CharacterSet) (a : LexAction),
      (t.add_action LexTable.ERROR_STATE_ID cs a).states = t.states ∧
      (t.add_action LexTable.ERROR_STATE_ID cs a).error_state =
        { t.error_state with actions := assoc_assign key_eq t.error_state.actions cs a }) ∧
    (∀ (t : LexTable) (a : LexAction),
      (t.add_default_action LexTable.ERROR_STATE_ID a).states = t.states ∧
      (t.add_default_action LexTable.ERROR_STATE_ID a).error_state =
        { t.error_state with default_action := a }) := by
  refine ⟨?_, fun fuel b b' hkeys hfresh h => add_error_lex_state_writes E fuel b b' hkeys hfresh h,
    fun fuel item_set b id b' hfind hkeys h =>
      add_lex_state_writes E fuel item_set b id b' hfind hkeys h, ?_, ?_, rfl, ?_, ?_⟩
  · intro x
    unfold error_item_set
    simp only [mem_set_insert, mem_add_error_items, List.not_mem_nil, false_or, Nat.zero_add]
    constructor
    · rintro (h | h | h)
      · exact Or.inr (Or.inr h)
      · exact Or.inl h
      · exact Or.inr (Or.inl h)
    · rintro (h | h | h)
      · exact Or.inr (Or.inl h)
      · exact Or.inr (Or.inr h)
      · exact Or.inl h
  · intro fuel b
    unfold add_error_lex_state
    split <;> simp_all
  · intro fuel item_set b h
    simp only [add_lex_state, h]
    split <;> simp_all
  · intro t cs a
    simp [LexTable.add_action, LexTable.modify_state, LexTable.ERROR_STATE_ID]
  · intro t a
    simp [LexTable.add_default_action, LexTable.modify_state, LexTable.ERROR_STATE_ID]

/-- C6, on the small grammar: `add_error_lex_state` on the new builder returns,
and the action map of the error state then holds the `Advance` entries of the
transitions of the error item set, one of them at least. -/
theorem error_lex_state_item_set_witness :
    List.Forall₂
      (advance_entry ((add_error_lex_state Example.collaborators 4
        { conflict_manager := 0 }).getD { conflict_manager := 0 }).lex_state_ids)
      (Example.collaborators.char_transitions (error_item_set Example.collaborators))
      ((add_error_lex_state Example.collaborators 4
        { conflict_manager := 0 }).getD { conflict_manager := 0 }).lex_table.error_state.actions ∧
    ((add_error_lex_state Example.collaborators 4
        { conflict_manager := 0 }).getD { conflict_manager := 0 }).lex_table.error_state.actions ≠
      [] := by
  have h : add_error_lex_state Example.collaborators 4 { conflict_manager := 0 } =
      some ((add_error_lex_state Example.collaborators 4
        { conflict_manager := 0 }).getD { conflict_manager := 0 }) := by rfl
  obtain ⟨b1, entries, _, _, hall, hactions, _⟩ :=
    (error_lex_state_item_set Example.collaborators).2.1 4 { conflict_manager := 0 } _
      (by decide) (fun _ _ => rfl) h
  refine ⟨?_, by decide⟩
  rw [hactions]
  exact hall

/-! ## C7: parse state ids in depth-first pre-order -/

/-- C7: parse state ids are given in depth-first pre-order. When the item set
has no entry in `parse_state_ids`, the id that `add_parse_state` returns is the
number of parse states before the call, the call appends the entry of the item
set to `parse_state_ids`, every entry appended after it during the call has a
strictly larger id, and the ids appended during the call are, in the order in
which the states are created, the consecutive numbers from the returned id on;
when `build` returns, the closure of the start item has id 0. The order of
creation is that of the depth-first traversal in pre-order that visits the
successors of an item set in the iteration order of `sym_transitions` (whose
keys are distinct): the item sets of `parse_state_ids` after a call of
`add_parse_state` are, in order, those that `preorder` lists from the ones
recorded before, and after `build` the entry number `i` of `parse_state_ids` is
the `i`-th item set of `preorder` from the start item set, with the id `i`. -/
theorem parse_state_ids_preorder (E : Collaborators κ) :
    (∀ (fuel : Nat) (item_set : ParseItemSet) (b b' : TableBuilder κ) (id : ParseStateId),
      assoc_find same_items b.parse_state_ids item_set = none →
      add_parse_state E fuel item_set b = some (id, b') →
      id = b.parse_table.states.length ∧
      ∃ added, b'.parse_state_ids = b.parse_state_ids ++ (item_set, id) :: added ∧
        (∀ p ∈ added, id < p.2) ∧
        ((item_set, id) :: added).map Prod.snd =
          List.range' id (b'.parse_table.states.length - b.parse_table.states.length)) ∧
    (∀ (fuel : Nat) (manager : κ) (b : TableBuilder κ), build E fuel manager = some b →
      assoc_find same_items b.parse_state_ids (start_item_set E) = some 0 ∧
      b.parse_state_ids.head? = some (start_item_set E, 0) ∧
      b.parse_state_ids.map Prod.snd = List.range b.parse_table.states.length) ∧
    ((∀ s, ((E.sym_transitions s).map Prod.fst).Nodup) →
      (∀ (fuel : Nat) (item_set : ParseItemSet) (b b' : TableBuilder κ) (id : ParseStateId),
        add_parse_state E fuel item_set b = some (id, b') →
        preorder E fuel item_set (b.parse_state_ids.map Prod.fst) =
          some (b'.parse_state_ids.map Prod.fst)) ∧
      (∀ (fuel : Nat) (manager : κ) (b : TableBuilder κ), build E fuel manager = some b →
        ∃ order, preorder E fuel (start_item_set E) [] = some order ∧
          b.parse_state_ids = order.zip (List.range order.length))) := by
  refine ⟨?_, ?_, ?_⟩
  · intro fuel item_set b b' id hnone h
    exact (add_parse_state_spec E fuel item_set b id b' h).2.2 hnone
  · intro fuel manager b h
    unfold build at h
    split at h
    · simp at h
    · rename_i id b1 hcall
      obtain ⟨_, hfind, hnew⟩ := add_parse_state_spec E fuel _ _ _ _ hcall
      obtain ⟨hid, added, hadd, _, hrange⟩ := hnew rfl
      have hg := add_error_lex_state_grows E fuel b1 b h
      have hid0 : id = 0 := hid
      subst hid0
      rw [hg.parse_state_ids, hg.parse_table]
      refine ⟨hfind, by rw [hadd]; rfl, ?_⟩
      rw [hadd, List.nil_append, hrange, List.range_eq_range']
      rfl
  · intro hkeys
    refine ⟨fun fuel item_set b b' id h => add_parse_state_preorder E hkeys fuel item_set b id b' h,
      ?_⟩
    intro fuel manager b h
    have hids : b.parse_state_ids.map Prod.snd = List.range b.parse_table.states.length :=
      reachable_parse_ids E b (build_reachable E fuel manager b h)
    unfold build at h
    split at h
    · simp at h
    · rename_i id b1 hcall
      have hg := add_error_lex_state_grows E fuel b1 b h
      have hpre := add_parse_state_preorder E hkeys fuel _ _ id b1 hcall
      rw [← hg.parse_state_ids] at hpre
      refine ⟨_, hpre, ?_⟩
      have hlen : (b.parse_state_ids.map Prod.fst).length = b.parse_table.states.length := by
        have := congrArg List.length hids
        simpa using this
      rw [hlen, ← hids]
      exact (List.zip_unzip b.parse_state_ids).symm.trans (by rw [List.unzip_eq_map])

/-- C7, on the small grammar, whose start item set has the successors under `S`
and under `A`, in this order: the traversal lists the start item set, then the
successor under `S`, then the successor under `A`, and `build` gives them the
ids 0, 1 and 2. -/
theorem parse_state_ids_preorder_witness :
    Example.collaborators.sym_transitions [Example.item0, Example.itemS0] =
        [(Example.symS, [Example.item1]), (Example.tokenA, [Example.itemS1])] ∧
      preorder Example.collaborators 3 (start_item_set Example.collaborators) [] =
        some [[Example.item0, Example.itemS0], [Example.item1], [Example.itemS1]] ∧
      ((build Example.collaborators 3 0).getD { conflict_manager := 0 }).parse_state_ids =
        [([Example.item0, Example.itemS0], 0), ([Example.item1], 1),
          ([Example.itemS1], 2)] := by
  have h : build Example.collaborators 3 0 =
      some ((build Example.collaborators 3 0).getD { conflict_manager := 0 }) := by rfl
  have hkeys : ∀ s, ((Example.collaborators.sym_transitions s).map Prod.fst).Nodup := by
    intro s
    simp only [Example.collaborators]
    split <;> decide
  obtain ⟨order, horder, hids⟩ :=
    ((parse_state_ids_preorder Example.collaborators).2.2 hkeys).2 3 0 _ h
  have hdec : preorder Example.collaborators 3 (start_item_set Example.collaborators) [] =
      some [[Example.item0, Example.itemS0], [Example.item1], [Example.itemS1]] := by decide
  rw [hdec, Option.some.injEq] at horder
  subst horder
  exact ⟨by decide, hdec, hids⟩

/-! ## C13: symbol transitions and first symbols -/

/-- C20: when the lex item set `item_set` has no id yet and
`add_lex_state item_set` returns `id`, on whatever builder, the action map of
the lex state `id` has one entry for each transition `(cs, successor)` of
`char_transitions(item_set)` (whose keys are distinct), with key `cs` and
action `Advance(lex_state_ids[successor])`. On every builder at the entry or at
the return of a call of `add_parse_state` or of `add_lex_state` during `build`,
the nested calls included, on the builder that `build` returns, and on every
builder reached from a new one by calls of these methods: every action in the
action map of a lex state, and of the error state, is an `Advance` whose state
index is an index into `lex_table.states` and comes from a non-negative id, not
from `ERROR_STATE_ID`; and the default action of a lex state is `Error` or
`Accept(lhs)` for a done item of the item set of that state (for the error
state, of the item set that `add_error_lex_state` builds). This invariant holds
of a new builder and every call of `add_lex_state`, of `add_parse_state` and of
`add_error_lex_state` keeps it, from whatever builder that has it. -/
theorem lex_state_actions (E : Collaborators κ) :
    (∀ (fuel : Nat) (item_set : LexItemSet) (b : TableBuilder κ) (id : LexStateId)
        (b' : TableBuilder κ),
      assoc_find same_items b.lex_state_ids item_set = none →
      ((E.char_transitions item_set).map Prod.fst).Nodup →
      add_lex_state E fuel item_set b = some (id, b') →
      List.Forall₂ (advance_entry b'.lex_state_ids) (E.char_transitions item_set)
        (b'.lex_table.state id).actions) ∧
    (∀ b : TableBuilder κ,
      (Reachable E b ∨ ∃ fuel manager, BuildPoint E fuel manager b) →
      (∀ (i : Nat) (st : LexState), b.lex_table.states[i]? = some st →
        ∀ p ∈ st.actions,
          p.2.type = LexActionType.LexActionTypeAdvance ∧
          p.2.state_index < b.lex_table.states.length ∧
          ∃ target : LexStateId, 0 ≤ target ∧ target ≠ LexTable.ERROR_STATE_ID ∧
            p.2 = LexAction.Advance (size_t_of_int target)) ∧
      (∀ p ∈ b.lex_table.error_state.actions,
          p.2.type = LexActionType.LexActionTypeAdvance ∧
          p.2.state_index < b.lex_table.states.length ∧
          ∃ target : LexStateId, 0 ≤ target ∧ target ≠ LexTable.ERROR_STATE_ID ∧
            p.2 = LexAction.Advance (size_t_of_int target)) ∧
      (∀ (i : Nat) (st : LexState), b.lex_table.states[i]? = some st →
        st.default_action = LexAction.Error ∨
          ∃ s, assoc_find same_items b.lex_state_ids s = some (i : Int) ∧
            ∃ item ∈ s, item.is_done = true ∧
              st.default_action = LexAction.Accept item.lhs) ∧
      (b.lex_table.error_state.default_action = LexAction.Error ∨
        ∃ item ∈ error_item_set E, item.is_done = true ∧
          b.lex_table.error_state.default_action = LexAction.Accept item.lhs)) ∧
    (∀ manager : κ, LexInv E { conflict_manager := manager }) ∧
    (∀ b : TableBuilder κ, LexInv E b →
      (∀ fuel item_set id b', add_lex_state E fuel item_set b = some (id, b') → LexInv E b') ∧
      (∀ fuel item_set id b', add_parse_state E fuel item_set b = some (id, b') →
        LexInv E b') ∧
      (∀ fuel b', add_error_lex_state E fuel b = some b' → LexInv E b')) := by
  have hK := kept_lex_inv E
  refine ⟨fun fuel item_set b id b' hfind hkeys h =>
      add_lex_state_entries E fuel item_set b id b' hfind hkeys h,
    ?_, fun manager => LexInv.new_builder E manager, fun b hb =>
    ⟨fun fuel item_set id b' h => hK.lex fuel item_set b id b' hb h,
      fun fuel item_set id b' h => hK.parse fuel item_set b id b' hb h,
      fun fuel b' h => hK.error_lex fuel b b' hb h⟩⟩
  intro b hb
  have hinv : LexInv E b := by
    rcases hb with hb | ⟨fuel, manager, hb⟩
    · exact reachable_lex_inv E b hb
    · exact build_point_kept E _ hK fuel manager b (LexInv.new_builder E manager) hb
  exact ⟨fun i st hst p hp => valid_lex_actions_index _ _ (hinv.actions i st hst) p hp,
    fun p hp => valid_lex_actions_index _ _ hinv.error_actions p hp,
    hinv.default_action, hinv.error_default⟩

/-- C20, on the small grammar: on the new builder the lex item set of the
token `A` has no id, the keys of its transitions are distinct, and after
`add_lex_state` the actions of its state are the `Advance` actions of these
transitions; and in the builder that `build` returns the default action of the
error state is `Error` or accepts a done item. -/
theorem lex_state_actions_witness :
    List.Forall₂
      (advance_entry ((add_lex_state Example.collaborators 4 [Example.lex_itemA]
        { conflict_manager := 0 }).getD (0, { conflict_manager := 0 })).2.lex_state_ids)
      (Example.collaborators.char_transitions [Example.lex_itemA])
      (((add_lex_state Example.collaborators 4 [Example.lex_itemA]
        { conflict_manager := 0 }).getD (0, { conflict_manager := 0 })).2.lex_table.state
        ((add_lex_state Example.collaborators 4 [Example.lex_itemA]
          { conflict_manager := 0 }).getD (0, { conflict_manager := 0 })).1).actions ∧
    (((build Example.collaborators 3 0).getD
        { conflict_manager := 0 }).lex_table.error_state.default_action = LexAction.Error ∨
      ∃ item ∈ error_item_set Example.collaborators, item.is_done = true ∧
        ((build Example.collaborators 3 0).getD
          { conflict_manager := 0 }).lex_table.error_state.default_action =
          LexAction.Accept item.lhs) := by
  have h : add_lex_state Example.collaborators 4 [Example.lex_itemA] { conflict_manager := 0 } =
      some ((add_lex_state Example.collaborators 4 [Example.lex_itemA]
        { conflict_manager := 0 }).getD (0, { conflict_manager := 0 })) := by rfl
  have hb : build Example.collaborators 3 0 =
      some ((build Example.collaborators 3 0).getD { conflict_manager := 0 }) := by rfl
  exact ⟨(lex_state_actions Example.collaborators).1 4 [Example.lex_itemA]
      { conflict_manager := 0 } _ _ rfl (by decide) h,
    ((lex_state_actions Example.collaborators).2.1 _
      (Or.inr ⟨3, 0, BuildPoint.result _ hb⟩)).2.2.2⟩

/-! ## C22: state interning is a bijection -/

/-- C22: state interning is a bijection at every point of the build. On every
builder at the entry or at the return of a call of `add_parse_state` or of
`add_lex_state` during `build`, the nested calls included, on the builder that
`build` returns, and on every builder reached from a new one by calls of these
methods, the ids of `parse_state_ids` are `0, …, |parse_table.states| - 1`,
each once: no id occurs twice, an id is a value of the map exactly when it is
below `|parse_table.states|`, two entries with the same id are the same entry,
and two item sets that look up the same id hold the same items; the same holds
of `lex_state_ids` and `lex_table.states`, whose ids are non-negative. The
property holds of a new builder and every call of `add_parse_state`, of
`add_lex_state` and of `add_error_lex_state` keeps it, from whatever builder
that has it. -/
theorem interning_bijective (E : Collaborators κ) :
    (∀ b : TableBuilder κ,
      (Reachable E b ∨ ∃ fuel manager, BuildPoint E fuel manager b) →
      (b.parse_state_ids.map Prod.snd = List.range b.parse_table.states.length ∧
        (b.parse_state_ids.map Prod.snd).Nodup ∧
        (∀ id, id ∈ b.parse_state_ids.map Prod.snd ↔ id < b.parse_table.states.length) ∧
        (∀ s s' id, (s, id) ∈ b.parse_state_ids → (s', id) ∈ b.parse_state_ids → s = s') ∧
        (∀ s s' id, assoc_find same_items b.parse_state_ids s = some id →
          assoc_find same_items b.parse_state_ids s' = some id → same_items s s' = true)) ∧
      (b.lex_state_ids.map Prod.snd =
          (List.range b.lex_table.states.length).map (fun i : Nat => (i : Int)) ∧
        (b.lex_state_ids.map Prod.snd).Nodup ∧
        (∀ id : LexStateId, id ∈ b.lex_state_ids.map Prod.snd ↔
          0 ≤ id ∧ id < (b.lex_table.states.length : Int)) ∧
        (∀ s s' id, (s, id) ∈ b.lex_state_ids → (s', id) ∈ b.lex_state_ids → s = s') ∧
        (∀ s s' id, assoc_find same_items b.lex_state_ids s = some id →
          assoc_find same_items b.lex_state_ids s' = some id → same_items s s' = true))) ∧
    (∀ manager : κ, ParseIds ({ conflict_manager := manager } : TableBuilder κ) ∧
      LexIds ({ conflict_manager := manager } : TableBuilder κ)) ∧
    (∀ b : TableBuilder κ, ParseIds b ∧ LexIds b →
      (∀ fuel item_set id b', add_parse_state E fuel item_set b = some (id, b') →
        ParseIds b' ∧ LexIds b') ∧
      (∀ fuel item_set id b', add_lex_state E fuel item_set b = some (id, b') →
        ParseIds b' ∧ LexIds b') ∧
      (∀ fuel b', add_error_lex_state E fuel b = some b' → ParseIds b' ∧ LexIds b')) := by
  have hK := kept_ids E
  refine ⟨?_, fun manager => ⟨rfl, rfl⟩, fun b hb =>
    ⟨fun fuel item_set id b' h => hK.parse fuel item_set b id b' hb h,
      fun fuel item_set id b' h => hK.lex fuel item_set b id b' hb h,
      fun fuel b' h => hK.error_lex fuel b b' hb h⟩⟩
  intro b hb
  have hids : ParseIds b ∧ LexIds b := by
    rcases hb with hb | ⟨fuel, manager, hb⟩
    · exact ⟨reachable_parse_ids E b hb, reachable_lex_ids E b hb⟩
    · exact build_point_kept E _ hK fuel manager b ⟨rfl, rfl⟩ hb
  have hp : b.parse_state_ids.map Prod.snd = List.range b.parse_table.states.length := hids.1
  have hl : b.lex_state_ids.map Prod.snd =
      (List.range b.lex_table.states.length).map (fun i : Nat => (i : Int)) := hids.2
  have hpn : (b.parse_state_ids.map Prod.snd).Nodup := by
    rw [hp]
    exact List.nodup_range _
  have hln : (b.lex_state_ids.map Prod.snd).Nodup := by
    rw [hl]
    exact (List.nodup_range _).map (fun i j h => Int.ofNat.inj h)
  refine ⟨⟨hp, hpn, ?_, fun s s' id h h' => entry_key_unique _ hpn s s' id h h',
      fun s s' id h h' => find_injective _ hpn s s' id h h'⟩,
    ⟨hl, hln, ?_, fun s s' id h h' => entry_key_unique _ hln s s' id h h',
      fun s s' id h h' => find_injective _ hln s s' id h h'⟩⟩
  · intro id
    rw [hp, List.mem_range]
  · intro id
    rw [hl, List.mem_map]
    constructor
    · rintro ⟨i, hi, rfl⟩
      exact ⟨Int.ofNat_nonneg _, Int.ofNat_lt.mpr (List.mem_range.mp hi)⟩
    · rintro ⟨h0, h1⟩
      exact ⟨id.toNat, List.mem_range.mpr ((Int.toNat_lt h0).mpr h1), Int.toNat_of_nonneg h0⟩

/-- C22, on the small grammar, at a nested call: `build` calls
`add_parse_state` on the start item set, whose loop of `add_shift_actions` calls
`add_parse_state` on its first successor when the start state has been added
and recorded, and nothing else; on that builder `parse_state_ids` has the one
id 0 and `lex_state_ids` none. -/
theorem interning_bijective_witness :
    (record_parse_state (start_item_set Example.collaborators)
        ({ conflict_manager := 0 } : TableBuilder Nat)).parse_state_ids.map Prod.snd =
      List.range (record_parse_state (start_item_set Example.collaborators)
        ({ conflict_manager := 0 } : TableBuilder Nat)).parse_table.states.length ∧
    ((record_parse_state (start_item_set Example.collaborators)
        ({ conflict_manager := 0 } : TableBuilder Nat)).parse_state_ids.map Prod.snd).Nodup ∧
    (record_parse_state (start_item_set Example.collaborators)
        ({ conflict_manager := 0 } : TableBuilder Nat)).parse_state_ids.map Prod.snd = [0] :=
  ⟨((interning_bijective Example.collaborators).1 _
      (Or.inr ⟨3, 0, BuildPoint.parse _
        (ParsePoint.shift 2 (start_item_set Example.collaborators) { conflict_manager := 0 }
          [] (Example.symS, [Example.item1]) [(Example.tokenA, [Example.itemS1])] _ _ _
          rfl (by decide) rfl rfl
          (ParsePoint.entry 2 [Example.item1] _))⟩)).1.1,
    ((interning_bijective Example.collaborators).1 _
      (Or.inr ⟨3, 0, BuildPoint.parse _
        (ParsePoint.shift 2 (start_item_set Example.collaborators) { conflict_manager := 0 }
          [] (Example.symS, [Example.item1]) [(Example.tokenA, [Example.itemS1])] _ _ _
          rfl (by decide) rfl rfl
          (ParsePoint.entry 2 [Example.item1] _))⟩)).1.2.1,
    by decide⟩
